import Mathlib

/-!
# flytrap: the ARP tracking trie (`sbin/flytrap/arp.c`)

A shallow embedding of the 16-ary address trie, the claim state machine of
`packet_analyze_arp` and the expiry sweep, followed by theorems about them.

Conventions of the embedding

* `uint64_t` / `uint32_t` / `unsigned int` values are natural numbers; where the
  C arithmetic can wrap (`ft_time - x`, `nreq++`, `narpn--`) the wrap-around
  modulo `2^64` resp. `2^32` is written out.
* An `ip4_addr` is represented by its host-order value `be32toh(ip4->q)`;
  `ip4_o a k` is the octet `ip4->o[k]`.
* `struct arpn` overlays the leaf fields (`ether`, `nreq`, `claimed`,
  `reserved`) with the child array `sub[16]`, and `first`/`last` with
  `oldest`/`newest`.  The record below keeps `first`/`last` as the shared
  fields (as the C unions do) and gives the leaf fields and `sub` separate
  storage: the code reads the leaf fields only of nodes with `plen == 32` and
  `sub` only of nodes with `plen < 32` in every well-formed trie.
* A pointer to a leaf (`an`) is represented by the address whose nibble path
  leads to it; a write through the pointer is `leaf_write`.
* `calloc` may fail: `Mem.heap` lists the outcomes of the coming calls
  (an exhausted list means success).
* Recursive functions carry a fuel argument; the entry points pass enough fuel
  for the 8 levels of the trie, and running out is reported as a fault.
-/

namespace Flytrap

/-! ## Constants -/

/-- magic value for "never seen" (`UINT64_MAX`) -/
def ARP_NEVER : Nat := 2 ^ 64 - 1

/-- min unanswered ARP requests before we claim an address -/
def ARP_MINREQ : Nat := 3

/-- how long to wait (in ms) before claiming an address -/
def ARP_TIMEOUT : Nat := 3000

/-- age (in ms) of an entry before it is considered stale -/
def ARP_STALE : Nat := 30000

/-- age (in ms) of an entry before it is removed from the tree -/
def ARP_EXPIRE : Nat := 300000

/-- Modelled from the spec: the hardware type constant of `ft/arp.h` (Ethernet). -/
def arp_type_ether : Nat := 1

/-- Modelled from the spec: the protocol type constant of `ft/arp.h` (IPv4). -/
def arp_type_ip4 : Nat := 0x0800

/-- Modelled from the spec: the operation code of a "who-has" request (`ft/arp.h`). -/
def arp_oper_who_has : Nat := 1

/-- Modelled from the spec: the operation code of an "is-at" reply (`ft/arp.h`). -/
def arp_oper_is_at : Nat := 2

/-- Subtraction `a - b` of two `uint64_t` values (both below `2^64`): the
difference modulo `2^64`, which wraps around when `a < b`. -/
def sub64 (a b : Nat) : Nat := if b ≤ a then a - b else a + 2 ^ 64 - b

/-! ## Data model -/

/-- Ethernet address, six octets `o[0..5]`. -/
structure ether_addr where
  o0 : Nat
  o1 : Nat
  o2 : Nat
  o3 : Nat
  o4 : Nat
  o5 : Nat
  deriving DecidableEq

/-- The all-zero Ethernet address that `calloc` leaves in a new node. -/
def ether_zero : ether_addr := ⟨0, 0, 0, 0, 0, 0⟩

/-- Octet `ip4->o[k]` of an address given by its host-order value. -/
def ip4_o (a k : Nat) : Nat := (a >>> (24 - 8 * k)) % 256

/-- A node in the tree (`struct arpn`). -/
structure arpn where
  /-- network address -/
  addr : Nat
  /-- prefix length -/
  plen : Nat
  /-- leaf: first seen (ms); inner node: oldest child -/
  first : Nat
  /-- leaf: last seen (ms); inner node: newest child -/
  last : Nat
  /-- leaf: Ethernet address -/
  ether : ether_addr
  /-- leaf: requests seen -/
  nreq : Nat
  /-- leaf: claimed by us -/
  claimed : Bool
  /-- leaf: reserved address -/
  reserved : Bool
  /-- inner node: children -/
  sub : Fin 16 → Option arpn

/-- Inner-node reading of `first`. -/
abbrev arpn.oldest (n : arpn) : Nat := n.first

/-- Inner-node reading of `last`. -/
abbrev arpn.newest (n : arpn) : Nat := n.last

/-- The counters `narpn`, `nleaves` and the allocator's coming answers. -/
structure Mem where
  narpn : Nat
  nleaves : Nat
  heap : List Bool

/-- The global state of `arp.c`: the root of the tree and the counters. -/
structure State where
  arp_root : arpn
  mem : Mem

/-- Ways in which a call does not return. -/
inductive Fault where
  | assert_failed
  | out_of_fuel
  deriving DecidableEq

/-- An ARP packet with its 16-bit fields in host order. -/
structure arp_pkt where
  htype : Nat
  ptype : Nat
  hlen : Nat
  plen : Nat
  oper : Nat
  sha : ether_addr
  spa : Nat
  tha : ether_addr
  tpa : Nat
  deriving DecidableEq

/-- Size in bytes of `arp_pkt`. -/
def sizeof_arp_pkt : Nat := 28

/-- The static initial root `arp_root = { .first = ARP_NEVER }`. -/
def arp_root0 : arpn :=
  { addr := 0, plen := 0, first := ARP_NEVER, last := 0, ether := ether_zero,
    nreq := 0, claimed := false, reserved := false, sub := fun _ => none }

/-- The initial state: empty tree, zero counters. -/
def State.init (heap : List Bool) : State :=
  { arp_root := arp_root0, mem := { narpn := 0, nleaves := 0, heap := heap } }

/-- An array index `x % 16`. -/
def idx (x : Nat) : Fin 16 := ⟨x % 16, Nat.mod_lt x (by decide)⟩

/-! ## Tree operations -/

/-- Outcome of `calloc`: the head of `heap`, success when the list is exhausted. -/
def calloc (m : Mem) : Bool × Mem :=
  match m.heap with
  | [] => (true, m)
  | b :: rest => (b, { m with heap := rest })

/-- The node that `arp_new addr plen` fills in after a successful `calloc`:
`addr & -(1 << (32 - plen))`, `plen`, `first = ARP_NEVER`, `last = 0`, the
rest zero. -/
def new_node (addr plen : Nat) : arpn :=
  { addr := addr &&& (2 ^ 32 - (1 <<< (32 - plen))), plen := plen, first := ARP_NEVER, last := 0,
    ether := ether_zero, nreq := 0, claimed := false, reserved := false, sub := fun _ => none }

/-- Create a node for the subnet of the specified prefix length which contains
the specified address; `none` is `NULL`. -/
def arp_new (addr plen : Nat) (m : Mem) : Option arpn × Mem :=
  match calloc m with
  | (false, m) => (none, m)
  | (true, m) => (some (new_node addr plen), { m with narpn := (m.narpn + 1) % 2 ^ 32 })

/-- The assignment `n->sub[i] = c`. -/
def arpn.set_sub (n : arpn) (i : Fin 16) (c : Option arpn) : arpn :=
  { n with sub := Function.update n.sub i c }

/-- The leaf case of `arp_insert`:
`if (ft_time < n->first) n->first = ft_time; if (ft_time > n->last) n->last = ft_time;` -/
def touch (n : arpn) (ft_time : Nat) : arpn :=
  let n := if ft_time < n.first then { n with first := ft_time } else n
  if ft_time > n.last then { n with last := ft_time } else n

/-- The fence update shared by `arp_insert` and `arp_expire`:
`if (sn->newest < n->oldest) n->oldest = sn->newest;
 if (sn->newest > n->newest) n->newest = sn->newest;` -/
def bump (n sn : arpn) : arpn :=
  let n := if sn.newest < n.oldest then { n with first := sn.newest } else n
  if sn.newest > n.newest then { n with last := sn.newest } else n

/-- Delete a node and all its descendants: only the counters change. -/
def arp_delete : Nat → arpn → Mem → Except Fault Mem
  | 0, _, _ => .error .out_of_fuel
  | fuel + 1, n, m =>
    match (if n.plen = 32 then
        Except.ok { m with nleaves := (m.nleaves + 2 ^ 32 - 1) % 2 ^ 32 }
      else
        (List.finRange 16).foldlM
          (fun m i =>
            match n.sub i with
            | none => Except.ok m
            | some c => arp_delete fuel c m) m) with
    | .error e => .error e
    | .ok m => .ok { m with narpn := (m.narpn + 2 ^ 32 - 1) % 2 ^ 32 }

/-- One iteration of the loop over the children in `arp_expire`;
`expire` is the recursive call on a child, `fuel` what `arp_delete` may use. -/
def arp_expire_child (fuel : Nat) (expire : arpn → Mem → Except Fault (arpn × Mem))
    (cutoff : Nat) (nm : arpn × Mem) (i : Fin 16) : Except Fault (arpn × Mem) :=
  match nm.1.sub i with
  | none => .ok nm
  | some c =>
    -- check descendants first
    match (if c.plen < 32 ∧ c.oldest < cutoff then expire c nm.2 else .ok (c, nm.2)) with
    | .error e => .error e
    | .ok (c, m) =>
      if c.newest < cutoff then
        -- expired or empty
        match arp_delete fuel c m with
        | .error e => .error e
        | .ok m => .ok (nm.1.set_sub i none, m)
      else
        -- update our fences
        .ok (bump (nm.1.set_sub i (some c)) c, m)

/-- Expire: delete every child whose `newest` is below the cutoff, after
descending into the inner children whose `oldest` is below it. -/
def arp_expire : Nat → arpn → Nat → Mem → Except Fault (arpn × Mem)
  | 0, _, _, _ => .error .out_of_fuel
  | fuel + 1, n, cutoff, m =>
    -- reset fences, then iterate over children
    (List.finRange 16).foldlM
      (arp_expire_child (fuel + 1) (fun c m => arp_expire fuel c cutoff m) cutoff)
      ({ n with first := ARP_NEVER, last := 0 }, m)

/-- Insert an address into a tree.  Returns the leaf (`none` for `NULL`), the
node the call was made on as the call leaves it, and the counters. -/
def arp_insert : Nat → arpn → Nat → Nat → Mem → Except Fault (Option arpn × arpn × Mem)
  | 0, _, _, _, _ => .error .out_of_fuel
  | fuel + 1, n, addr, ft_time, m =>
    if n.plen = 32 then
      -- ft_assert(n->addr == addr)
      if n.addr ≠ addr then .error .assert_failed
      else .ok (some (touch n ft_time), touch n ft_time, m)
    else
      let splen := (n.plen + 4) % 256
      let sub := idx ((addr >>> (32 - splen)) % 16)
      -- sn = n->sub[sub], created and attached when it is NULL
      match (match n.sub sub with
          | some sn => (some sn, n, m)
          | none =>
            match arp_new addr splen m with
            | (none, m) => (none, n, m)
            | (some sn, m) =>
              (some sn, n.set_sub sub (some sn),
                if sn.plen = 32 then { m with nleaves := (m.nleaves + 1) % 2 ^ 32 } else m)) with
      | (none, n, m) => .ok (none, n, m)
      | (some sn, n, m) =>
        match arp_insert fuel sn addr ft_time m with
        | .error e => .error e
        | .ok (none, sn, m) => .ok (none, n.set_sub sub (some sn), m)
        | .ok (some rn, sn, m) =>
          -- for non-leaf nodes, first / last means oldest / newest
          .ok (some rn, bump (n.set_sub sub (some sn)) sn, m)

/-- The node `h` levels below `n` on the nibble path of `addr`
(nibble `h - 1` first, nibble `0` last). -/
def descend : Nat → arpn → Nat → Option arpn
  | 0, n, _ => some n
  | h + 1, n, addr =>
    match n.sub (idx (addr >>> (4 * h))) with
    | none => none
    | some c => descend h c addr

/-- Assignment through a leaf pointer: replace the node `h` levels below `n`
on the nibble path of `addr` by `l`. -/
def leaf_write : Nat → arpn → Nat → arpn → arpn
  | 0, _, _, l => l
  | h + 1, n, addr, l =>
    match n.sub (idx (addr >>> (4 * h))) with
    | none => n
    | some c => n.set_sub (idx (addr >>> (4 * h))) (some (leaf_write h c addr l))

/-! ## Entry points -/

/-- Periodic maintenance: `now = tv->tv_sec * 1000`, sweep from the root. -/
def arp_periodic (s : State) (tv_sec : Nat) : Except Fault State :=
  let now := (tv_sec * 1000) % 2 ^ 64
  match arp_expire 8 s.arp_root (sub64 now ARP_EXPIRE) s.mem with
  | .error e => .error e
  | .ok (root, m) => .ok { arp_root := root, mem := m }

/-- ARP registration; the returned integer is the C return value. -/
def arp_register (s : State) (ft_time : Nat) (ip4 : Nat) (ether : ether_addr) :
    Except Fault (Int × State) :=
  match arp_insert 9 s.arp_root ip4 ft_time s.mem with
  | .error e => .error e
  | .ok (none, root, m) => .ok (-1, { arp_root := root, mem := m })
  | .ok (some an, root, m) =>
    let an := if an.ether ≠ ether then { an with ether := ether } else an
    let an := { an with nreq := 0 }
    .ok (0, { arp_root := leaf_write 8 root ip4 an, mem := m })

/-- The descent of `arp_lookup`: the node reached after the eight steps
`o[0] / 16, o[0] % 16, ..., o[3] / 16, o[3] % 16`. -/
def arp_lookup_node (root : arpn) (ip4 : Nat) : Option arpn := do
  let an ← root.sub (idx (ip4_o ip4 0 / 16))
  let an ← an.sub (idx (ip4_o ip4 0 % 16))
  let an ← an.sub (idx (ip4_o ip4 1 / 16))
  let an ← an.sub (idx (ip4_o ip4 1 % 16))
  let an ← an.sub (idx (ip4_o ip4 2 / 16))
  let an ← an.sub (idx (ip4_o ip4 2 % 16))
  let an ← an.sub (idx (ip4_o ip4 3 / 16))
  let an ← an.sub (idx (ip4_o ip4 3 % 16))
  pure an

/-- ARP lookup: `none` is the return value `-1`, `some e` is `0` with `*ether = e`. -/
def arp_lookup (s : State) (ip4 : Nat) : Option ether_addr :=
  match arp_lookup_node s.arp_root ip4 with
  | none => none
  | some an => some an.ether

/-- The call `arp_lookup(ip4, ether)` with its effects written out: the return
value, the contents of `*ether` after the call (`ether` before it) and the
global state after the call.  The body stores to `*ether` only. -/
def arp_lookup_call (s : State) (ip4 : Nat) (ether : ether_addr) : Int × ether_addr × State :=
  match arp_lookup_node s.arp_root ip4 with
  | none => (-1, ether, s)
  | some an => (0, an.ether, s)

/-- The reply built by `arp_reply` (claim an IP address); `iface` is
`fl->p->i->ether`. -/
def arp_reply (iface : ether_addr) (iap : arp_pkt) : arp_pkt :=
  { htype := arp_type_ether
    ptype := arp_type_ip4
    hlen := 6
    plen := 4
    oper := arp_oper_is_at
    sha := iface
    spa := iap.tpa
    tha := iap.sha
    tpa := iap.spa }

/-- Register a reserved address. -/
def arp_reserve (s : State) (ft_time : Nat) (addr : Nat) : Except Fault (Int × State) :=
  match arp_insert 9 s.arp_root addr ft_time s.mem with
  | .error e => .error e
  | .ok (none, root, m) => .ok (-1, { arp_root := root, mem := m })
  | .ok (some an, root, m) =>
    let an := { an with first := 0, last := 0 }
    let an := { an with reserved := true }
    .ok (0, { arp_root := leaf_write 8 root addr an, mem := m })

/-- The who-has case of `packet_analyze_arp` from the test of `an->first`
to the `break`, on the leaf `an` that `arp_insert` returned: the leaf after
it and the reply handed to `arp_reply`, if any. -/
def analyze_target (an : arpn) (ft_time : Nat) (iface : ether_addr) (ap : arp_pkt) :
    arpn × Option arp_pkt :=
  -- new entry
  let an := if an.first = ARP_NEVER then { an with first := ft_time } else an
  if an.reserved then
    -- ignore
    ({ an with nreq := 0 }, none)
  else if an.claimed then
    -- already ours, refresh
    ({ an with nreq := 0 }, some (arp_reply iface ap))
  else if an.nreq = 0 ∨ sub64 ft_time an.last ≥ ARP_STALE then
    -- new or stale, start over
    ({ an with nreq := 1, first := ft_time }, none)
  else if an.nreq ≥ ARP_MINREQ ∧ sub64 ft_time an.first ≥ ARP_TIMEOUT then
    -- claim new address
    ({ an with ether := iface, claimed := true, nreq := 0 }, some (arp_reply iface ap))
  else
    ({ an with nreq := (an.nreq + 1) % 2 ^ 32, last := ft_time }, none)

/-- The "run expiry" step that ends `packet_analyze_arp`. -/
def run_expiry (s : State) (ft_time : Nat) : Except Fault State :=
  if s.arp_root.oldest < sub64 ft_time ARP_EXPIRE then
    match arp_expire 8 s.arp_root (sub64 ft_time ARP_EXPIRE) s.mem with
    | .error e => .error e
    | .ok (root, m) => .ok { arp_root := root, mem := m }
  else
    .ok s

/-- The test `dst_set && !ip4s_lookup(dst_set, tpa)`; `dst_set` is `none` for a
null pointer and otherwise the membership test of the configured set. -/
def out_of_bounds (dst_set : Option (Nat → Bool)) (tpa : Nat) : Bool :=
  match dst_set with
  | none => false
  | some ip4s_lookup => !ip4s_lookup tpa

/-- The who-has case of `packet_analyze_arp` up to its `break`: `some r` when
the function returns `r` from inside the case, `none` when it goes on to the
expiry; with the state and the replies handed to `ethernet_reply`. -/
def analyze_who_has (s : State) (ft_time : Nat) (dst_set : Option (Nat → Bool))
    (iface : ether_addr) (reply_ok : Bool) (ap : arp_pkt) :
    Except Fault (Option Int × State × List arp_pkt) :=
  if out_of_bounds dst_set ap.tpa then
    -- target address is out of bounds
    .ok (none, s, [])
  else
    -- register sender
    match arp_register s ft_time ap.spa ap.sha with
    | .error e => .error e
    | .ok (_, s) =>
      match arp_insert 9 s.arp_root ap.tpa ft_time s.mem with
      | .error e => .error e
      | .ok (none, root, m) => .ok (some (-1), { arp_root := root, mem := m }, [])
      | .ok (some an, root, m) =>
        match analyze_target an ft_time iface ap with
        | (an, none) => .ok (none, { arp_root := leaf_write 8 root ap.tpa an, mem := m }, [])
        | (an, some r) =>
          .ok (if reply_ok then none else some (-1),
            { arp_root := leaf_write 8 root ap.tpa an, mem := m }, [r])

/-- The is-at case of `packet_analyze_arp`. -/
def analyze_is_at (s : State) (ft_time : Nat) (ap : arp_pkt) : Except Fault State :=
  match arp_register s ft_time ap.spa ap.sha with
  | .error e => .error e
  | .ok (_, s) =>
    match arp_register s ft_time ap.tpa ap.tha with
    | .error e => .error e
    | .ok (_, s) => .ok s

/-- Analyze a captured ARP packet.  `iface` is the Ethernet address of the
receiving interface, `reply_ok` whether `ethernet_reply` succeeds.  Returns
the C return value, the state and the replies handed to `ethernet_reply`. -/
def packet_analyze_arp (s : State) (ft_time : Nat) (dst_set : Option (Nat → Bool))
    (iface : ether_addr) (reply_ok : Bool) (ap : arp_pkt) (len : Nat) :
    Except Fault (Int × State × List arp_pkt) :=
  if len < sizeof_arp_pkt then .ok (-1, s, [])
  else if ap.htype ≠ arp_type_ether ∨ ap.hlen ≠ 6 ∨ ap.ptype ≠ arp_type_ip4 ∨ ap.plen ≠ 4 then
    .ok (0, s, [])
  else if ap.oper = arp_oper_who_has then
    -- ARP request
    match analyze_who_has s ft_time dst_set iface reply_ok ap with
    | .error e => .error e
    | .ok (some r, s, out) => .ok (r, s, out)
    | .ok (none, s, out) =>
      match run_expiry s ft_time with
      | .error e => .error e
      | .ok s => .ok (0, s, out)
  else if ap.oper = arp_oper_is_at then
    -- ARP reply
    match analyze_is_at s ft_time ap with
    | .error e => .error e
    | .ok s =>
      match run_expiry s ft_time with
      | .error e => .error e
      | .ok s => .ok (0, s, [])
  else
    -- unknown operation
    .ok (0, s, [])

/-! ## Well-formed tries and closed forms of the tree operations -/

/-- A well-formed subtree of height `h`: prefix lengths go up by 4 per level
down to the leaves (`plen = 32` at height 0), and a child in slot `i` covers
the `i`-th sixteenth of its parent's block. -/
def WF : Nat → arpn → Prop
  | 0, n => n.plen = 32
  | h + 1, n =>
    n.plen + 4 * (h + 1) = 32 ∧
      ∀ i c, n.sub i = some c → c.addr = n.addr + i.val * 2 ^ (4 * h) ∧ WF h c

/-- The block of node `n` at height `h` contains `a`. -/
def covers (h : Nat) (n : arpn) (a : Nat) : Prop := a / 2 ^ (4 * h) * 2 ^ (4 * h) = n.addr

/-- A well-formed state: the root is a well-formed tree of height 8 for `0.0.0.0/0`. -/
def State.wf (s : State) : Prop := WF 8 s.arp_root ∧ s.arp_root.addr = 0

/-- Closed form of the subtree that a successful `arp_insert` leaves behind. -/
def ins_tree : Nat → arpn → Nat → Nat → arpn
  | 0, n, _, ft_time => touch n ft_time
  | h + 1, n, addr, ft_time =>
    let i := idx (addr >>> (4 * h))
    let c := ins_tree h (match n.sub i with
      | some c => c
      | none => new_node addr (32 - 4 * h)) addr ft_time
    bump (n.set_sub i (some c)) c

/-- The leaf of `addr` below `n` before an insertion: the stored one, or the
node `arp_new addr 32` creates when there is none. -/
def old_leaf (h : Nat) (n : arpn) (addr : Nat) : arpn :=
  match descend h n addr with
  | some l => l
  | none => new_node addr 32

/-- Every node on the nibble path of `addr` strictly below `n` exists and has
`newest` (for the leaf: `last`) at least `c`. -/
def path_fresh : Nat → arpn → Nat → Nat → Prop
  | 0, _, _, _ => True
  | h + 1, n, addr, c =>
    ∃ sn, n.sub (idx (addr >>> (4 * h))) = some sn ∧ c ≤ sn.newest ∧ path_fresh h sn addr c

/-- Minimum of `f` and the `newest` of a child pointer, a null pointer leaving `f`. -/
def fmin (f : Nat) (o : Option arpn) : Nat :=
  match o with
  | none => f
  | some c => min f c.newest

/-- Maximum of `f` and the `newest` of a child pointer, a null pointer leaving `f`. -/
def fmax (f : Nat) (o : Option arpn) : Nat :=
  match o with
  | none => f
  | some c => max f c.newest

/-- The minimum of `newest` over the children present in `n`, `ARP_NEVER` when
there is none. -/
def fence_min (n : arpn) : Nat :=
  (List.finRange 16).foldl (fun f i => fmin f (n.sub i)) ARP_NEVER

/-- The maximum of `newest` over the children present in `n`, `0` when there is none. -/
def fence_max (n : arpn) : Nat :=
  (List.finRange 16).foldl (fun f i => fmax f (n.sub i)) 0

/-- What `arp_expire` makes of one child pointer: the child after the descent
into it, or null when it is deleted; `expire` is the recursive call. -/
def exp_kid (expire : arpn → arpn) (cutoff : Nat) (o : Option arpn) : Option arpn :=
  match o with
  | none => none
  | some c =>
    let c := if c.plen < 32 ∧ c.oldest < cutoff then expire c else c
    if c.newest < cutoff then none else some c

/-- One iteration of the loop of `arp_expire` on the tree alone. -/
def exp_child (expire : arpn → arpn) (cutoff : Nat) (n : arpn) (i : Fin 16) : arpn :=
  match exp_kid expire cutoff (n.sub i) with
  | none => n.set_sub i none
  | some c => bump (n.set_sub i (some c)) c

/-- The tree that `arp_expire` leaves behind, without the counters. -/
def exp_tree : Nat → arpn → Nat → arpn
  | 0, n, _ => n
  | h + 1, n, cutoff =>
    (List.finRange 16).foldl (exp_child (fun c => exp_tree h c cutoff) cutoff)
      { n with first := ARP_NEVER, last := 0 }

/-- A well-formed who-has request of `len` bytes: long enough, Ethernet and
IPv4 header fields, operation who-has, 32-bit protocol addresses. -/
def who_has_pkt (ap : arp_pkt) (len : Nat) : Prop :=
  sizeof_arp_pkt ≤ len ∧ ap.htype = arp_type_ether ∧ ap.hlen = 6 ∧ ap.ptype = arp_type_ip4 ∧
    ap.plen = 4 ∧ ap.oper = arp_oper_who_has ∧ ap.spa < 2 ^ 32 ∧ ap.tpa < 2 ^ 32

instance (ap : arp_pkt) (len : Nat) : Decidable (who_has_pkt ap len) := by
  unfold who_has_pkt; infer_instance

/-- A well-formed is-at reply of `len` bytes: long enough, Ethernet and IPv4
header fields, operation is-at, 32-bit protocol addresses. -/
def is_at_pkt (ap : arp_pkt) (len : Nat) : Prop :=
  sizeof_arp_pkt ≤ len ∧ ap.htype = arp_type_ether ∧ ap.hlen = 6 ∧ ap.ptype = arp_type_ip4 ∧
    ap.plen = 4 ∧ ap.oper = arp_oper_is_at ∧ ap.spa < 2 ^ 32 ∧ ap.tpa < 2 ^ 32

instance (ap : arp_pkt) (len : Nat) : Decidable (is_at_pkt ap len) := by
  unfold is_at_pkt; infer_instance

/-! ## Predicates of the statements -/

/-- The leaf `l` is being probed: neither reserved nor claimed, `n` requests
counted, first seen at `t1`, last seen at `t`. -/
def probing (l : arpn) (t1 t n : Nat) : Prop :=
  l.reserved = false ∧ l.claimed = false ∧ l.nreq = n ∧ l.first = t1 ∧ l.last = t

/-- The node `k` child steps below `n`, a node of height `h`, on the nibble path
of `addr`.  From the root (`h = 8`) the `j`-th step uses the `j`-th most
significant nibble of `addr`; there is no step below a leaf. -/
def walk : Nat → Nat → arpn → Nat → Option arpn
  | _, 0, n, _ => some n
  | 0, _ + 1, _, _ => none
  | h + 1, k + 1, n, addr =>
    match n.sub (idx (addr >>> (4 * h))) with
    | none => none
    | some c => walk h k c addr

/-- The fences of an inner node as the code maintains them: `newest` is the
maximum of `newest` over the children present, `oldest` is at most their
minimum, and a node without children has `oldest = ARP_NEVER`, `newest = 0`. -/
def fence_ok (n : arpn) : Prop :=
  n.newest = fence_max n ∧ n.oldest ≤ fence_min n ∧
    ((∀ i, n.sub i = none) → n.oldest = ARP_NEVER ∧ n.newest = 0)

/-- Exact fences: `oldest` is the minimum and `newest` the maximum of `newest`
over the children present (`ARP_NEVER` and `0` when there is none). -/
def fence_exact (n : arpn) : Prop :=
  n.oldest = fence_min n ∧ n.newest = fence_max n

/-- The property `P` holds of every inner node of a subtree of height `h`. -/
def all_inner (P : arpn → Prop) : Nat → arpn → Prop
  | 0, _ => True
  | h + 1, n => P n ∧ ∀ i c, n.sub i = some c → all_inner P h c

/-- The invariant of the fences under a clock that does not run backwards:
no leaf was seen after `now`, and every inner node satisfies `fence_ok`. -/
def Inv (now : Nat) : Nat → arpn → Prop
  | 0, n => n.last ≤ now
  | h + 1, n => fence_ok n ∧ ∀ i c, n.sub i = some c → Inv now h c

/-- Trees reachable from the empty trie, with the clock value reached, when the
clock never runs backwards and `calloc` does not fail: by `arp_insert`,
`arp_register`, `packet_analyze_arp` (any packet), `arp_expire` from the root
with any cutoff, and `arp_periodic`.  The counters are left free: they do not
influence the tree. -/
inductive Reach : arpn → Nat → Prop
  | init : Reach arp_root0 0
  | tick {n : arpn} {t t' : Nat} : Reach n t → t ≤ t' → Reach n t'
  | insert {n : arpn} {t a : Nat} {m : Mem} {r : Option arpn} {n' : arpn} {m' : Mem} :
      Reach n t → a < 2 ^ 32 → m.heap = [] →
      arp_insert 9 n a t m = .ok (r, n', m') → Reach n' t
  | register {n : arpn} {t a : Nat} {e : ether_addr} {m : Mem} {r : Int} {s' : State} :
      Reach n t → a < 2 ^ 32 → m.heap = [] →
      arp_register { arp_root := n, mem := m } t a e = .ok (r, s') → Reach s'.arp_root t
  | packet {n : arpn} {t : Nat} {m : Mem} {dst_set : Option (Nat → Bool)} {iface : ether_addr}
      {reply_ok : Bool} {ap : arp_pkt} {len : Nat} {r : Int} {s' : State} {out : List arp_pkt} :
      Reach n t → m.heap = [] → ap.spa < 2 ^ 32 → ap.tpa < 2 ^ 32 →
      packet_analyze_arp { arp_root := n, mem := m } t dst_set iface reply_ok ap len =
        .ok (r, s', out) → Reach s'.arp_root t
  | expire {n : arpn} {t cutoff : Nat} {m : Mem} {n' : arpn} {m' : Mem} :
      Reach n t → arp_expire 8 n cutoff m = .ok (n', m') → Reach n' t
  | periodic {n : arpn} {t tv_sec : Nat} {m : Mem} {s' : State} :
      Reach n t → arp_periodic { arp_root := n, mem := m } tv_sec = .ok s' → Reach s'.arp_root t

/-- The number of nodes `arp_insert` has to allocate for `addr` below the node
`n` of height `h`: the levels from the first absent node on the nibble path of
`addr` down to the leaf. -/
def missing : Nat → arpn → Nat → Nat
  | 0, _, _ => 0
  | h + 1, n, addr =>
    match n.sub (idx (addr >>> (4 * h))) with
    | none => h + 1
    | some c => missing h c addr

/-- In the subtree of height `h` at `n`, no child has a greater `newest` (for a
leaf: `last`) than its parent. -/
def newest_ge : Nat → arpn → Prop
  | 0, _ => True
  | h + 1, n => ∀ i c, n.sub i = some c → c.newest ≤ n.newest ∧ newest_ge h c

/-- Trees reachable from the empty trie by the operations of `arp.c` in any
order: `arp_insert`, `arp_register`, `arp_reserve`, `packet_analyze_arp` (any
packet with 32-bit addresses), `arp_expire` from the root with any cutoff, and
`arp_periodic`; with any clock values, and with any outcome of the
allocations (the counters and the allocator's answers are left free). -/
inductive Reachable : arpn → Prop
  | init : Reachable arp_root0
  | insert {n : arpn} {a ft : Nat} {m : Mem} {r : Option arpn} {n' : arpn} {m' : Mem} :
      Reachable n → a < 2 ^ 32 → arp_insert 9 n a ft m = .ok (r, n', m') → Reachable n'
  | register {n : arpn} {ft a : Nat} {e : ether_addr} {m : Mem} {r : Int} {s' : State} :
      Reachable n → a < 2 ^ 32 →
      arp_register { arp_root := n, mem := m } ft a e = .ok (r, s') → Reachable s'.arp_root
  | reserve {n : arpn} {ft a : Nat} {m : Mem} {r : Int} {s' : State} :
      Reachable n → a < 2 ^ 32 →
      arp_reserve { arp_root := n, mem := m } ft a = .ok (r, s') → Reachable s'.arp_root
  | packet {n : arpn} {ft : Nat} {m : Mem} {dst_set : Option (Nat → Bool)} {iface : ether_addr}
      {reply_ok : Bool} {ap : arp_pkt} {len : Nat} {r : Int} {s' : State} {out : List arp_pkt} :
      Reachable n → ap.spa < 2 ^ 32 → ap.tpa < 2 ^ 32 →
      packet_analyze_arp { arp_root := n, mem := m } ft dst_set iface reply_ok ap len =
        .ok (r, s', out) → Reachable s'.arp_root
  | expire {n : arpn} {cutoff : Nat} {m : Mem} {n' : arpn} {m' : Mem} :
      Reachable n → arp_expire 8 n cutoff m = .ok (n', m') → Reachable n'
  | periodic {n : arpn} {tv_sec : Nat} {m : Mem} {s' : State} :
      Reachable n → arp_periodic { arp_root := n, mem := m } tv_sec = .ok s' →
      Reachable s'.arp_root

/-- The pointers returned by successive calls of `arp_insert` for `addr`, one
per clock value of the list, each call made on the tree and counters the call
before it left, with no other write in between. -/
def insert_calls (addr : Nat) : List Nat → arpn → Mem → List (Option arpn)
  | [], _, _ => []
  | ft_time :: rest, n, m =>
    match arp_insert 9 n addr ft_time m with
    | .error _ => []
    | .ok (r, n, m) => r :: insert_calls addr rest n m

/-! ## Reading the result of a call -/

/-- The state of an `Except` computation that returned, the empty state otherwise. -/
def state_of {α : Type} (x : Except Fault (α × State)) : State :=
  match x with
  | .ok (_, s) => s
  | .error _ => State.init []

/-- The state after a packet, the empty state if the call did not return. -/
def pkt_state (x : Except Fault (Int × State × List arp_pkt)) : State :=
  match x with
  | .ok (_, s, _) => s
  | .error _ => State.init []

/-- The return value of a call that returned. -/
def pkt_ret (x : Except Fault (Int × State × List arp_pkt)) : Option Int :=
  match x with
  | .ok (r, _, _) => some r
  | .error _ => none

/-- The replies a call handed to `ethernet_reply`. -/
def pkt_out (x : Except Fault (Int × State × List arp_pkt)) : List arp_pkt :=
  match x with
  | .ok (_, _, out) => out
  | .error _ => []

/-- The pointer `arp_insert` returned, `none` for `NULL` or when it did not return. -/
def insert_ret (x : Except Fault (Option arpn × arpn × Mem)) : Option arpn :=
  match x with
  | .ok (r, _, _) => r
  | .error _ => none

/-- The state after a call of `arp_periodic`, the empty state if it did not return. -/
def tick_state (x : Except Fault State) : State :=
  match x with
  | .ok s => s
  | .error _ => State.init []

/-! ## The address-range set and its test -/

/-- Modelled from the spec: a node of the address-range set (`ip4s_node`).  The
set is a collection of disjoint CIDR-aligned blocks: a node stands for a block
of `2^k` addresses and is empty, fully covered, or split into its two halves. -/
inductive ip4s_node where
  | empty
  | full
  | split (lo hi : ip4s_node)
  deriving DecidableEq

/-- Modelled from the spec: a fresh, empty set (`ip4s_new`). -/
def ip4s_new : ip4s_node := .empty

/-- Modelled from the spec: aggregation.  Two halves that are both fully
covered, or both empty, are merged into one block. -/
def ip4s_join (lo hi : ip4s_node) : ip4s_node :=
  match lo, hi with
  | .full, .full => .full
  | .empty, .empty => .empty
  | lo, hi => .split lo hi

/-- Modelled from the spec: the two halves of a block. -/
def ip4s_halves (n : ip4s_node) : ip4s_node × ip4s_node :=
  match n with
  | .empty => (.empty, .empty)
  | .full => (.full, .full)
  | .split lo hi => (lo, hi)

/-- Modelled from the spec: insertion of the inclusive range `first..last` into
the block of `2^k` addresses starting at `base`. -/
def ip4s_insert_at : Nat → Nat → ip4s_node → Nat → Nat → ip4s_node
  | 0, base, n, first, last => if first ≤ base ∧ base ≤ last then .full else n
  | k + 1, base, n, first, last =>
    if last < base ∨ base + 2 ^ (k + 1) ≤ first ∨ last < first then n
    else if first ≤ base ∧ base + 2 ^ (k + 1) - 1 ≤ last then .full
    else
      ip4s_join (ip4s_insert_at k base (ip4s_halves n).1 first last)
        (ip4s_insert_at k (base + 2 ^ k) (ip4s_halves n).2 first last)

/-- Modelled from the spec: removal of the inclusive range `first..last` from
the block of `2^k` addresses starting at `base`, splitting a block that is
only partially covered by the range. -/
def ip4s_remove_at : Nat → Nat → ip4s_node → Nat → Nat → ip4s_node
  | 0, base, n, first, last => if first ≤ base ∧ base ≤ last then .empty else n
  | k + 1, base, n, first, last =>
    if last < base ∨ base + 2 ^ (k + 1) ≤ first ∨ last < first then n
    else if first ≤ base ∧ base + 2 ^ (k + 1) - 1 ≤ last then .empty
    else
      ip4s_join (ip4s_remove_at k base (ip4s_halves n).1 first last)
        (ip4s_remove_at k (base + 2 ^ k) (ip4s_halves n).2 first last)

/-- Modelled from the spec: membership of `a` in the block of `2^k` addresses
starting at `base`. -/
def ip4s_lookup_at : Nat → Nat → ip4s_node → Nat → Bool
  | _, _, .empty, _ => false
  | _, _, .full, _ => true
  | 0, _, .split _ _, _ => false
  | k + 1, base, .split lo hi, a =>
    if a < base + 2 ^ k then ip4s_lookup_at k base lo a else ip4s_lookup_at k (base + 2 ^ k) hi a

/-- Modelled from the spec: the number of addresses in a block of `2^k` addresses. -/
def ip4s_count_at : Nat → ip4s_node → Nat
  | _, .empty => 0
  | k, .full => 2 ^ k
  | 0, .split _ _ => 0
  | k + 1, .split lo hi => ip4s_count_at k lo + ip4s_count_at k hi

/-- Modelled from the spec: `ip4s_insert(n, first, last)` adds every address of
the inclusive range; the set after the call (the call returns 0). -/
def ip4s_insert (n : ip4s_node) (first last : Nat) : ip4s_node := ip4s_insert_at 32 0 n first last

/-- Modelled from the spec: `ip4s_remove(n, first, last)` removes every address
of the inclusive range; the set after the call (the call returns 0). -/
def ip4s_remove (n : ip4s_node) (first last : Nat) : ip4s_node := ip4s_remove_at 32 0 n first last

/-- Modelled from the spec: `ip4s_lookup(n, addr)`, membership of an address. -/
def ip4s_lookup (n : ip4s_node) (addr : Nat) : Bool := ip4s_lookup_at 32 0 n addr

/-- Modelled from the spec: `ip4s_count(n)`, the exact cardinality. -/
def ip4s_count (n : ip4s_node) : Nat := ip4s_count_at 32 n

/-- Membership of `a` in the union of the inclusive ranges `rs`. -/
def in_ranges (rs : List (Nat × Nat)) (a : Nat) : Bool :=
  rs.any (fun r => decide (r.1 ≤ a ∧ a ≤ r.2))

/-- The set after the ranges `ins` have been inserted into a fresh set and then
the ranges `rem` removed, as `t_ip4s` builds it. -/
def ip4s_build (ins rem : List (Nat × Nat)) : ip4s_node :=
  rem.foldl (fun n r => ip4s_remove n r.1 r.2)
    (ins.foldl (fun n r => ip4s_insert n r.1 r.2) ip4s_new)

/-- Host-order value of the dotted quad `a.b.c.d`. -/
def ip4 (a b c d : Nat) : Nat := ((a * 256 + b) * 256 + c) * 256 + d

/-- Modelled from the spec: the inclusive range that `ip4_parse_range` reads
from `addr/plen`, for an address aligned to the prefix length. -/
def ip4_cidr (addr plen : Nat) : Nat × Nat := (addr, addr + 2 ^ (32 - plen) - 1)

/-- Modelled from the spec: the range that `ip4_parse_range` reads from a single address. -/
def ip4_single (addr : Nat) : Nat × Nat := (addr, addr)

/-- A test case (`struct t_ip4s_case`), its strings given as the lists of
inclusive ranges that `ip4_parse_range` reads from them. -/
structure t_ip4s_case where
  desc : String
  insert : List (Nat × Nat)
  remove : List (Nat × Nat)
  count : Nat
  present : List (Nat × Nat)
  absent : List (Nat × Nat)

/-- The table of test cases for the set. -/
def t_ip4s_cases : List t_ip4s_case :=
  [ { desc := "empty", insert := [], remove := [], count := 0, present := [], absent := [] },
    { desc := "full", insert := [ip4_cidr (ip4 0 0 0 0) 0], remove := [], count := 2 ^ 32,
      present := [ip4_single (ip4 0 0 0 0), ip4_single (ip4 127 255 255 255),
        ip4_single (ip4 128 0 0 0), ip4_single (ip4 255 255 255 255)], absent := [] },
    { desc := "half full", insert := [ip4_cidr (ip4 0 0 0 0) 1], remove := [], count := 2 ^ 31,
      present := [ip4_single (ip4 0 0 0 0), ip4_single (ip4 127 255 255 255)],
      absent := [ip4_single (ip4 128 0 0 0), ip4_single (ip4 255 255 255 255)] },
    { desc := "half empty", insert := [ip4_cidr (ip4 0 0 0 0) 0],
      remove := [ip4_cidr (ip4 128 0 0 0) 1], count := 2 ^ 31,
      present := [ip4_single (ip4 0 0 0 0), ip4_single (ip4 127 255 255 255)],
      absent := [ip4_single (ip4 128 0 0 0), ip4_single (ip4 255 255 255 255)] },
    { desc := "single insertion", insert := [ip4_single (ip4 172 16 23 42)], remove := [],
      count := 1, present := [ip4_single (ip4 172 16 23 42)],
      absent := [ip4_single (ip4 0 0 0 0), ip4_single (ip4 172 16 23 41),
        ip4_single (ip4 172 16 23 43), ip4_single (ip4 255 255 255 255)] },
    { desc := "single removal", insert := [ip4_cidr (ip4 0 0 0 0) 0],
      remove := [ip4_single (ip4 172 16 23 42)], count := 2 ^ 32 - 1,
      present := [ip4_single (ip4 0 0 0 0), ip4_single (ip4 172 16 23 41),
        ip4_single (ip4 172 16 23 43), ip4_single (ip4 255 255 255 255)],
      absent := [ip4_single (ip4 172 16 23 42)] },
    { desc := "complete removal", insert := [ip4_cidr (ip4 172 16 0 0) 24],
      remove := [ip4_cidr (ip4 172 16 0 0) 25, ip4_cidr (ip4 172 16 0 128) 25], count := 0,
      present := [], absent := [] },
    { desc := "left removal", insert := [ip4_cidr (ip4 172 16 23 0) 24],
      remove := [(ip4 172 16 22 255, ip4 172 16 23 1)], count := 254,
      present := [(ip4 172 16 23 2, ip4 172 16 23 255)],
      absent := [ip4_single (ip4 172 16 23 0), ip4_single (ip4 172 16 23 1)] },
    { desc := "right removal", insert := [ip4_cidr (ip4 172 16 23 0) 24],
      remove := [(ip4 172 16 23 254, ip4 172 16 24 1)], count := 254,
      present := [(ip4 172 16 23 0, ip4 172 16 23 253)],
      absent := [ip4_single (ip4 172 16 23 254), ip4_single (ip4 172 16 23 255)] },
    { desc := "partial removal from leaf", insert := [ip4_cidr (ip4 172 16 16 0) 20],
      remove := [ip4_cidr (ip4 172 16 23 0) 24], count := 2 ^ 12 - 2 ^ 8,
      present := [(ip4 172 16 16 0, ip4 172 16 22 255), (ip4 172 16 24 0, ip4 172 16 31 255)],
      absent := [(ip4 172 16 23 0, ip4 172 16 23 255)] },
    { desc := "unaligned insertion", insert := [ip4_cidr (ip4 172 16 0 0) 15], remove := [],
      count := 2 ^ 17,
      present := [ip4_single (ip4 172 16 0 0), ip4_single (ip4 172 17 255 255)],
      absent := [ip4_single (ip4 0 0 0 0), ip4_single (ip4 172 15 255 255),
        ip4_single (ip4 172 18 0 0), ip4_single (ip4 255 255 255 255)] },
    { desc := "unaligned removal", insert := [ip4_cidr (ip4 0 0 0 0) 0],
      remove := [ip4_cidr (ip4 172 16 0 0) 15], count := 2 ^ 32 - 2 ^ 17,
      present := [ip4_single (ip4 0 0 0 0), ip4_single (ip4 172 15 255 255),
        ip4_single (ip4 172 18 0 0), ip4_single (ip4 255 255 255 255)],
      absent := [ip4_single (ip4 172 16 0 0), ip4_single (ip4 172 17 255 255)] },
    { desc := "insert into full",
      insert := [ip4_cidr (ip4 0 0 0 0) 0, ip4_cidr (ip4 172 16 0 1) 32], remove := [],
      count := 2 ^ 32, present := [ip4_single (ip4 172 16 0 1)], absent := [] },
    { desc := "insert duplicate",
      insert := [ip4_cidr (ip4 172 16 0 0) 24, ip4_cidr (ip4 172 16 0 1) 32], remove := [],
      count := 2 ^ 8,
      present := [ip4_single (ip4 172 16 0 0), ip4_single (ip4 172 16 0 255)], absent := [] },
    { desc := "aggregate",
      insert := [ip4_cidr (ip4 172 16 0 0) 25, ip4_cidr (ip4 172 16 0 128) 25], remove := [],
      count := 2 ^ 8,
      present := [ip4_single (ip4 172 16 0 0), ip4_single (ip4 172 16 0 255)], absent := [] } ]

/-- The test function `t_ip4s`: build the set, compare the count, and look up
both ends of every range listed as present or absent. -/
def t_ip4s (t : t_ip4s_case) : Bool :=
  let n := ip4s_build t.insert t.remove
  (t.count == ip4s_count n) &&
    t.present.all (fun r => ip4s_lookup n r.1 && ip4s_lookup n r.2) &&
    t.absent.all (fun r => !ip4s_lookup n r.1 && !ip4s_lookup n r.2)

/-! ## Example inputs -/

/-- The Ethernet address of the receiving interface in the examples. -/
def ex_iface : ether_addr := ⟨2, 0, 0, 0, 0, 9⟩

/-- The request "who-has 10.0.0.5 tell 10.0.0.1" sent from 02:00:00:00:00:01. -/
def ex_who_has : arp_pkt :=
  { htype := 1, ptype := 0x0800, hlen := 6, plen := 4, oper := 1,
    sha := ⟨2, 0, 0, 0, 0, 1⟩, spa := 0x0a000001, tha := ether_zero, tpa := 0x0a000005 }

/-- An address filter that holds 10.0.0.1 only: 10.0.0.5 is out of scope. -/
def ex_filter : Option (Nat → Bool) := some (fun a => a == 0x0a000001)

/-- The packet `ex_who_has` received at time `t` in state `s`, no address filter, replies succeed. -/
def ex_step (s : State) (t : Nat) : Except Fault (Int × State × List arp_pkt) :=
  packet_analyze_arp s t none ex_iface true ex_who_has 28

/-- The state after `ex_who_has` has been received at each of the times `ts`,
in this order, starting from the empty trie. -/
def ex_probe (ts : List Nat) : State :=
  ts.foldl (fun s t => pkt_state (ex_step s t)) (State.init [])

/-- The empty trie after `arp_reserve(10.0.0.5)` at time 900000. -/
def ex_reserved : State := state_of (arp_reserve (State.init []) 900000 0x0a000005)

/-- Three hosts 10.0.0.1, 10.0.0.2, 10.0.0.3 register at 1000000, 1200000 and
1400000 ms; `arp_periodic` then runs at 1400 s (cutoff 1100000) and again at
1600 s (cutoff 1300000). -/
def ex_sweeps : State :=
  let s := state_of (arp_register (State.init []) 1000000 0x0a000001 ⟨2, 0, 0, 0, 0, 1⟩)
  let s := state_of (arp_register s 1200000 0x0a000002 ⟨2, 0, 0, 0, 0, 2⟩)
  let s := state_of (arp_register s 1400000 0x0a000003 ⟨2, 0, 0, 0, 0, 3⟩)
  let s := tick_state (arp_periodic s 1400)
  tick_state (arp_periodic s 1600)

/-- The empty trie after 10.0.0.5 registered at 1000000 ms. -/
def ex_once : State :=
  state_of (arp_register (State.init []) 1000000 0x0a000005 ⟨2, 0, 0, 0, 0, 5⟩)

/-- The state `ex_once` after 10.0.0.5 registered again at 1200000 ms. -/
def ex_twice : State :=
  state_of (arp_register ex_once 1200000 0x0a000005 ⟨2, 0, 0, 0, 0, 5⟩)

/-- The state in which 10.0.0.5 has been asked for three times, at 1000000,
1001000 and 1002000 ms: its leaf has `nreq = 3`, `first = 1000000`. -/
def ex_probing3 : State := ex_probe [1000000, 1001000, 1002000]

/-- The state in which 10.0.0.5 has been claimed: `ex_probing3` after the
fourth request at 1003000 ms. -/
def ex_claimed : State := pkt_state (ex_step ex_probing3 1003000)

/-- The state `ex_claimed` after a host with address 02:00:00:00:00:05 has
registered 10.0.0.5 at 1004000 ms. -/
def ex_claimed_moved : State :=
  state_of (arp_register ex_claimed 1004000 0x0a000005 ⟨2, 0, 0, 0, 0, 5⟩)

/-- The state `ex_reserved` (10.0.0.5 reserved at 900000 ms) after `arp_periodic`
has run at 1300 s, with cutoff 1000000. -/
def ex_reserved_swept : State := tick_state (arp_periodic ex_reserved 1300)

/-- The state `ex_reserved_swept` after "who-has 10.0.0.5" has been received at
each of the times `ts`, in this order. -/
def ex_reprobe (ts : List Nat) : State :=
  ts.foldl (fun s t => pkt_state (ex_step s t)) ex_reserved_swept

/-- The reply "10.0.0.5 is-at 02:00:00:00:00:05" sent to 10.0.0.1. -/
def ex_is_at : arp_pkt :=
  { htype := 1, ptype := 0x0800, hlen := 6, plen := 4, oper := 2,
    sha := ⟨2, 0, 0, 0, 0, 5⟩, spa := 0x0a000005, tha := ⟨2, 0, 0, 0, 0, 1⟩, tpa := 0x0a000001 }

/-- The state `ex_once` (10.0.0.5 registered at 1000000 ms) after "who-has
10.0.0.5 tell 10.0.0.1" has been received at 1005000 ms. -/
def ex_restarted : State := pkt_state (ex_step ex_once 1005000)

/-! ## Arithmetic of addresses and nibbles -/

theorem land_mask (a k : Nat) (ha : a < 2 ^ 32) (hk : k ≤ 32) :
    a &&& (2 ^ 32 - (1 <<< k)) = a / 2 ^ k * 2 ^ k := by
  have hm : 2 ^ 32 - (1 <<< k) = 2 ^ k * (2 ^ (32 - k) - 1) := by
    rw [Nat.one_shiftLeft, Nat.mul_sub, ← pow_add, Nat.add_sub_cancel' hk, mul_one]
  rw [hm]
  apply Nat.eq_of_testBit_eq
  intro i
  rw [Nat.testBit_and, Nat.mul_comm (a / 2 ^ k), Nat.testBit_mul_pow_two, Nat.testBit_mul_pow_two,
    Nat.testBit_two_pow_sub_one, ← Nat.shiftRight_eq_div_pow, Nat.testBit_shiftRight]
  by_cases hik : k ≤ i
  · have : k + (i - k) = i := by omega
    simp only [hik, this, decide_True, Bool.true_and]
    by_cases hi : i < 32
    · have : i - k < 32 - k := by omega
      simp [this]
    · have h1 : a < 2 ^ i := lt_of_lt_of_le ha (Nat.pow_le_pow_right (by decide) (by omega))
      simp [Nat.testBit_lt_two_pow h1]
  · simp [hik]

theorem idx_mod (x : Nat) : idx (x % 16) = idx x := by
  simp [idx]

theorem lookup_eq_descend (root : arpn) (a : Nat) : arp_lookup_node root a = descend 8 root a := by
  have e0 : idx (ip4_o a 0 / 16) = idx (a >>> (4 * 7)) := by
    simp only [idx, ip4_o, Nat.shiftRight_eq_div_pow, Fin.mk.injEq]; omega
  have e1 : idx (ip4_o a 0 % 16) = idx (a >>> (4 * 6)) := by
    simp only [idx, ip4_o, Nat.shiftRight_eq_div_pow, Fin.mk.injEq]; omega
  have e2 : idx (ip4_o a 1 / 16) = idx (a >>> (4 * 5)) := by
    simp only [idx, ip4_o, Nat.shiftRight_eq_div_pow, Fin.mk.injEq]; omega
  have e3 : idx (ip4_o a 1 % 16) = idx (a >>> (4 * 4)) := by
    simp only [idx, ip4_o, Nat.shiftRight_eq_div_pow, Fin.mk.injEq]; omega
  have e4 : idx (ip4_o a 2 / 16) = idx (a >>> (4 * 3)) := by
    simp only [idx, ip4_o, Nat.shiftRight_eq_div_pow, Fin.mk.injEq]; omega
  have e5 : idx (ip4_o a 2 % 16) = idx (a >>> (4 * 2)) := by
    simp only [idx, ip4_o, Nat.shiftRight_eq_div_pow, Fin.mk.injEq]; omega
  have e6 : idx (ip4_o a 3 / 16) = idx (a >>> (4 * 1)) := by
    simp only [idx, ip4_o, Nat.shiftRight_eq_div_pow, Fin.mk.injEq]; omega
  have e7 : idx (ip4_o a 3 % 16) = idx (a >>> (4 * 0)) := by
    simp only [idx, ip4_o, Nat.shiftRight_eq_div_pow, Fin.mk.injEq]; omega
  unfold arp_lookup_node
  rw [e0, e1, e2, e3, e4, e5, e6, e7]
  simp only [descend]
  cases root.sub (idx (a >>> (4 * 7))) with
  | none => rfl
  | some c7 =>
  simp only [Option.bind_eq_bind, Option.some_bind, Option.pure_def]
  cases c7.sub (idx (a >>> (4 * 6))) with
  | none => rfl
  | some c6 =>
  simp only [Option.some_bind]
  cases c6.sub (idx (a >>> (4 * 5))) with
  | none => rfl
  | some c5 =>
  simp only [Option.some_bind]
  cases c5.sub (idx (a >>> (4 * 4))) with
  | none => rfl
  | some c4 =>
  simp only [Option.some_bind]
  cases c4.sub (idx (a >>> (4 * 3))) with
  | none => rfl
  | some c3 =>
  simp only [Option.some_bind]
  cases c3.sub (idx (a >>> (4 * 2))) with
  | none => rfl
  | some c2 =>
  simp only [Option.some_bind]
  cases c2.sub (idx (a >>> (4 * 1))) with
  | none => rfl
  | some c1 =>
  simp only [Option.some_bind]
  cases c1.sub (idx (a >>> (4 * 0))) with
  | none => rfl
  | some c0 => rfl

theorem covers_child (h : Nat) (n c : arpn) (a : Nat) (hc : covers (h + 1) n a)
    (hca : c.addr = n.addr + (idx (a >>> (4 * h))).val * 2 ^ (4 * h)) : covers h c a := by
  unfold covers at *
  rw [hca, ← hc]
  simp only [idx, Nat.shiftRight_eq_div_pow]
  have e : 2 ^ (4 * (h + 1)) = 2 ^ (4 * h) * 16 := by
    rw [show 4 * (h + 1) = 4 * h + 4 by ring, pow_add]; norm_num
  rw [e, ← Nat.div_div_eq_div_mul]
  generalize a / 2 ^ (4 * h) = q
  generalize 2 ^ (4 * h) = p
  have := Nat.div_add_mod q 16
  calc q * p = (16 * (q / 16) + q % 16) * p := by rw [this]
    _ = q / 16 * (p * 16) + q % 16 * p := by ring

theorem new_node_addr (a h : Nat) (ha : a < 2 ^ 32) (hh : 4 * h ≤ 32) :
    (new_node a (32 - 4 * h)).addr = a / 2 ^ (4 * h) * 2 ^ (4 * h) := by
  simp only [new_node]
  rw [show 32 - (32 - 4 * h) = 4 * h by omega]
  exact land_mask a (4 * h) ha hh

/-! ## Field lemmas for the node updates -/

theorem descend_new_node (h a p b : Nat) : descend (h + 1) (new_node a p) b = none := by
  simp [descend, new_node]

@[simp] theorem set_sub_sub (n : arpn) (i : Fin 16) (c : Option arpn) :
    (n.set_sub i c).sub = Function.update n.sub i c := rfl
@[simp] theorem set_sub_addr (n : arpn) (i : Fin 16) (c : Option arpn) : (n.set_sub i c).addr = n.addr := rfl
@[simp] theorem set_sub_plen (n : arpn) (i : Fin 16) (c : Option arpn) : (n.set_sub i c).plen = n.plen := rfl
@[simp] theorem set_sub_first (n : arpn) (i : Fin 16) (c : Option arpn) : (n.set_sub i c).first = n.first := rfl
@[simp] theorem set_sub_last (n : arpn) (i : Fin 16) (c : Option arpn) : (n.set_sub i c).last = n.last := rfl

@[simp] theorem bump_sub (n sn : arpn) : (bump n sn).sub = n.sub := by
  unfold bump; dsimp only; split <;> split <;> rfl
@[simp] theorem bump_addr (n sn : arpn) : (bump n sn).addr = n.addr := by
  unfold bump; dsimp only; split <;> split <;> rfl
@[simp] theorem bump_plen (n sn : arpn) : (bump n sn).plen = n.plen := by
  unfold bump; dsimp only; split <;> split <;> rfl
theorem bump_first (n sn : arpn) : (bump n sn).first = min n.first sn.last := by
  unfold bump; dsimp only; split <;> split <;> simp_all [arpn.oldest, arpn.newest] <;> omega
theorem bump_last (n sn : arpn) : (bump n sn).last = max n.last sn.last := by
  unfold bump; dsimp only; split <;> split <;> simp_all [arpn.oldest, arpn.newest] <;> omega

@[simp] theorem touch_sub (n : arpn) (t : Nat) : (touch n t).sub = n.sub := by
  unfold touch; dsimp only; split <;> split <;> rfl
@[simp] theorem touch_addr (n : arpn) (t : Nat) : (touch n t).addr = n.addr := by
  unfold touch; dsimp only; split <;> split <;> rfl
@[simp] theorem touch_plen (n : arpn) (t : Nat) : (touch n t).plen = n.plen := by
  unfold touch; dsimp only; split <;> split <;> rfl
@[simp] theorem touch_ether (n : arpn) (t : Nat) : (touch n t).ether = n.ether := by
  unfold touch; dsimp only; split <;> split <;> rfl
@[simp] theorem touch_nreq (n : arpn) (t : Nat) : (touch n t).nreq = n.nreq := by
  unfold touch; dsimp only; split <;> split <;> rfl
@[simp] theorem touch_claimed (n : arpn) (t : Nat) : (touch n t).claimed = n.claimed := by
  unfold touch; dsimp only; split <;> split <;> rfl
@[simp] theorem touch_reserved (n : arpn) (t : Nat) : (touch n t).reserved = n.reserved := by
  unfold touch; dsimp only; split <;> split <;> rfl
theorem touch_first (n : arpn) (t : Nat) : (touch n t).first = min n.first t := by
  unfold touch; dsimp only; split <;> split <;> simp_all <;> omega
theorem touch_last (n : arpn) (t : Nat) : (touch n t).last = max n.last t := by
  unfold touch; dsimp only; split <;> split <;> simp_all <;> omega

theorem descend_set_sub_same (h : Nat) (n c : arpn) (a : Nat) :
    descend (h + 1) (n.set_sub (idx (a >>> (4 * h))) (some c)) a = descend h c a := by
  simp [descend]

theorem descend_succ_bump (h : Nat) (n sn : arpn) (a : Nat) :
    descend (h + 1) (bump n sn) a = descend (h + 1) n a := by
  simp [descend]

/-! ## `arp_insert` against its closed form -/

theorem covers_child_addr (h : Nat) (n : arpn) (a : Nat) (hc : covers (h + 1) n a) :
    n.addr + (idx (a >>> (4 * h))).val * 2 ^ (4 * h) = a / 2 ^ (4 * h) * 2 ^ (4 * h) := by
  have := covers_child h n { n with addr := n.addr + (idx (a >>> (4 * h))).val * 2 ^ (4 * h) } a hc rfl
  exact this.symm

theorem WF_new_node (h a : Nat) (hh : 4 * h ≤ 32) : WF h (new_node a (32 - 4 * h)) := by
  cases h with
  | zero => simp [WF, new_node]
  | succ h =>
    refine ⟨by simp only [new_node]; omega, ?_⟩
    intro i c hic
    simp [new_node] at hic

theorem set_sub_set_sub (n : arpn) (i : Fin 16) (x y : Option arpn) :
    (n.set_sub i x).set_sub i y = n.set_sub i y := by
  simp [arpn.set_sub]

theorem WF_set_sub (h : Nat) (n c : arpn) (i : Fin 16) (hwf : WF (h + 1) n)
    (hc : WF h c) (hca : c.addr = n.addr + i.val * 2 ^ (4 * h)) : WF (h + 1) (n.set_sub i (some c)) := by
  refine ⟨hwf.1, ?_⟩
  intro j d hjd
  simp only [set_sub_sub, set_sub_addr] at hjd ⊢
  by_cases hj : j = i
  · subst hj
    simp only [Function.update_same, Option.some.injEq] at hjd
    subst hjd
    exact ⟨hca, hc⟩
  · rw [Function.update_noteq hj] at hjd
    exact hwf.2 j d hjd

theorem descend_set_sub (h : Nat) (n : arpn) (i : Fin 16) (c : Option arpn) (b : Nat) :
    descend (h + 1) (n.set_sub i c) b =
      if idx (b >>> (4 * h)) = i then (match c with | none => none | some c => descend h c b)
      else descend (h + 1) n b := by
  simp only [descend, set_sub_sub]
  by_cases hi : idx (b >>> (4 * h)) = i
  · rw [hi, Function.update_same]; simp
  · rw [Function.update_noteq hi]; simp [hi]

theorem arp_insert_spec : ∀ (h : Nat) (n : arpn) (a ft : Nat) (m : Mem),
    WF h n → a < 2 ^ 32 → covers h n a →
    ∃ r n' m', arp_insert (h + 1) n a ft m = .ok (r, n', m') ∧
      ((∃ rn, r = some rn ∧ n' = ins_tree h n a ft ∧ descend h n' a = some rn) ∨
       (r = none ∧ WF h n' ∧ n'.addr = n.addr ∧ (∀ b, descend h n' b = descend h n b) ∧
          descend h n a = none)) := by
  intro h
  induction h with
  | zero =>
    intro n a ft m hwf ha hc
    have hp : n.plen = 32 := hwf
    have hadd : n.addr = a := by simpa [covers] using hc.symm
    refine ⟨some (touch n ft), touch n ft, m, ?_, Or.inl ⟨_, rfl, rfl, rfl⟩⟩
    simp [arp_insert, hp, hadd]
  | succ h ih =>
    intro n a ft m hwf ha hc
    obtain ⟨hp, hch⟩ := hwf
    have h1 : n.plen ≠ 32 := by omega
    have h2 : (n.plen + 4) % 256 = 32 - 4 * h := by omega
    have h3 : 32 - (32 - 4 * h) = 4 * h := by omega
    rw [arp_insert]
    simp only [h1, if_false, h2, h3, idx_mod]
    cases hs : n.sub (idx (a >>> (4 * h))) with
    | some sn =>
      obtain ⟨hsa, hswf⟩ := hch _ _ hs
      obtain ⟨r, sn', m', he, hcase⟩ := ih sn a ft m hswf ha (covers_child h n sn a hc hsa)
      simp only [he]
      rcases hcase with ⟨rn, rfl, hsn', hd⟩ | ⟨rfl, hwf', hadd', hdb, hda⟩
      · refine ⟨some rn, _, m', rfl, Or.inl ⟨rn, rfl, ?_, ?_⟩⟩
        · simp only [ins_tree, hs, hsn']
        · rw [descend_succ_bump, descend_set_sub_same, hd]
      · refine ⟨none, _, m', rfl, Or.inr ⟨rfl, ?_, rfl, ?_, ?_⟩⟩
        · exact WF_set_sub h n sn' _ ⟨hp, hch⟩ hwf' (by rw [hadd', hsa])
        · intro b
          rw [descend_set_sub]
          split
          · next hi => simp only [descend, hi, hs]; exact hdb b
          · rfl
        · simp only [descend, hs, hda]
    | none =>
      simp only [arp_new]
      rcases hcal : calloc m with ⟨b, m1⟩
      cases b with
      | false =>
        refine ⟨none, n, m1, rfl, Or.inr ⟨rfl, ⟨hp, hch⟩, rfl, fun _ => rfl, ?_⟩⟩
        simp only [descend, hs]
      | true =>
        simp only
        have hh : 4 * h ≤ 32 := by omega
        have hnwf := WF_new_node h a hh
        have hnadd := new_node_addr a h ha hh
        have hcadd := covers_child_addr h n a hc
        have hncov : covers h (new_node a (32 - 4 * h)) a := hnadd.symm
        generalize hm2 : (if (new_node a (32 - 4 * h)).plen = 32 then
          ({ narpn := (m1.narpn + 1) % 2 ^ 32, nleaves := (m1.nleaves + 1) % 2 ^ 32, heap := m1.heap } : Mem)
          else { narpn := (m1.narpn + 1) % 2 ^ 32, nleaves := m1.nleaves, heap := m1.heap }) = m2
        obtain ⟨r, sn', m', he, hcase⟩ := ih (new_node a (32 - 4 * h)) a ft m2 hnwf ha hncov
        simp only [he]
        rcases hcase with ⟨rn, rfl, hsn', hd⟩ | ⟨rfl, hwf', hadd', hdb, hda⟩
        · refine ⟨some rn, _, m', rfl, Or.inl ⟨rn, rfl, ?_, ?_⟩⟩
          · simp only [ins_tree, hs, hsn', set_sub_set_sub]
          · rw [descend_succ_bump, set_sub_set_sub, descend_set_sub_same, hd]
        · cases h with
          | zero => simp [descend] at hda
          | succ h =>
            refine ⟨none, _, m', rfl, Or.inr ⟨rfl, ?_, rfl, ?_, ?_⟩⟩
            · rw [set_sub_set_sub]
              exact WF_set_sub _ n sn' _ ⟨hp, hch⟩ hwf' (by rw [hadd', hnadd, hcadd])
            · intro b
              rw [set_sub_set_sub, descend_set_sub]
              split
              · next hi =>
                show descend (h + 1) sn' b = _
                rw [hdb b, descend_new_node]
                simp only [descend, hi, hs]
              · rfl
            · simp only [descend, hs]

theorem ins_tree_addr (h : Nat) (n : arpn) (a ft : Nat) : (ins_tree h n a ft).addr = n.addr := by
  cases h <;> simp [ins_tree]

theorem ins_tree_plen (h : Nat) (n : arpn) (a ft : Nat) : (ins_tree h n a ft).plen = n.plen := by
  cases h <;> simp [ins_tree]

theorem ins_WF : ∀ (h : Nat) (n : arpn) (a ft : Nat), WF h n → a < 2 ^ 32 → covers h n a →
    WF h (ins_tree h n a ft) := by
  intro h
  induction h with
  | zero => intro n a ft hwf _ _; simpa [WF, ins_tree] using hwf
  | succ h ih =>
    intro n a ft hwf ha hc
    have hh : 4 * h ≤ 32 := by have := hwf.1; omega
    have hcadd := covers_child_addr h n a hc
    simp only [ins_tree]
    refine ⟨by simpa using hwf.1, ?_⟩
    intro i c hic
    simp only [bump_sub, set_sub_sub, bump_addr, set_sub_addr] at hic ⊢
    by_cases hi : i = idx (a >>> (4 * h))
    · subst hi
      simp only [Function.update_same, Option.some.injEq] at hic
      subst hic
      rw [ins_tree_addr]
      cases hs : n.sub (idx (a >>> (4 * h))) with
      | some sn =>
        obtain ⟨hsa, hswf⟩ := hwf.2 _ _ hs
        exact ⟨hsa, ih sn a ft hswf ha (covers_child h n sn a hc hsa)⟩
      | none =>
        have hnadd := new_node_addr a h ha hh
        exact ⟨by simp only [hnadd, hcadd], ih _ a ft (WF_new_node h a hh) ha hnadd.symm⟩
    · rw [Function.update_noteq hi] at hic
      exact hwf.2 i c hic

theorem old_leaf_succ (h : Nat) (n : arpn) (a : Nat) :
    old_leaf (h + 1) n a =
      old_leaf h (match n.sub (idx (a >>> (4 * h))) with
        | some c => c
        | none => new_node a (32 - 4 * h)) a := by
  unfold old_leaf
  cases hs : n.sub (idx (a >>> (4 * h))) with
  | some c => simp [descend, hs]
  | none =>
    cases h with
    | zero => simp only [descend, hs]
    | succ h => simp [descend, hs, new_node]

theorem ins_descend_self : ∀ (h : Nat) (n : arpn) (a ft : Nat),
    descend h (ins_tree h n a ft) a = some (touch (old_leaf h n a) ft) := by
  intro h
  induction h with
  | zero => intro n a ft; simp [descend, ins_tree, old_leaf]
  | succ h ih =>
    intro n a ft
    rw [old_leaf_succ, ins_tree]
    rw [descend_succ_bump, descend_set_sub_same, ih]

theorem mod_pow_nibble (x h : Nat) :
    x % 2 ^ (4 * (h + 1)) = x % 2 ^ (4 * h) + 2 ^ (4 * h) * (x / 2 ^ (4 * h) % 16) := by
  rw [show 4 * (h + 1) = 4 * h + 4 by ring, pow_add, Nat.mod_mul]
  norm_num

theorem same_low_succ (a b h : Nat) (hi : idx (b >>> (4 * h)) = idx (a >>> (4 * h)))
    (hne : b % 2 ^ (4 * (h + 1)) ≠ a % 2 ^ (4 * (h + 1))) : b % 2 ^ (4 * h) ≠ a % 2 ^ (4 * h) := by
  intro heq
  apply hne
  rw [mod_pow_nibble, mod_pow_nibble, heq]
  simp only [idx, Nat.shiftRight_eq_div_pow, Fin.mk.injEq] at hi
  rw [hi]

theorem ins_descend_other : ∀ (h : Nat) (n : arpn) (a ft b : Nat),
    b % 2 ^ (4 * h) ≠ a % 2 ^ (4 * h) → descend h (ins_tree h n a ft) b = descend h n b := by
  intro h
  induction h with
  | zero => intro n a ft b hne; simp [Nat.mod_one] at hne
  | succ h ih =>
    intro n a ft b hne
    rw [ins_tree]
    rw [descend_succ_bump, descend_set_sub]
    split
    · next hi =>
      have hlow := same_low_succ a b h hi hne
      simp only
      rw [ih _ a ft b hlow]
      cases hs : n.sub (idx (a >>> (4 * h))) with
      | some c => simp [descend, hi, hs]
      | none =>
        cases h with
        | zero => simp [Nat.mod_one] at hlow
        | succ h => simp [descend, hi, hs, new_node]
    · rfl

theorem ins_tree_last_ge : ∀ (h : Nat) (n : arpn) (a ft : Nat), ft ≤ (ins_tree h n a ft).last := by
  intro h
  cases h with
  | zero => intro n a ft; simp only [ins_tree, touch_last]; omega
  | succ h =>
    intro n a ft
    have : ∀ k m, ft ≤ (ins_tree k m a ft).last := by
      intro k
      induction k with
      | zero => intro m; simp only [ins_tree, touch_last]; omega
      | succ k ihk =>
        intro m
        simp only [ins_tree, bump_last]
        exact le_trans (ihk _) (le_max_right _ _)
    exact this _ _

theorem ins_path_fresh : ∀ (h : Nat) (n : arpn) (a ft c : Nat), c ≤ ft →
    path_fresh h (ins_tree h n a ft) a c := by
  intro h
  induction h with
  | zero => intro n a ft c _; trivial
  | succ h ih =>
    intro n a ft c hc
    simp only [ins_tree, path_fresh, bump_sub, set_sub_sub, Function.update_same]
    exact ⟨_, rfl, le_trans hc (ins_tree_last_ge _ _ _ _), ih _ a ft c hc⟩

/-! ## Writes through a leaf pointer -/

theorem lw_addr : ∀ (h : Nat) (n : arpn) (a : Nat) (l : arpn),
    (∀ x, descend h n a = some x → l.addr = x.addr) → (leaf_write h n a l).addr = n.addr := by
  intro h n a l hl
  cases h with
  | zero => exact hl n rfl
  | succ h =>
    simp only [leaf_write]
    split <;> simp

theorem lw_WF : ∀ (h : Nat) (n : arpn) (a : Nat) (l : arpn), WF h n → l.plen = 32 →
    (∀ x, descend h n a = some x → l.addr = x.addr) → WF h (leaf_write h n a l) := by
  intro h
  induction h with
  | zero => intro n a l _ hl _; exact hl
  | succ h ih =>
    intro n a l hwf hl hx
    simp only [leaf_write]
    split
    · exact hwf
    · next c hs =>
      obtain ⟨hca, hcwf⟩ := hwf.2 _ _ hs
      have hx' : ∀ x, descend h c a = some x → l.addr = x.addr := by
        intro x hd
        apply hx
        simp only [descend, hs, hd]
      exact WF_set_sub h n _ _ hwf (ih c a l hcwf hl hx') (by rw [lw_addr h c a l hx', hca])

theorem lw_descend_self : ∀ (h : Nat) (n : arpn) (a : Nat) (l x : arpn),
    descend h n a = some x → descend h (leaf_write h n a l) a = some l := by
  intro h
  induction h with
  | zero => intro n a l x _; rfl
  | succ h ih =>
    intro n a l x hd
    simp only [leaf_write]
    cases hs : n.sub (idx (a >>> (4 * h))) with
    | none => simp [descend, hs] at hd
    | some c =>
      simp only [descend, hs] at hd
      simp only [descend_set_sub_same]
      exact ih c a l x hd

theorem lw_descend_other : ∀ (h : Nat) (n : arpn) (a : Nat) (l : arpn) (b : Nat),
    b % 2 ^ (4 * h) ≠ a % 2 ^ (4 * h) → descend h (leaf_write h n a l) b = descend h n b := by
  intro h
  induction h with
  | zero => intro n a l b hne; simp [Nat.mod_one] at hne
  | succ h ih =>
    intro n a l b hne
    simp only [leaf_write]
    cases hs : n.sub (idx (a >>> (4 * h))) with
    | none => rfl
    | some c =>
      simp only
      rw [descend_set_sub]
      split
      · next hi =>
        simp only
        rw [ih c a l b (same_low_succ a b h hi hne)]
        simp only [descend, hi, hs]
      · rfl

theorem lw_first (h : Nat) (n : arpn) (a : Nat) (l : arpn) :
    (leaf_write (h + 1) n a l).first = n.first := by
  simp only [leaf_write]; split <;> simp

theorem lw_last (h : Nat) (n : arpn) (a : Nat) (l : arpn) :
    (leaf_write (h + 1) n a l).last = n.last := by
  simp only [leaf_write]; split <;> simp

theorem lw_path_fresh : ∀ (h : Nat) (n : arpn) (a : Nat) (l : arpn) (c : Nat),
    path_fresh h n a c → c ≤ l.last → path_fresh h (leaf_write h n a l) a c := by
  intro h
  induction h with
  | zero => intro n a l c _ _; trivial
  | succ h ih =>
    intro n a l c hpf hl
    obtain ⟨sn, hs, hsn, hrest⟩ := hpf
    simp only [leaf_write, hs, path_fresh, set_sub_sub, Function.update_same]
    refine ⟨_, rfl, ?_, ih sn a l c hrest hl⟩
    cases h with
    | zero => exact hl
    | succ h => rw [arpn.newest, lw_last]; exact hsn

/-! ## The sweep: closed form, fences, refinement -/

theorem exp_child_sub (rec : arpn → arpn) (cutoff : Nat) (n : arpn) (j i : Fin 16) :
    (exp_child rec cutoff n j).sub i = if i = j then exp_kid rec cutoff (n.sub j) else n.sub i := by
  unfold exp_child
  cases hk : exp_kid rec cutoff (n.sub j) with
  | none =>
    simp only [set_sub_sub]
    by_cases h : i = j
    · subst h; simp
    · simp [Function.update_noteq h, h]
  | some c =>
    simp only [bump_sub, set_sub_sub]
    by_cases h : i = j
    · subst h; simp
    · simp [Function.update_noteq h, h]

theorem exp_child_first (rec : arpn → arpn) (cutoff : Nat) (n : arpn) (j : Fin 16) :
    (exp_child rec cutoff n j).first = fmin n.first (exp_kid rec cutoff (n.sub j)) := by
  unfold exp_child
  cases hk : exp_kid rec cutoff (n.sub j) with
  | none => simp [fmin]
  | some c => simp [fmin, bump_first]

theorem exp_child_last (rec : arpn → arpn) (cutoff : Nat) (n : arpn) (j : Fin 16) :
    (exp_child rec cutoff n j).last = fmax n.last (exp_kid rec cutoff (n.sub j)) := by
  unfold exp_child
  cases hk : exp_kid rec cutoff (n.sub j) with
  | none => simp [fmax]
  | some c => simp [fmax, bump_last]

theorem exp_child_addr (rec : arpn → arpn) (cutoff : Nat) (n : arpn) (j : Fin 16) :
    (exp_child rec cutoff n j).addr = n.addr := by
  unfold exp_child; split <;> simp

theorem exp_child_plen (rec : arpn → arpn) (cutoff : Nat) (n : arpn) (j : Fin 16) :
    (exp_child rec cutoff n j).plen = n.plen := by
  unfold exp_child; split <;> simp

theorem exp_fold_sub (rec : arpn → arpn) (cutoff : Nat) : ∀ (l : List (Fin 16)) (cur : arpn) (i : Fin 16),
    l.Nodup → (l.foldl (exp_child rec cutoff) cur).sub i =
      if i ∈ l then exp_kid rec cutoff (cur.sub i) else cur.sub i := by
  intro l
  induction l with
  | nil => intro cur i _; simp
  | cons j l ih =>
    intro cur i hnd
    rw [List.nodup_cons] at hnd
    rw [List.foldl_cons, ih _ _ hnd.2, exp_child_sub]
    by_cases hij : i = j
    · subst hij; simp [hnd.1]
    · simp [hij]

theorem exp_fold_first (rec : arpn → arpn) (cutoff : Nat) : ∀ (l : List (Fin 16)) (cur : arpn),
    l.Nodup → (l.foldl (exp_child rec cutoff) cur).first =
      l.foldl (fun f i => fmin f (exp_kid rec cutoff (cur.sub i))) cur.first := by
  intro l
  induction l with
  | nil => intro cur _; rfl
  | cons j l ih =>
    intro cur hnd
    rw [List.nodup_cons] at hnd
    rw [List.foldl_cons, List.foldl_cons, ih _ hnd.2, exp_child_first]
    apply List.foldl_ext
    intro f i hi
    have : i ≠ j := fun h => hnd.1 (h ▸ hi)
    rw [exp_child_sub, if_neg this]

theorem exp_fold_last (rec : arpn → arpn) (cutoff : Nat) : ∀ (l : List (Fin 16)) (cur : arpn),
    l.Nodup → (l.foldl (exp_child rec cutoff) cur).last =
      l.foldl (fun f i => fmax f (exp_kid rec cutoff (cur.sub i))) cur.last := by
  intro l
  induction l with
  | nil => intro cur _; rfl
  | cons j l ih =>
    intro cur hnd
    rw [List.nodup_cons] at hnd
    rw [List.foldl_cons, List.foldl_cons, ih _ hnd.2, exp_child_last]
    apply List.foldl_ext
    intro f i hi
    have : i ≠ j := fun h => hnd.1 (h ▸ hi)
    rw [exp_child_sub, if_neg this]

theorem exp_fold_addr (rec : arpn → arpn) (cutoff : Nat) : ∀ (l : List (Fin 16)) (cur : arpn),
    (l.foldl (exp_child rec cutoff) cur).addr = cur.addr ∧
    (l.foldl (exp_child rec cutoff) cur).plen = cur.plen := by
  intro l
  induction l with
  | nil => intro cur; exact ⟨rfl, rfl⟩
  | cons j l ih =>
    intro cur
    rw [List.foldl_cons]
    exact ⟨by rw [(ih _).1, exp_child_addr], by rw [(ih _).2, exp_child_plen]⟩

theorem exp_tree_sub (h : Nat) (n : arpn) (cutoff : Nat) (i : Fin 16) :
    (exp_tree (h + 1) n cutoff).sub i = exp_kid (fun c => exp_tree h c cutoff) cutoff (n.sub i) := by
  rw [exp_tree, exp_fold_sub _ _ _ _ _ (List.nodup_finRange 16)]
  simp

theorem exp_tree_first (h : Nat) (n : arpn) (cutoff : Nat) :
    (exp_tree (h + 1) n cutoff).first = fence_min (exp_tree (h + 1) n cutoff) := by
  rw [fence_min]
  simp only [exp_tree_sub]
  rw [exp_tree, exp_fold_first _ _ _ _ (List.nodup_finRange 16)]

theorem exp_tree_last (h : Nat) (n : arpn) (cutoff : Nat) :
    (exp_tree (h + 1) n cutoff).last = fence_max (exp_tree (h + 1) n cutoff) := by
  rw [fence_max]
  simp only [exp_tree_sub]
  rw [exp_tree, exp_fold_last _ _ _ _ (List.nodup_finRange 16)]

theorem exp_tree_addr (h : Nat) (n : arpn) (cutoff : Nat) : (exp_tree h n cutoff).addr = n.addr := by
  cases h with
  | zero => rfl
  | succ h => rw [exp_tree, (exp_fold_addr _ _ _ _).1]

theorem exp_tree_plen (h : Nat) (n : arpn) (cutoff : Nat) : (exp_tree h n cutoff).plen = n.plen := by
  cases h with
  | zero => rfl
  | succ h => rw [exp_tree, (exp_fold_addr _ _ _ _).2]

theorem fmax_fold_ge (g : Fin 16 → Option arpn) : ∀ (l : List (Fin 16)) (f0 : Nat),
    f0 ≤ l.foldl (fun f i => fmax f (g i)) f0 ∧
      ∀ i ∈ l, ∀ c, g i = some c → c.last ≤ l.foldl (fun f i => fmax f (g i)) f0 := by
  intro l
  induction l with
  | nil => intro f0; simp
  | cons j l ih =>
    intro f0
    rw [List.foldl_cons]
    have hstep : f0 ≤ fmax f0 (g j) := by
      unfold fmax; split
      · exact le_refl _
      · exact le_max_left _ _
    refine ⟨le_trans hstep (ih _).1, ?_⟩
    intro i hi c hc
    rcases List.mem_cons.1 hi with rfl | hi'
    · refine le_trans ?_ (ih _).1
      simp only [fmax, hc]
      exact le_max_right _ _
    · exact (ih _).2 i hi' c hc

theorem fmin_fold_le (g : Fin 16 → Option arpn) : ∀ (l : List (Fin 16)) (f0 : Nat),
    l.foldl (fun f i => fmin f (g i)) f0 ≤ f0 ∧
      ∀ i ∈ l, ∀ c, g i = some c → l.foldl (fun f i => fmin f (g i)) f0 ≤ c.last := by
  intro l
  induction l with
  | nil => intro f0; simp
  | cons j l ih =>
    intro f0
    rw [List.foldl_cons]
    have hstep : fmin f0 (g j) ≤ f0 := by
      unfold fmin; split
      · exact le_refl _
      · exact min_le_left _ _
    refine ⟨le_trans (ih _).1 hstep, ?_⟩
    intro i hi c hc
    rcases List.mem_cons.1 hi with rfl | hi'
    · refine le_trans (ih _).1 ?_
      simp only [fmin, hc]
      exact min_le_right _ _
    · exact (ih _).2 i hi' c hc

theorem fold_none_eq (g : Fin 16 → Option arpn) (k : Nat → Option arpn → Nat)
    (hk : ∀ f, k f none = f) : ∀ (l : List (Fin 16)) (f0 : Nat), (∀ i ∈ l, g i = none) →
      l.foldl (fun f i => k f (g i)) f0 = f0 := by
  intro l
  induction l with
  | nil => intro f0 _; rfl
  | cons j l ih =>
    intro f0 hn
    rw [List.foldl_cons, hn j (List.mem_cons_self _ _), hk]
    exact ih f0 (fun i hi => hn i (List.mem_cons_of_mem _ hi))

theorem le_fence_max (n c : arpn) (i : Fin 16) (h : n.sub i = some c) : c.last ≤ fence_max n :=
  (fmax_fold_ge n.sub _ 0).2 i (List.mem_finRange i) c h

theorem fence_min_le (n c : arpn) (i : Fin 16) (h : n.sub i = some c) : fence_min n ≤ c.last :=
  (fmin_fold_le n.sub _ ARP_NEVER).2 i (List.mem_finRange i) c h

theorem fence_min_le_never (n : arpn) : fence_min n ≤ ARP_NEVER :=
  (fmin_fold_le n.sub _ ARP_NEVER).1

theorem fence_min_empty (n : arpn) (h : ∀ i, n.sub i = none) : fence_min n = ARP_NEVER :=
  fold_none_eq n.sub fmin (fun _ => rfl) _ _ (fun i _ => h i)

theorem fence_max_empty (n : arpn) (h : ∀ i, n.sub i = none) : fence_max n = 0 :=
  fold_none_eq n.sub fmax (fun _ => rfl) _ _ (fun i _ => h i)

theorem exp_kid_some (rec : arpn → arpn) (cutoff : Nat) (o : Option arpn) (c' : arpn)
    (h : exp_kid rec cutoff o = some c') :
    ∃ c, o = some c ∧ c' = (if c.plen < 32 ∧ c.first < cutoff then rec c else c) ∧ cutoff ≤ c'.last := by
  cases o with
  | none => simp [exp_kid] at h
  | some c =>
    refine ⟨c, rfl, ?_⟩
    generalize hd : (if c.plen < 32 ∧ c.first < cutoff then rec c else c) = d
    have hk : exp_kid rec cutoff (some c) = if d.last < cutoff then none else some d := by
      simp only [exp_kid, arpn.oldest, arpn.newest, hd]
    rw [hk] at h
    by_cases hlt : d.last < cutoff
    · rw [if_pos hlt] at h; exact absurd h (by simp)
    · rw [if_neg hlt] at h
      simp only [Option.some.injEq] at h
      subst h
      exact ⟨rfl, by omega⟩

theorem exp_WF : ∀ (h : Nat) (n : arpn) (cutoff : Nat), WF h n → WF h (exp_tree h n cutoff) := by
  intro h
  induction h with
  | zero => intro n cutoff hwf; exact hwf
  | succ h ih =>
    intro n cutoff hwf
    refine ⟨by rw [exp_tree_plen]; exact hwf.1, ?_⟩
    intro i c' hic
    rw [exp_tree_sub] at hic
    obtain ⟨c, hc, hc', _⟩ := exp_kid_some _ _ _ _ hic
    obtain ⟨hca, hcwf⟩ := hwf.2 i c hc
    rw [exp_tree_addr, hc']
    split
    · exact ⟨by rw [exp_tree_addr]; exact hca, ih c cutoff hcwf⟩
    · exact ⟨hca, hcwf⟩

theorem exp_keeps : ∀ (h : Nat) (n : arpn) (a cutoff : Nat), WF h n → path_fresh h n a cutoff →
    descend h (exp_tree h n cutoff) a = descend h n a ∧
    path_fresh h (exp_tree h n cutoff) a cutoff ∧ (0 < h → cutoff ≤ (exp_tree h n cutoff).last) := by
  intro h
  induction h with
  | zero => intro n a cutoff _ _; exact ⟨rfl, trivial, fun h => absurd h (lt_irrefl 0)⟩
  | succ h ih =>
    intro n a cutoff hwf hpf
    obtain ⟨sn, hs, hsn, hrest⟩ := hpf
    obtain ⟨hsa, hswf⟩ := hwf.2 _ _ hs
    -- the child on the path after the descent into it
    have key : ∃ sn', exp_kid (fun c => exp_tree h c cutoff) cutoff (some sn) = some sn' ∧
        descend h sn' a = descend h sn a ∧ path_fresh h sn' a cutoff ∧ cutoff ≤ sn'.last := by
      cases h with
      | zero =>
        have hp : sn.plen = 32 := hswf
        refine ⟨sn, ?_, rfl, trivial, hsn⟩
        simp only [exp_kid, hp, lt_irrefl, false_and, if_false, arpn.newest]
        rw [if_neg (by simpa [arpn.newest] using hsn)]
      | succ h =>
        obtain ⟨h1, h2, h3⟩ := ih sn a cutoff hswf hrest
        have h3' := h3 (Nat.succ_pos _)
        by_cases hrec : sn.plen < 32 ∧ sn.first < cutoff
        · refine ⟨exp_tree (h + 1) sn cutoff, ?_, h1, h2, h3'⟩
          simp only [exp_kid, arpn.oldest, hrec, and_self, if_true, arpn.newest]
          rw [if_neg (by omega)]
        · refine ⟨sn, ?_, rfl, hrest, hsn⟩
          simp only [exp_kid, arpn.oldest, hrec, if_false, arpn.newest]
          rw [if_neg (by simpa [arpn.newest] using hsn)]
    obtain ⟨sn', hk, hd, hp, hl⟩ := key
    have hsub : (exp_tree (h + 1) n cutoff).sub (idx (a >>> (4 * h))) = some sn' := by
      rw [exp_tree_sub, hs, hk]
    refine ⟨?_, ⟨sn', hsub, hl, hp⟩, fun _ => ?_⟩
    · simp only [descend, hsub, hs, hd]
    · rw [exp_tree_last]
      exact le_trans hl (le_fence_max _ _ _ hsub)

theorem foldlM_ok {σ : Type} (f : σ → Fin 16 → Except Fault σ) (P : σ → Prop)
    (hf : ∀ s i, P s → ∃ s', f s i = .ok s' ∧ P s') :
    ∀ (l : List (Fin 16)) (s : σ), P s → ∃ s', l.foldlM f s = .ok s' ∧ P s' := by
  intro l
  induction l with
  | nil => intro s hs; exact ⟨s, rfl, hs⟩
  | cons j l ih =>
    intro s hs
    obtain ⟨s1, h1, hp1⟩ := hf s j hs
    obtain ⟨s2, h2, hp2⟩ := ih s1 hp1
    refine ⟨s2, ?_, hp2⟩
    rw [List.foldlM_cons, h1]
    exact h2

theorem foldlM_refines (stepM : arpn × Mem → Fin 16 → Except Fault (arpn × Mem))
    (step : arpn → Fin 16 → arpn) (Inv : arpn → Prop)
    (hstep : ∀ cur m i, Inv cur → ∃ m', stepM (cur, m) i = .ok (step cur i, m'))
    (hinv : ∀ cur i, Inv cur → Inv (step cur i)) :
    ∀ (l : List (Fin 16)) (cur : arpn) (m : Mem), Inv cur →
      ∃ m', l.foldlM stepM (cur, m) = .ok (l.foldl step cur, m') := by
  intro l
  induction l with
  | nil => intro cur m _; exact ⟨m, rfl⟩
  | cons j l ih =>
    intro cur m hc
    obtain ⟨m1, h1⟩ := hstep cur m j hc
    obtain ⟨m2, h2⟩ := ih (step cur j) m1 (hinv cur j hc)
    refine ⟨m2, ?_⟩
    rw [List.foldlM_cons, h1]
    exact h2

theorem arp_delete_ok : ∀ (h : Nat) (n : arpn) (m : Mem), WF h n → ∃ m', arp_delete (h + 1) n m = .ok m' := by
  intro h
  induction h with
  | zero =>
    intro n m hwf
    have hp : n.plen = 32 := hwf
    rw [arp_delete]
    simp only [hp, if_true]
    exact ⟨_, rfl⟩
  | succ h ih =>
    intro n m hwf
    have hp : n.plen ≠ 32 := by have := hwf.1; omega
    rw [arp_delete]
    simp only [hp, if_false]
    obtain ⟨m1, h1, _⟩ := foldlM_ok (fun m i =>
        match n.sub i with
        | none => Except.ok m
        | some c => arp_delete (h + 1) c m) (fun _ => True)
      (by
        intro s i _
        cases hs : n.sub i with
        | none => exact ⟨s, by simp only [hs], trivial⟩
        | some c =>
          obtain ⟨m', hm'⟩ := ih c s (hwf.2 i c hs).2
          exact ⟨m', by simp only [hs, hm'], trivial⟩) (List.finRange 16) m trivial
    rw [h1]
    exact ⟨_, rfl⟩

theorem set_sub_self_none (n : arpn) (i : Fin 16) (h : n.sub i = none) : n.set_sub i none = n := by
  cases n
  simp only [arpn.set_sub, arpn.mk.injEq, true_and]
  simp only at h
  rw [← h, Function.update_eq_self]

theorem exp_kid_eq (rec : arpn → arpn) (cutoff : Nat) (c : arpn) :
    exp_kid rec cutoff (some c) =
      if (if c.plen < 32 ∧ c.first < cutoff then rec c else c).last < cutoff then none
      else some (if c.plen < 32 ∧ c.first < cutoff then rec c else c) := rfl

theorem arp_expire_refines : ∀ (h : Nat) (n : arpn) (cutoff : Nat) (m : Mem), WF (h + 1) n →
    ∃ m', arp_expire (h + 1) n cutoff m = .ok (exp_tree (h + 1) n cutoff, m') := by
  intro h
  induction h with
  | zero =>
    intro n cutoff m hwf
    rw [arp_expire, exp_tree]
    apply foldlM_refines _ _ (fun cur => ∀ i c, cur.sub i = some c → WF 0 c)
    · intro cur m i hcur
      unfold arp_expire_child exp_child
      cases hs : cur.sub i with
      | none => exact ⟨m, by simp [exp_kid, set_sub_self_none _ _ hs]⟩
      | some c =>
        have hp : c.plen = 32 := hcur i c hs
        simp only [exp_kid_eq, hp, lt_irrefl, false_and, if_false, arpn.newest]
        by_cases hlt : c.last < cutoff
        · obtain ⟨m', hm'⟩ := arp_delete_ok 0 c m (hcur i c hs)
          simp only [hlt, if_true, hm']
          exact ⟨m', rfl⟩
        · simp only [hlt, if_false]
          exact ⟨m, rfl⟩
    · intro cur i hcur j c hj
      rw [exp_child_sub] at hj
      split at hj
      · obtain ⟨c0, hc0, hc', _⟩ := exp_kid_some _ _ _ _ hj
        have hp : c0.plen = 32 := hcur i c0 hc0
        simp only [hp, lt_irrefl, false_and, if_false] at hc'
        subst hc'
        exact hcur i c hc0
      · exact hcur j c hj
    · intro i c hic
      exact (hwf.2 i c hic).2
  | succ h ih =>
    intro n cutoff m hwf
    rw [arp_expire, exp_tree]
    apply foldlM_refines _ _ (fun cur => ∀ i c, cur.sub i = some c → WF (h + 1) c)
    · intro cur m i hcur
      unfold arp_expire_child exp_child
      cases hs : cur.sub i with
      | none => exact ⟨m, by simp [exp_kid, set_sub_self_none _ _ hs]⟩
      | some c =>
        have hcwf := hcur i c hs
        simp only [exp_kid_eq, arpn.oldest, arpn.newest]
        by_cases hrec : c.plen < 32 ∧ c.first < cutoff
        · obtain ⟨m1, hm1⟩ := ih c cutoff m hcwf
          simp only [hrec, and_self, if_true, hm1]
          by_cases hlt : (exp_tree (h + 1) c cutoff).last < cutoff
          · obtain ⟨m', hm'⟩ := arp_delete_ok (h + 1) _ m1 (exp_WF (h + 1) c cutoff hcwf)
            simp only [hlt, if_true, hm']
            exact ⟨m', rfl⟩
          · simp only [hlt, if_false]
            exact ⟨m1, rfl⟩
        · simp only [hrec, if_false]
          by_cases hlt : c.last < cutoff
          · obtain ⟨m', hm'⟩ := arp_delete_ok (h + 1) c m hcwf
            simp only [hlt, if_true, hm']
            exact ⟨m', rfl⟩
          · simp only [hlt, if_false]
            exact ⟨m, rfl⟩
    · intro cur i hcur j c hj
      rw [exp_child_sub] at hj
      split at hj
      · obtain ⟨c0, hc0, hc', _⟩ := exp_kid_some _ _ _ _ hj
        have hc0wf := hcur i c0 hc0
        rw [hc']
        split
        · exact exp_WF (h + 1) c0 cutoff hc0wf
        · exact hc0wf
      · exact hcur j c hj
    · intro i c hic
      exact (hwf.2 i c hic).2

/-! ## Insertion and registration from the root -/

theorem wf_covers (s : State) (a : Nat) (hs : s.wf) (ha : a < 2 ^ 32) : covers 8 s.arp_root a := by
  unfold covers
  rw [hs.2, Nat.div_eq_of_lt (by simpa using ha), Nat.zero_mul]

theorem ne_mod_of_ne (a b : Nat) (ha : a < 2 ^ 32) (hb : b < 2 ^ 32) (h : b ≠ a) :
    b % 2 ^ (4 * 8) ≠ a % 2 ^ (4 * 8) := by
  rw [Nat.mod_eq_of_lt (by simpa using hb), Nat.mod_eq_of_lt (by simpa using ha)]
  exact h

theorem wf_mk (n : arpn) (m : Mem) (h1 : WF 8 n) (h2 : n.addr = 0) :
    State.wf { arp_root := n, mem := m } := ⟨h1, h2⟩

/-- The call `arp_insert` from the root of a well-formed state: it returns, and either
yields the leaf of `a` in the closed-form tree or `NULL` with every leaf untouched. -/
theorem insert_root_spec (s : State) (a ft : Nat) (hs : s.wf) (ha : a < 2 ^ 32) :
    ∃ r n' m', arp_insert 9 s.arp_root a ft s.mem = .ok (r, n', m') ∧
      WF 8 n' ∧ n'.addr = 0 ∧
      ((r = some (touch (old_leaf 8 s.arp_root a) ft) ∧ n' = ins_tree 8 s.arp_root a ft) ∨
       (r = none ∧ (∀ b, descend 8 n' b = descend 8 s.arp_root b) ∧ descend 8 s.arp_root a = none)) := by
  obtain ⟨r, n', m', he, hcase⟩ := arp_insert_spec 8 s.arp_root a ft s.mem hs.1 ha (wf_covers s a hs ha)
  refine ⟨r, n', m', he, ?_⟩
  rcases hcase with ⟨rn, rfl, hn', hd⟩ | ⟨rfl, hwf', hadd', hdb, hda⟩
  · rw [hn', ins_descend_self, Option.some.injEq] at hd
    rw [hn', ← hd, ins_tree_addr]
    exact ⟨ins_WF 8 _ a ft hs.1 ha (wf_covers s a hs ha), hs.2, Or.inl ⟨rfl, rfl⟩⟩
  · rw [hadd']
    exact ⟨hwf', hs.2, Or.inr ⟨rfl, hdb, hda⟩⟩

/-- The leaf that `arp_register` stores. -/
theorem register_leaf_eq (an : arpn) (e : ether_addr) :
    ({ (if an.ether ≠ e then { an with ether := e } else an) with nreq := 0 } : arpn) =
      { an with ether := e, nreq := 0 } := by
  by_cases h : an.ether = e
  · subst h; simp
  · simp [h]

/-- In a well-formed tree the node at the end of the path of `a` is the leaf for `a`. -/
theorem descend_wf : ∀ (h : Nat) (n : arpn) (a : Nat) (x : arpn), WF h n → covers h n a →
    descend h n a = some x → x.plen = 32 ∧ x.addr = a := by
  intro h
  induction h with
  | zero =>
    intro n a x hwf hc hd
    simp only [descend, Option.some.injEq] at hd
    subst hd
    exact ⟨hwf, by simpa [covers] using hc.symm⟩
  | succ h ih =>
    intro n a x hwf hc hd
    simp only [descend] at hd
    cases hs : n.sub (idx (a >>> (4 * h))) with
    | none => simp [hs] at hd
    | some c =>
      simp only [hs] at hd
      obtain ⟨hca, hcwf⟩ := hwf.2 _ _ hs
      exact ih c a x hcwf (covers_child h n c a hc hca) hd

theorem rn_wf (s : State) (a ft : Nat) (hs : s.wf) (ha : a < 2 ^ 32) :
    (touch (old_leaf 8 s.arp_root a) ft).plen = 32 ∧ (touch (old_leaf 8 s.arp_root a) ft).addr = a :=
  descend_wf 8 (ins_tree 8 s.arp_root a ft) a _ (ins_WF 8 _ a ft hs.1 ha (wf_covers s a hs ha))
    (by rw [covers, ins_tree_addr]; exact wf_covers s a hs ha) (ins_descend_self 8 _ a ft)

/-- A successful insertion of `a` followed by a write of `l` through the
returned pointer. -/
theorem ins_write (s : State) (a ft : Nat) (l : arpn) (hs : s.wf) (ha : a < 2 ^ 32)
    (hl1 : l.plen = 32) (hl2 : l.addr = a) :
    WF 8 (leaf_write 8 (ins_tree 8 s.arp_root a ft) a l) ∧
    (leaf_write 8 (ins_tree 8 s.arp_root a ft) a l).addr = 0 ∧
    descend 8 (leaf_write 8 (ins_tree 8 s.arp_root a ft) a l) a = some l ∧
    (∀ b, b < 2 ^ 32 → b ≠ a →
      descend 8 (leaf_write 8 (ins_tree 8 s.arp_root a ft) a l) b = descend 8 s.arp_root b) ∧
    (∀ c, c ≤ ft → c ≤ l.last → path_fresh 8 (leaf_write 8 (ins_tree 8 s.arp_root a ft) a l) a c) := by
  have hwf := ins_WF 8 _ a ft hs.1 ha (wf_covers s a hs ha)
  have hself := ins_descend_self 8 s.arp_root a ft
  have hx : ∀ x, descend 8 (ins_tree 8 s.arp_root a ft) a = some x → l.addr = x.addr := by
    intro x hx
    rw [hself, Option.some.injEq] at hx
    rw [← hx, (rn_wf s a ft hs ha).2, hl2]
  refine ⟨lw_WF 8 _ a l hwf hl1 hx, ?_, lw_descend_self 8 _ a l _ hself, ?_, ?_⟩
  · rw [lw_addr 8 _ a l hx, ins_tree_addr]; exact hs.2
  · intro b hb hne
    rw [lw_descend_other 8 _ a l b (ne_mod_of_ne a b ha hb hne),
      ins_descend_other 8 _ a ft b (ne_mod_of_ne a b ha hb hne)]
  · intro c hc hl
    exact lw_path_fresh 8 _ a l c (ins_path_fresh 8 _ a ft c hc) hl

/-- The call `arp_register` on a well-formed state: it returns `0` after storing the
binding in the leaf of `a`, or `-1` with every leaf untouched. -/
theorem register_spec (s : State) (ft a : Nat) (e : ether_addr) (hs : s.wf) (ha : a < 2 ^ 32) :
    ∃ r s', arp_register s ft a e = .ok (r, s') ∧ s'.wf ∧
      ((r = 0 ∧ s'.arp_root = leaf_write 8 (ins_tree 8 s.arp_root a ft) a
          { touch (old_leaf 8 s.arp_root a) ft with ether := e, nreq := 0 }) ∨
       (r = -1 ∧ (∀ b, descend 8 s'.arp_root b = descend 8 s.arp_root b) ∧
          descend 8 s.arp_root a = none)) := by
  obtain ⟨r, n', m', he, hwf, hadd, hcase⟩ := insert_root_spec s a ft hs ha
  unfold arp_register
  rw [he]
  rcases hcase with ⟨rfl, hn'⟩ | ⟨rfl, hdb, hda⟩
  · simp only [register_leaf_eq]
    refine ⟨0, _, rfl, ?_, Or.inl ⟨rfl, by rw [hn']⟩⟩
    rw [hn']
    obtain ⟨h1, h2, _⟩ := ins_write s a ft { touch (old_leaf 8 s.arp_root a) ft with ether := e, nreq := 0 }
      hs ha (rn_wf s a ft hs ha).1 (rn_wf s a ft hs ha).2
    exact wf_mk _ _ h1 h2
  · exact ⟨-1, _, rfl, wf_mk _ _ hwf hadd, Or.inr ⟨rfl, hdb, hda⟩⟩

theorem register_descend_other (s s' : State) (ft a : Nat) (e : ether_addr) (r : Int) (hs : s.wf)
    (ha : a < 2 ^ 32) (h : arp_register s ft a e = .ok (r, s')) (b : Nat) (hb : b < 2 ^ 32)
    (hne : b ≠ a) : descend 8 s'.arp_root b = descend 8 s.arp_root b := by
  obtain ⟨r1, s1, he, _, hcase⟩ := register_spec s ft a e hs ha
  rw [he, Except.ok.injEq, Prod.mk.injEq] at h
  obtain ⟨rfl, rfl⟩ := h
  rcases hcase with ⟨_, hroot⟩ | ⟨_, hdb, _⟩
  · rw [hroot]
    exact (ins_write s a ft { touch (old_leaf 8 s.arp_root a) ft with ether := e, nreq := 0 } hs ha
      (rn_wf s a ft hs ha).1 (rn_wf s a ft hs ha).2).2.2.2.1 b hb hne
  · exact hdb b

theorem register_wf (s s' : State) (ft a : Nat) (e : ether_addr) (r : Int) (hs : s.wf)
    (ha : a < 2 ^ 32) (h : arp_register s ft a e = .ok (r, s')) : s'.wf := by
  obtain ⟨r1, s1, he, hwf, _⟩ := register_spec s ft a e hs ha
  rw [he, Except.ok.injEq, Prod.mk.injEq] at h
  obtain ⟨rfl, rfl⟩ := h
  exact hwf

theorem register_descend_self (s s' : State) (ft a : Nat) (e : ether_addr) (hs : s.wf)
    (ha : a < 2 ^ 32) (h : arp_register s ft a e = .ok (0, s')) :
    descend 8 s'.arp_root a =
      some { touch (old_leaf 8 s.arp_root a) ft with ether := e, nreq := 0 } := by
  obtain ⟨r1, s1, he, _, hcase⟩ := register_spec s ft a e hs ha
  rw [he, Except.ok.injEq, Prod.mk.injEq] at h
  obtain ⟨rfl, rfl⟩ := h
  rcases hcase with ⟨_, hroot⟩ | ⟨h0, _⟩
  · rw [hroot]
    exact (ins_write s a ft { touch (old_leaf 8 s.arp_root a) ft with ether := e, nreq := 0 } hs ha
      (rn_wf s a ft hs ha).1 (rn_wf s a ft hs ha).2).2.2.1
  · exact absurd h0 (by decide)

/-- C1. For every well-formed trie state, every IPv4 address `a` and every
Ethernet address `e`: `arp_register(a, e)` returns `0` or `-1`, and when it
returns `0` an immediately following `arp_lookup(a)` succeeds and yields
exactly `e`. -/
theorem register_then_lookup (s : State) (ft a : Nat) (e : ether_addr) (hs : s.wf)
    (ha : a < 2 ^ 32) :
    ∃ r s', arp_register s ft a e = .ok (r, s') ∧ (r = 0 ∨ r = -1) ∧
      (r = 0 → arp_lookup s' a = some e) := by
  obtain ⟨r, s', he, _, hcase⟩ := register_spec s ft a e hs ha
  refine ⟨r, s', he, ?_, ?_⟩
  · rcases hcase with ⟨h, _⟩ | ⟨h, _⟩
    · exact Or.inl h
    · exact Or.inr h
  · intro h0
    subst h0
    unfold arp_lookup
    rw [lookup_eq_descend, register_descend_self s s' ft a e hs ha he]

theorem wf_init (heap : List Bool) : (State.init heap).wf := by
  refine ⟨⟨rfl, ?_⟩, rfl⟩
  intro i c h
  simp [State.init, arp_root0] at h

/-- Witness for C1: registering 10.0.0.1 in the empty trie. -/
theorem register_then_lookup_witness :
    ∃ r s', arp_register (State.init []) 1000000 0x0a000001 ⟨2, 0, 0, 0, 0, 1⟩ = .ok (r, s') ∧
      (r = 0 ∨ r = -1) ∧ (r = 0 → arp_lookup s' 0x0a000001 = some ⟨2, 0, 0, 0, 0, 1⟩) :=
  register_then_lookup (State.init []) 1000000 0x0a000001 ⟨2, 0, 0, 0, 0, 1⟩ (wf_init []) (by decide)

/-! ## The expiry step of a packet -/

/-- The sweep deletes leaves but never changes one. -/
theorem exp_descend_sub : ∀ (h : Nat) (n : arpn) (a cutoff : Nat) (l : arpn), WF h n →
    descend h (exp_tree h n cutoff) a = some l → descend h n a = some l := by
  intro h
  induction h with
  | zero => intro n a cutoff l _ hd; exact hd
  | succ h ih =>
    intro n a cutoff l hwf hd
    simp only [descend, exp_tree_sub] at hd ⊢
    cases hk : exp_kid (fun c => exp_tree h c cutoff) cutoff (n.sub (idx (a >>> (4 * h)))) with
    | none => simp [hk] at hd
    | some c' =>
      simp only [hk] at hd
      obtain ⟨c0, hc0, hc', _⟩ := exp_kid_some _ _ _ _ hk
      simp only [hc0]
      rw [hc'] at hd
      split at hd
      · exact ih c0 a cutoff l (hwf.2 _ _ hc0).2 hd
      · exact hd

theorem run_expiry_spec (s : State) (ft : Nat) (hs : s.wf) :
    ∃ s', run_expiry s ft = .ok s' ∧ s'.wf ∧
      (s'.arp_root = s.arp_root ∨ s'.arp_root = exp_tree 8 s.arp_root (sub64 ft ARP_EXPIRE)) := by
  unfold run_expiry
  by_cases hlt : s.arp_root.oldest < sub64 ft ARP_EXPIRE
  · obtain ⟨m', hm'⟩ := arp_expire_refines 7 s.arp_root (sub64 ft ARP_EXPIRE) s.mem hs.1
    rw [if_pos hlt, hm']
    refine ⟨_, rfl, wf_mk _ _ (exp_WF 8 _ _ hs.1) ?_, Or.inr rfl⟩
    rw [exp_tree_addr]; exact hs.2
  · rw [if_neg hlt]
    exact ⟨s, rfl, hs, Or.inl rfl⟩

theorem run_expiry_keeps (s s' : State) (ft a : Nat) (hs : s.wf) (h : run_expiry s ft = .ok s')
    (hf : path_fresh 8 s.arp_root a (sub64 ft ARP_EXPIRE)) :
    descend 8 s'.arp_root a = descend 8 s.arp_root a := by
  obtain ⟨s1, he, _, hcase⟩ := run_expiry_spec s ft hs
  rw [he, Except.ok.injEq] at h
  subst h
  rcases hcase with h | h
  · rw [h]
  · rw [h]; exact (exp_keeps 8 s.arp_root a _ hs.1 hf).1

theorem run_expiry_sub (s s' : State) (ft a : Nat) (l : arpn) (hs : s.wf)
    (h : run_expiry s ft = .ok s') (hd : descend 8 s'.arp_root a = some l) :
    descend 8 s.arp_root a = some l := by
  obtain ⟨s1, he, _, hcase⟩ := run_expiry_spec s ft hs
  rw [he, Except.ok.injEq] at h
  subst h
  rcases hcase with h | h
  · rw [h] at hd; exact hd
  · rw [h] at hd; exact exp_descend_sub 8 s.arp_root a _ l hs.1 hd

theorem run_expiry_wf (s s' : State) (ft : Nat) (hs : s.wf) (h : run_expiry s ft = .ok s') :
    s'.wf := by
  obtain ⟨s1, he, hwf, _⟩ := run_expiry_spec s ft hs
  rw [he, Except.ok.injEq] at h
  subst h
  exact hwf

theorem sub64_expire (ft : Nat) (h1 : ARP_EXPIRE ≤ ft) :
    sub64 ft ARP_EXPIRE = ft - ARP_EXPIRE := by
  unfold sub64
  rw [if_pos h1]

theorem sub64_eq_mod (a b : Nat) (ha : a < 2 ^ 64) (hb : b < 2 ^ 64) :
    sub64 a b = (a + 2 ^ 64 - b) % 2 ^ 64 := by
  unfold sub64
  split <;> omega

/-! ## The who-has case -/

theorem analyze_target_frame (an : arpn) (ft : Nat) (iface : ether_addr) (ap : arp_pkt) :
    (analyze_target an ft iface ap).1.plen = an.plen ∧
    (analyze_target an ft iface ap).1.addr = an.addr ∧
    (analyze_target an ft iface ap).1.reserved = an.reserved := by
  unfold analyze_target
  by_cases h : an.first = ARP_NEVER <;> simp only [h, if_true, if_false] <;>
    split_ifs <;> exact ⟨rfl, rfl, rfl⟩

theorem analyze_target_last (an : arpn) (ft : Nat) (iface : ether_addr) (ap : arp_pkt) :
    (analyze_target an ft iface ap).1.last = an.last ∨
    (analyze_target an ft iface ap).1.last = ft := by
  unfold analyze_target
  by_cases h : an.first = ARP_NEVER <;> simp only [h, if_true, if_false] <;>
    split_ifs <;> first | exact Or.inl rfl | exact Or.inr rfl

theorem analyze_target_last_ge (an : arpn) (ft c : Nat) (iface : ether_addr) (ap : arp_pkt)
    (h1 : c ≤ ft) (h2 : c ≤ an.last) : c ≤ (analyze_target an ft iface ap).1.last := by
  rcases analyze_target_last an ft iface ap with h | h <;> rw [h] <;> assumption

/-- The who-has case on a well-formed state with the target in scope: the
sender is registered, then either the insertion of the target fails (`-1`, no
leaf for the target) or the leaf of the target is the one `analyze_target`
computes from the leaf `arp_insert` returned. -/
theorem analyze_who_has_spec (s : State) (ft : Nat) (dst_set : Option (Nat → Bool))
    (iface : ether_addr) (reply_ok : Bool) (ap : arp_pkt) (hs : s.wf)
    (hspa : ap.spa < 2 ^ 32) (htpa : ap.tpa < 2 ^ 32) (hin : out_of_bounds dst_set ap.tpa = false) :
    ∃ r1 s1, arp_register s ft ap.spa ap.sha = .ok (r1, s1) ∧ s1.wf ∧
    ∃ r s' out, analyze_who_has s ft dst_set iface reply_ok ap = .ok (r, s', out) ∧ s'.wf ∧
      ((r = some (-1) ∧ out = [] ∧ descend 8 s1.arp_root ap.tpa = none ∧
          ∀ b, descend 8 s'.arp_root b = descend 8 s1.arp_root b) ∨
       (descend 8 s'.arp_root ap.tpa =
            some (analyze_target (touch (old_leaf 8 s1.arp_root ap.tpa) ft) ft iface ap).1 ∧
          out = (analyze_target (touch (old_leaf 8 s1.arp_root ap.tpa) ft) ft iface ap).2.toList ∧
          r = (if out = [] ∨ reply_ok = true then none else some (-1)) ∧
          (∀ b, b < 2 ^ 32 → b ≠ ap.tpa → descend 8 s'.arp_root b = descend 8 s1.arp_root b) ∧
          (∀ c, c ≤ ft → path_fresh 8 s'.arp_root ap.tpa c))) := by
  obtain ⟨r1, s1, hreg, hs1, _⟩ := register_spec s ft ap.spa ap.sha hs hspa
  refine ⟨r1, s1, hreg, hs1, ?_⟩
  obtain ⟨r, n', m', he, hwf, hadd, hcase⟩ := insert_root_spec s1 ap.tpa ft hs1 htpa
  unfold analyze_who_has
  rw [hin, hreg]
  simp only [Bool.false_eq_true, if_false, he]
  rcases hcase with ⟨rfl, hn'⟩ | ⟨rfl, hdb, hda⟩
  · simp only
    have hrn := rn_wf s1 ap.tpa ft hs1 htpa
    have hfr := analyze_target_frame (touch (old_leaf 8 s1.arp_root ap.tpa) ft) ft iface ap
    have hlast : ft ≤ (touch (old_leaf 8 s1.arp_root ap.tpa) ft).last := by
      rw [touch_last]; exact le_max_right _ _
    obtain ⟨h1, h2, h3, h4, h5⟩ := ins_write s1 ap.tpa ft
      (analyze_target (touch (old_leaf 8 s1.arp_root ap.tpa) ft) ft iface ap).1 hs1 htpa
      (by rw [hfr.1, hrn.1]) (by rw [hfr.2.1, hrn.2])
    have h5' : ∀ c, c ≤ ft → path_fresh 8 (leaf_write 8 (ins_tree 8 s1.arp_root ap.tpa ft) ap.tpa
        (analyze_target (touch (old_leaf 8 s1.arp_root ap.tpa) ft) ft iface ap).1) ap.tpa c :=
      fun c hc => h5 c hc (analyze_target_last_ge _ ft c iface ap hc (le_trans hc hlast))
    rw [hn']
    rcases hat : analyze_target (touch (old_leaf 8 s1.arp_root ap.tpa) ft) ft iface ap with ⟨an, rep⟩
    rw [hat] at h1 h2 h3 h4 h5'
    cases rep with
    | none =>
      refine ⟨none, _, [], rfl, ?_, ?_⟩
      · exact wf_mk _ _ h1 h2
      · right
        dsimp only
        refine ⟨h3, ?_, ?_, h4, h5'⟩
        · rfl
        · simp
    | some rp =>
      refine ⟨_, _, [rp], rfl, ?_, ?_⟩
      · exact wf_mk _ _ h1 h2
      · right
        dsimp only
        refine ⟨h3, ?_, ?_, h4, h5'⟩
        · rfl
        · cases reply_ok <;> simp
  · refine ⟨some (-1), _, [], rfl, ?_, ?_⟩
    · exact wf_mk _ _ hwf hadd
    · exact Or.inl ⟨rfl, rfl, hda, hdb⟩

theorem packet_who_has_eq (s : State) (ft : Nat) (dst_set : Option (Nat → Bool))
    (iface : ether_addr) (reply_ok : Bool) (ap : arp_pkt) (len : Nat) (hp : who_has_pkt ap len) :
    packet_analyze_arp s ft dst_set iface reply_ok ap len =
      match analyze_who_has s ft dst_set iface reply_ok ap with
      | .error e => .error e
      | .ok (some r, s, out) => .ok (r, s, out)
      | .ok (none, s, out) =>
        match run_expiry s ft with
        | .error e => .error e
        | .ok s => .ok (0, s, out) := by
  obtain ⟨h1, h2, h3, h4, h5, h6, _, _⟩ := hp
  unfold packet_analyze_arp
  rw [if_neg (by omega), if_neg (by simp [h2, h3, h4, h5]), if_pos h6]

theorem old_leaf_some (h : Nat) (n : arpn) (a : Nat) (l : arpn) (hd : descend h n a = some l) :
    old_leaf h n a = l := by
  unfold old_leaf; rw [hd]

theorem old_leaf_none (h : Nat) (n : arpn) (a : Nat) (hd : descend h n a = none) :
    old_leaf h n a = new_node a 32 := by
  unfold old_leaf; rw [hd]

/-- Registration keeps every existing leaf and its flags. -/
theorem register_flags (s s1 : State) (ft a : Nat) (e : ether_addr) (r : Int) (hs : s.wf)
    (ha : a < 2 ^ 32) (h : arp_register s ft a e = .ok (r, s1)) (b : Nat) (hb : b < 2 ^ 32)
    (l : arpn) (hl : descend 8 s.arp_root b = some l) :
    ∃ l1, descend 8 s1.arp_root b = some l1 ∧ l1.reserved = l.reserved ∧ l1.claimed = l.claimed ∧
      (b ≠ a → l1 = l) := by
  by_cases hba : b = a
  · subst hba
    obtain ⟨r1, s1', he, _, hcase⟩ := register_spec s ft b e hs ha
    rw [he, Except.ok.injEq, Prod.mk.injEq] at h
    obtain ⟨rfl, rfl⟩ := h
    rcases hcase with ⟨h0, _⟩ | ⟨_, _, hnone⟩
    · subst h0
      rw [register_descend_self s s1' ft b e hs ha he, old_leaf_some 8 _ b l hl]
      exact ⟨_, rfl, by simp, by simp, fun h => absurd rfl h⟩
    · rw [hnone] at hl; exact absurd hl (by simp)
  · rw [register_descend_other s s1 ft a e r hs ha h b hb hba]
    exact ⟨l, hl, rfl, rfl, fun _ => rfl⟩

theorem analyze_target_reserved (an : arpn) (ft : Nat) (iface : ether_addr) (ap : arp_pkt)
    (h : an.reserved = true) :
    (analyze_target an ft iface ap).2 = none ∧ (analyze_target an ft iface ap).1.nreq = 0 ∧
      (analyze_target an ft iface ap).1.claimed = an.claimed ∧
      (analyze_target an ft iface ap).1.reserved = true := by
  unfold analyze_target
  by_cases h1 : an.first = ARP_NEVER <;> simp [h1, h]

/-- C4. Reservation exemption: a leaf with `reserved` set takes the reserved
branch whatever its other fields (no reply, `nreq = 0`, `claimed` unchanged);
hence for every well-formed state in which the leaf of the target is reserved
and not claimed, every in-scope who-has request for it, at any time, makes the
who-has case leave the leaf reserved, unclaimed and with `nreq = 0`,
`packet_analyze_arp` returns `0` without sending a reply, and the leaf of the
target afterwards, if the sweep left it (it does when the cutoff does not wrap),
is that leaf. -/
theorem reservation_exemption (s : State) (ft : Nat) (dst_set : Option (Nat → Bool))
    (iface : ether_addr) (reply_ok : Bool) (ap : arp_pkt) (len : Nat) (l : arpn)
    (hs : s.wf) (hp : who_has_pkt ap len) (hin : out_of_bounds dst_set ap.tpa = false)
    (hl : arp_lookup_node s.arp_root ap.tpa = some l) (hres : l.reserved = true)
    (hcl : l.claimed = false) :
    (∀ an : arpn, an.reserved = true →
      (analyze_target an ft iface ap).2 = none ∧ (analyze_target an ft iface ap).1.nreq = 0 ∧
      (analyze_target an ft iface ap).1.claimed = an.claimed) ∧
    ∃ s1 l1 s', analyze_who_has s ft dst_set iface reply_ok ap = .ok (none, s1, []) ∧
      arp_lookup_node s1.arp_root ap.tpa = some l1 ∧
      l1.reserved = true ∧ l1.claimed = false ∧ l1.nreq = 0 ∧
      packet_analyze_arp s ft dst_set iface reply_ok ap len = .ok (0, s', []) ∧
      (∀ l', arp_lookup_node s'.arp_root ap.tpa = some l' → l' = l1) ∧
      (ARP_EXPIRE ≤ ft → arp_lookup_node s'.arp_root ap.tpa = some l1) := by
  refine ⟨fun an han => ⟨(analyze_target_reserved an ft iface ap han).1,
    (analyze_target_reserved an ft iface ap han).2.1,
    (analyze_target_reserved an ft iface ap han).2.2.1⟩, ?_⟩
  have hspa := hp.2.2.2.2.2.2.1
  have htpa := hp.2.2.2.2.2.2.2
  rw [lookup_eq_descend] at hl
  obtain ⟨r1, s1, hreg, hs1, r, s2, out, haw, hs2, hcase⟩ :=
    analyze_who_has_spec s ft dst_set iface reply_ok ap hs hspa htpa hin
  obtain ⟨l1, hl1, hr1, hc1, _⟩ := register_flags s s1 ft ap.spa ap.sha r1 hs hspa hreg ap.tpa htpa l hl
  rcases hcase with ⟨_, _, hnone, _⟩ | ⟨hd, hout, hr, _, hfresh⟩
  · rw [hnone] at hl1; exact absurd hl1 (by simp)
  · rw [old_leaf_some 8 _ _ l1 hl1] at hd hout
    have hres1 : (touch l1 ft).reserved = true := by rw [touch_reserved, hr1, hres]
    obtain ⟨a1, a2, a3, a4⟩ := analyze_target_reserved (touch l1 ft) ft iface ap hres1
    rw [a1] at hout
    have hout' : out = [] := hout
    subst hout'
    have hr' : r = none := by rw [hr]; simp
    subst hr'
    obtain ⟨s3, he, hs3, _⟩ := run_expiry_spec s2 ft hs2
    refine ⟨s2, (analyze_target (touch l1 ft) ft iface ap).1, s3, haw, ?_, a4, ?_, a2, ?_, ?_, ?_⟩
    · rw [lookup_eq_descend, hd]
    · rw [a3, touch_claimed, hc1, hcl]
    · rw [packet_who_has_eq s ft dst_set iface reply_ok ap len hp, haw]
      simp only [he]
    · intro l' hl'
      rw [lookup_eq_descend] at hl'
      have := run_expiry_sub s2 s3 ft ap.tpa l' hs2 he hl'
      rw [hd, Option.some.injEq] at this
      exact this.symm
    · intro h1
      rw [lookup_eq_descend, run_expiry_keeps s2 s3 ft ap.tpa hs2 he, hd]
      apply hfresh
      rw [sub64_expire ft h1]
      exact Nat.sub_le _ _

theorem reserve_spec (s : State) (ft a : Nat) (hs : s.wf) (ha : a < 2 ^ 32) :
    ∃ r s', arp_reserve s ft a = .ok (r, s') ∧ s'.wf ∧
      ((r = 0 ∧ s'.arp_root = leaf_write 8 (ins_tree 8 s.arp_root a ft) a
          { touch (old_leaf 8 s.arp_root a) ft with first := 0, last := 0, reserved := true }) ∨
       (r = -1 ∧ (∀ b, descend 8 s'.arp_root b = descend 8 s.arp_root b) ∧
          descend 8 s.arp_root a = none)) := by
  obtain ⟨r, n', m', he, hwf, hadd, hcase⟩ := insert_root_spec s a ft hs ha
  unfold arp_reserve
  rw [he]
  rcases hcase with ⟨rfl, hn'⟩ | ⟨rfl, hdb, hda⟩
  · refine ⟨0, _, rfl, ?_, Or.inl ⟨rfl, by rw [hn']⟩⟩
    rw [hn']
    obtain ⟨h1, h2, _⟩ := ins_write s a ft
      { touch (old_leaf 8 s.arp_root a) ft with first := 0, last := 0, reserved := true }
      hs ha (rn_wf s a ft hs ha).1 (rn_wf s a ft hs ha).2
    exact wf_mk _ _ h1 h2
  · exact ⟨-1, _, rfl, wf_mk _ _ hwf hadd, Or.inr ⟨rfl, hdb, hda⟩⟩

theorem reserve_wf (s : State) (ft a : Nat) (hs : s.wf) (ha : a < 2 ^ 32) (r : Int) (s' : State)
    (h : arp_reserve s ft a = .ok (r, s')) : s'.wf := by
  obtain ⟨r1, s1, he, hwf, _⟩ := reserve_spec s ft a hs ha
  rw [he, Except.ok.injEq, Prod.mk.injEq] at h
  obtain ⟨rfl, rfl⟩ := h
  exact hwf

/-- Witness for C4: 10.0.0.5 is reserved, then 10.0.0.1 asks for it. -/
theorem reservation_exemption_witness :
    (∀ an : arpn, an.reserved = true →
      (analyze_target an 1000000 ⟨2, 0, 0, 0, 0, 9⟩ ex_who_has).2 = none ∧
      (analyze_target an 1000000 ⟨2, 0, 0, 0, 0, 9⟩ ex_who_has).1.nreq = 0 ∧
      (analyze_target an 1000000 ⟨2, 0, 0, 0, 0, 9⟩ ex_who_has).1.claimed = an.claimed) ∧
    ∃ s1 l1 s', analyze_who_has ex_reserved 1000000 none ⟨2, 0, 0, 0, 0, 9⟩ true ex_who_has =
        .ok (none, s1, []) ∧
      arp_lookup_node s1.arp_root ex_who_has.tpa = some l1 ∧
      l1.reserved = true ∧ l1.claimed = false ∧ l1.nreq = 0 ∧
      packet_analyze_arp ex_reserved 1000000 none ⟨2, 0, 0, 0, 0, 9⟩ true ex_who_has 28 =
        .ok (0, s', []) ∧
      (∀ l', arp_lookup_node s'.arp_root ex_who_has.tpa = some l' → l' = l1) ∧
      (ARP_EXPIRE ≤ 1000000 → arp_lookup_node s'.arp_root ex_who_has.tpa = some l1) :=
  reservation_exemption ex_reserved 1000000 none ⟨2, 0, 0, 0, 0, 9⟩ true ex_who_has 28
    { new_node 0x0a000005 32 with first := 0, last := 0, reserved := true }
    (reserve_wf (State.init []) 900000 0x0a000005 (wf_init []) (by decide) 0 ex_reserved rfl)
    (by decide) rfl rfl rfl rfl

/-! ## Probing and claiming -/

/-- The restart branch of the who-has case. -/
theorem analyze_target_restart (an : arpn) (ft : Nat) (iface : ether_addr) (ap : arp_pkt)
    (hr : an.reserved = false) (hc : an.claimed = false)
    (h : an.nreq = 0 ∨ sub64 ft an.last ≥ ARP_STALE) :
    (analyze_target an ft iface ap).2 = none ∧ (analyze_target an ft iface ap).1.nreq = 1 ∧
    (analyze_target an ft iface ap).1.first = ft ∧ (analyze_target an ft iface ap).1.last = an.last ∧
    (analyze_target an ft iface ap).1.claimed = false ∧
    (analyze_target an ft iface ap).1.reserved = false ∧
    (analyze_target an ft iface ap).1.ether = an.ether := by
  unfold analyze_target
  by_cases h1 : an.first = ARP_NEVER <;> simp [h1, hr, hc, h]

/-- The counting branch of the who-has case. -/
theorem analyze_target_count (an : arpn) (ft : Nat) (iface : ether_addr) (ap : arp_pkt)
    (hr : an.reserved = false) (hc : an.claimed = false) (hf : an.first ≠ ARP_NEVER)
    (h0 : an.nreq ≠ 0) (hs : sub64 ft an.last < ARP_STALE)
    (h : an.nreq < ARP_MINREQ ∨ sub64 ft an.first < ARP_TIMEOUT) :
    (analyze_target an ft iface ap).2 = none ∧
    (analyze_target an ft iface ap).1.nreq = (an.nreq + 1) % 2 ^ 32 ∧
    (analyze_target an ft iface ap).1.first = an.first ∧ (analyze_target an ft iface ap).1.last = ft ∧
    (analyze_target an ft iface ap).1.claimed = false ∧
    (analyze_target an ft iface ap).1.reserved = false ∧
    (analyze_target an ft iface ap).1.ether = an.ether := by
  unfold analyze_target
  have hs' : ¬ (ARP_STALE ≤ sub64 ft an.last) := by omega
  have h' : ¬ (ARP_MINREQ ≤ an.nreq ∧ ARP_TIMEOUT ≤ sub64 ft an.first) := by omega
  simp [hf, hr, hc, h0, hs', h']

/-- The claim branch of the who-has case. -/
theorem analyze_target_claim (an : arpn) (ft : Nat) (iface : ether_addr) (ap : arp_pkt)
    (hr : an.reserved = false) (hc : an.claimed = false) (hf : an.first ≠ ARP_NEVER)
    (hs : sub64 ft an.last < ARP_STALE)
    (h3 : ARP_MINREQ ≤ an.nreq) (ht : ARP_TIMEOUT ≤ sub64 ft an.first) :
    (analyze_target an ft iface ap).2 = some (arp_reply iface ap) ∧
    (analyze_target an ft iface ap).1.nreq = 0 ∧
    (analyze_target an ft iface ap).1.first = an.first ∧
    (analyze_target an ft iface ap).1.last = an.last ∧
    (analyze_target an ft iface ap).1.claimed = true ∧
    (analyze_target an ft iface ap).1.reserved = false ∧
    (analyze_target an ft iface ap).1.ether = iface := by
  unfold analyze_target
  have hs' : ¬ (ARP_STALE ≤ sub64 ft an.last) := by omega
  have h0 : an.nreq ≠ 0 := by unfold ARP_MINREQ at h3; omega
  simp [hf, hr, hc, h0, hs', h3, ht]

theorem sub64_self (t : Nat) : sub64 t t = 0 := by
  unfold sub64; simp

theorem sub64_le (a b : Nat) (h : b ≤ a) : sub64 a b = a - b := by
  unfold sub64; rw [if_pos h]

/-- One who-has request on a well-formed state, target in scope, sender other
than the target, clock past `ARP_EXPIRE`: either the insertion of the target
failed (`-1`, the target has no leaf before or after), or the leaf of the
target afterwards is what `analyze_target` makes of the touched old leaf. -/
theorem packet_who_has_leaf (s : State) (ft : Nat) (dst_set : Option (Nat → Bool))
    (iface : ether_addr) (reply_ok : Bool) (ap : arp_pkt) (len : Nat)
    (hs : s.wf) (hp : who_has_pkt ap len) (hin : out_of_bounds dst_set ap.tpa = false)
    (hne : ap.spa ≠ ap.tpa) (hft : ARP_EXPIRE ≤ ft) :
    ∃ r s' out, packet_analyze_arp s ft dst_set iface reply_ok ap len = .ok (r, s', out) ∧ s'.wf ∧
      ((r = -1 ∧ out = [] ∧ descend 8 s.arp_root ap.tpa = none) ∨
       (descend 8 s'.arp_root ap.tpa =
            some (analyze_target (touch (old_leaf 8 s.arp_root ap.tpa) ft) ft iface ap).1 ∧
          out = (analyze_target (touch (old_leaf 8 s.arp_root ap.tpa) ft) ft iface ap).2.toList ∧
          r = (if out = [] ∨ reply_ok = true then 0 else -1))) := by
  have hspa := hp.2.2.2.2.2.2.1
  have htpa := hp.2.2.2.2.2.2.2
  obtain ⟨r1, s1, hreg, hs1, r, s2, out, haw, hs2, hcase⟩ :=
    analyze_who_has_spec s ft dst_set iface reply_ok ap hs hspa htpa hin
  have hsame : descend 8 s1.arp_root ap.tpa = descend 8 s.arp_root ap.tpa :=
    register_descend_other s s1 ft ap.spa ap.sha r1 hs hspa hreg ap.tpa htpa (Ne.symm hne)
  have hold : old_leaf 8 s1.arp_root ap.tpa = old_leaf 8 s.arp_root ap.tpa := by
    unfold old_leaf; rw [hsame]
  rw [hold] at hcase
  rw [packet_who_has_eq s ft dst_set iface reply_ok ap len hp, haw]
  rcases hcase with ⟨hr, hout, hnone, _⟩ | ⟨hd, hout, hr, _, hfresh⟩
  · subst hr
    refine ⟨-1, s2, out, rfl, hs2, Or.inl ⟨rfl, hout, ?_⟩⟩
    rw [← hsame]; exact hnone
  · by_cases hrep : out = [] ∨ reply_ok = true
    · rw [if_pos hrep] at hr
      subst hr
      obtain ⟨s3, he, hs3, _⟩ := run_expiry_spec s2 ft hs2
      refine ⟨0, s3, out, ?_, hs3, Or.inr ⟨?_, hout, by rw [if_pos hrep]⟩⟩
      · split
        · next heq => simp at heq
        · next heq => simp at heq
        · next s' o' heq =>
          simp only [Except.ok.injEq, Prod.mk.injEq, true_and] at heq
          obtain ⟨rfl, rfl⟩ := heq
          rw [he]
      · rw [run_expiry_keeps s2 s3 ft ap.tpa hs2 he, hd]
        apply hfresh
        rw [sub64_expire ft hft]
        exact Nat.sub_le _ _
    · rw [if_neg hrep] at hr
      subst hr
      exact ⟨-1, s2, out, rfl, hs2, Or.inr ⟨hd, hout, by rw [if_neg hrep]⟩⟩

theorem pkt_ret_ok (x : Except Fault (Int × State × List arp_pkt)) (r r' : Int) (s : State)
    (out : List arp_pkt) (h : x = .ok (r, s, out)) (h' : pkt_ret x = some r') : r = r' := by
  subst h
  simpa [pkt_ret] using h'

/-- First request for a target that has no leaf or an idle one: the count starts at 1. -/
theorem probe_first (s : State) (t1 : Nat) (dst_set : Option (Nat → Bool))
    (iface : ether_addr) (reply_ok : Bool) (ap : arp_pkt) (len : Nat)
    (hs : s.wf) (hp : who_has_pkt ap len) (hin : out_of_bounds dst_set ap.tpa = false)
    (hne : ap.spa ≠ ap.tpa) (hft : ARP_EXPIRE ≤ t1)
    (hidle : ∀ l, descend 8 s.arp_root ap.tpa = some l →
      l.reserved = false ∧ l.claimed = false ∧ l.nreq = 0 ∧ l.last ≤ t1)
    (hret : pkt_ret (packet_analyze_arp s t1 dst_set iface reply_ok ap len) = some 0) :
    ∃ s1 l1, packet_analyze_arp s t1 dst_set iface reply_ok ap len = .ok (0, s1, []) ∧ s1.wf ∧
      descend 8 s1.arp_root ap.tpa = some l1 ∧ probing l1 t1 t1 1 := by
  obtain ⟨r, s1, out, he, hs1, hcase⟩ :=
    packet_who_has_leaf s t1 dst_set iface reply_ok ap len hs hp hin hne hft
  have hr0 := pkt_ret_ok _ r 0 s1 out he hret
  subst hr0
  rcases hcase with ⟨h, _⟩ | ⟨hd, hout, _⟩
  · exact absurd h (by decide)
  · have hl0 : (old_leaf 8 s.arp_root ap.tpa).reserved = false ∧
        (old_leaf 8 s.arp_root ap.tpa).claimed = false ∧
        (old_leaf 8 s.arp_root ap.tpa).nreq = 0 ∧ (old_leaf 8 s.arp_root ap.tpa).last ≤ t1 := by
      cases hdd : descend 8 s.arp_root ap.tpa with
      | none => rw [old_leaf_none 8 _ _ hdd]; exact ⟨rfl, rfl, rfl, Nat.zero_le _⟩
      | some l => rw [old_leaf_some 8 _ _ l hdd]; exact hidle l hdd
    obtain ⟨a1, a2, a3, a4, a5, a6, _⟩ := analyze_target_restart
      (touch (old_leaf 8 s.arp_root ap.tpa) t1) t1 iface ap
      (by rw [touch_reserved]; exact hl0.1) (by rw [touch_claimed]; exact hl0.2.1)
      (Or.inl (by rw [touch_nreq]; exact hl0.2.2.1))
    rw [a1] at hout
    have hout' : out = [] := hout
    subst hout'
    refine ⟨s1, _, he, hs1, hd, a6, a5, a2, a3, ?_⟩
    rw [a4, touch_last]
    exact max_eq_right hl0.2.2.2

/-- A further request while fewer than `ARP_MINREQ` have been counted: the count goes up by one. -/
theorem probe_count (s : State) (t1 t t' n : Nat) (dst_set : Option (Nat → Bool))
    (iface : ether_addr) (reply_ok : Bool) (ap : arp_pkt) (len : Nat) (l : arpn)
    (hs : s.wf) (hp : who_has_pkt ap len) (hin : out_of_bounds dst_set ap.tpa = false)
    (hne : ap.spa ≠ ap.tpa) (hft : ARP_EXPIRE ≤ t')
    (hl : descend 8 s.arp_root ap.tpa = some l) (hpr : probing l t1 t n)
    (hn0 : n ≠ 0) (hn3 : n < ARP_MINREQ) (ht : t ≤ t') (ht1 : t1 ≤ t') (hnv : t1 < ARP_NEVER) :
    ∃ s' l', packet_analyze_arp s t' dst_set iface reply_ok ap len = .ok (0, s', []) ∧ s'.wf ∧
      descend 8 s'.arp_root ap.tpa = some l' ∧ probing l' t1 t' (n + 1) := by
  obtain ⟨r, s1, out, he, hs1, hcase⟩ :=
    packet_who_has_leaf s t' dst_set iface reply_ok ap len hs hp hin hne hft
  obtain ⟨p1, p2, p3, p4, p5⟩ := hpr
  rcases hcase with ⟨_, _, h⟩ | ⟨hd, hout, hr⟩
  · rw [h] at hl; exact absurd hl (by simp)
  · rw [old_leaf_some 8 _ _ l hl] at hd hout
    have hfirst : (touch l t').first = t1 := by rw [touch_first, p4]; exact min_eq_left ht1
    have hlast : (touch l t').last = t' := by rw [touch_last, p5]; exact max_eq_right ht
    obtain ⟨a1, a2, a3, a4, a5, a6, _⟩ := analyze_target_count (touch l t') t' iface ap
      (by rw [touch_reserved]; exact p1) (by rw [touch_claimed]; exact p2)
      (by rw [hfirst]; omega) (by rw [touch_nreq, p3]; exact hn0)
      (by rw [hlast, sub64_self]; decide) (Or.inl (by rw [touch_nreq, p3]; exact hn3))
    rw [a1] at hout
    have hout' : out = [] := hout
    subst hout'
    rw [if_pos (Or.inl rfl)] at hr
    subst hr
    refine ⟨s1, _, he, hs1, hd, a6, a5, ?_, by rw [a3, hfirst], a4⟩
    rw [a2, touch_nreq, p3]
    unfold ARP_MINREQ at hn3
    omega

/-- A request once `ARP_MINREQ` requests have been counted and `ARP_TIMEOUT` has
passed since the first: the address is claimed and a reply is sent. -/
theorem probe_claim (s : State) (t1 t t' n : Nat) (dst_set : Option (Nat → Bool))
    (iface : ether_addr) (reply_ok : Bool) (ap : arp_pkt) (len : Nat) (l : arpn)
    (hs : s.wf) (hp : who_has_pkt ap len) (hin : out_of_bounds dst_set ap.tpa = false)
    (hne : ap.spa ≠ ap.tpa) (hft : ARP_EXPIRE ≤ t')
    (hl : descend 8 s.arp_root ap.tpa = some l) (hpr : probing l t1 t n)
    (hn3 : ARP_MINREQ ≤ n) (ht : t ≤ t') (ht1 : t1 + ARP_TIMEOUT ≤ t') (hnv : t1 < ARP_NEVER) :
    ∃ r s' l', packet_analyze_arp s t' dst_set iface reply_ok ap len =
        .ok (r, s', [arp_reply iface ap]) ∧ s'.wf ∧
      descend 8 s'.arp_root ap.tpa = some l' ∧ l'.claimed = true ∧ l'.nreq = 0 ∧
      l'.ether = iface ∧ l'.reserved = false := by
  obtain ⟨r, s1, out, he, hs1, hcase⟩ :=
    packet_who_has_leaf s t' dst_set iface reply_ok ap len hs hp hin hne hft
  obtain ⟨p1, p2, p3, p4, p5⟩ := hpr
  rcases hcase with ⟨_, _, h⟩ | ⟨hd, hout, hr⟩
  · rw [h] at hl; exact absurd hl (by simp)
  · rw [old_leaf_some 8 _ _ l hl] at hd hout
    have hfirst : (touch l t').first = t1 := by
      rw [touch_first, p4]; exact min_eq_left (le_trans (Nat.le_add_right _ _) ht1)
    have hlast : (touch l t').last = t' := by rw [touch_last, p5]; exact max_eq_right ht
    obtain ⟨a1, a2, a3, a4, a5, a6, a7⟩ := analyze_target_claim (touch l t') t' iface ap
      (by rw [touch_reserved]; exact p1) (by rw [touch_claimed]; exact p2)
      (by rw [hfirst]; omega) (by rw [hlast, sub64_self]; decide)
      (by rw [touch_nreq, p3]; exact hn3)
      (by rw [hfirst, sub64_le _ _ (le_trans (Nat.le_add_right _ _) ht1)]; omega)
    rw [a1] at hout
    have hout' : out = [arp_reply iface ap] := hout
    subst hout'
    exact ⟨r, s1, _, he, hs1, hd, a5, a2, a7, a6⟩

theorem lookup_init (heap : List Bool) (a : Nat) :
    arp_lookup_node (State.init heap).arp_root a = none := by
  simp [arp_lookup_node, State.init, arp_root0]

/-- C2, as stated, fails: from the empty trie, three requests "who-has
10.0.0.5 tell 10.0.0.1" at 1000000, 1001500 and 1003000 ms (at least 1000 ms
apart, 3000 ms in total, target in scope, neither reserved nor claimed, not the
sender) leave the leaf of 10.0.0.5 unclaimed, with three requests counted. -/
theorem claim_threshold_counterexample :
    who_has_pkt ex_who_has 28 ∧ out_of_bounds none ex_who_has.tpa = false ∧
    ex_who_has.spa ≠ ex_who_has.tpa ∧
    (arp_lookup_node (State.init []).arp_root ex_who_has.tpa).isNone = true ∧
    (arp_lookup_node (ex_probe [1000000, 1001500, 1003000]).arp_root ex_who_has.tpa).map
      (fun l => (l.claimed, l.nreq)) = some (false, 3) := by
  decide

/-- C2, amended. Let the target be in scope, not the sender, and without a
leaf or with an idle one (not reserved, not claimed, no request counted, not
seen after `t1`).  Feed four who-has requests for it at `t1 < t2 < t3 < t4`,
each at least 1000 ms and less than `ARP_STALE` after the one before, the
clock past `ARP_EXPIRE`, the first one not cut short by a failed allocation.
Then the first three return `0` without a reply and leave the leaf unclaimed
with 1, 2 and 3 requests counted (so two requests, and three, leave `claimed`
clear), and the fourth sets `claimed`, binds the leaf to the interface address
and hands one reply to `ethernet_reply`. -/
theorem claim_threshold (s : State) (t1 t2 t3 t4 : Nat) (dst_set : Option (Nat → Bool))
    (iface : ether_addr) (reply_ok : Bool) (ap : arp_pkt) (len : Nat)
    (hs : s.wf) (hp : who_has_pkt ap len) (hin : out_of_bounds dst_set ap.tpa = false)
    (hne : ap.spa ≠ ap.tpa)
    (hidle : ∀ l, arp_lookup_node s.arp_root ap.tpa = some l →
      l.reserved = false ∧ l.claimed = false ∧ l.nreq = 0 ∧ l.last ≤ t1)
    (h1 : ARP_EXPIRE ≤ t1) (h12 : t1 + 1000 ≤ t2) (_h12s : t2 < t1 + ARP_STALE)
    (h23 : t2 + 1000 ≤ t3) (_h23s : t3 < t2 + ARP_STALE)
    (h34 : t3 + 1000 ≤ t4) (_h34s : t4 < t3 + ARP_STALE) (h4 : t4 < 2 ^ 64)
    (hret : pkt_ret (packet_analyze_arp s t1 dst_set iface reply_ok ap len) = some 0) :
    ∃ s1 s2 s3 s4 l1 l2 l3 l4 r4,
      packet_analyze_arp s t1 dst_set iface reply_ok ap len = .ok (0, s1, []) ∧
      packet_analyze_arp s1 t2 dst_set iface reply_ok ap len = .ok (0, s2, []) ∧
      packet_analyze_arp s2 t3 dst_set iface reply_ok ap len = .ok (0, s3, []) ∧
      packet_analyze_arp s3 t4 dst_set iface reply_ok ap len = .ok (r4, s4, [arp_reply iface ap]) ∧
      arp_lookup_node s1.arp_root ap.tpa = some l1 ∧ l1.claimed = false ∧ l1.nreq = 1 ∧
      arp_lookup_node s2.arp_root ap.tpa = some l2 ∧ l2.claimed = false ∧ l2.nreq = 2 ∧
      arp_lookup_node s3.arp_root ap.tpa = some l3 ∧ l3.claimed = false ∧ l3.nreq = 3 ∧
      arp_lookup_node s4.arp_root ap.tpa = some l4 ∧ l4.claimed = true ∧ l4.ether = iface := by
  have hnv : t1 < ARP_NEVER := by unfold ARP_NEVER; omega
  have e2 : ARP_EXPIRE ≤ t2 := by omega
  have e3 : ARP_EXPIRE ≤ t3 := by omega
  have e4 : ARP_EXPIRE ≤ t4 := by omega
  obtain ⟨s1, l1, q1, w1, d1, p1⟩ := probe_first s t1 dst_set iface reply_ok ap len hs hp hin hne h1
    (fun l hl => hidle l (by rw [lookup_eq_descend]; exact hl)) hret
  obtain ⟨s2, l2, q2, w2, d2, p2⟩ := probe_count s1 t1 t1 t2 1 dst_set iface reply_ok ap len l1
    w1 hp hin hne e2 d1 p1 (by decide) (by decide) (by omega) (by omega) hnv
  obtain ⟨s3, l3, q3, w3, d3, p3⟩ := probe_count s2 t1 t2 t3 2 dst_set iface reply_ok ap len l2
    w2 hp hin hne e3 d2 p2 (by decide) (by decide) (by omega) (by omega) hnv
  obtain ⟨r4, s4, l4, q4, _, d4, c4, _, c5, _⟩ := probe_claim s3 t1 t3 t4 3 dst_set iface reply_ok
    ap len l3 w3 hp hin hne e4 d3 p3 (by decide) (by omega) (by unfold ARP_TIMEOUT; omega) hnv
  refine ⟨s1, s2, s3, s4, l1, l2, l3, l4, r4, q1, q2, q3, q4, ?_, p1.2.1, p1.2.2.1, ?_, p2.2.1,
    p2.2.2.1, ?_, p3.2.1, p3.2.2.1, ?_, c4, c5⟩
  · rw [lookup_eq_descend]; exact d1
  · rw [lookup_eq_descend]; exact d2
  · rw [lookup_eq_descend]; exact d3
  · rw [lookup_eq_descend]; exact d4

/-- Witness for the amended C2: four requests for 10.0.0.5, one second apart,
on the empty trie. -/
theorem claim_threshold_witness :
    ∃ s1 s2 s3 s4 l1 l2 l3 l4 r4,
      packet_analyze_arp (State.init []) 1000000 none ex_iface true ex_who_has 28 = .ok (0, s1, []) ∧
      packet_analyze_arp s1 1001000 none ex_iface true ex_who_has 28 = .ok (0, s2, []) ∧
      packet_analyze_arp s2 1002000 none ex_iface true ex_who_has 28 = .ok (0, s3, []) ∧
      packet_analyze_arp s3 1003000 none ex_iface true ex_who_has 28 =
        .ok (r4, s4, [arp_reply ex_iface ex_who_has]) ∧
      arp_lookup_node s1.arp_root ex_who_has.tpa = some l1 ∧ l1.claimed = false ∧ l1.nreq = 1 ∧
      arp_lookup_node s2.arp_root ex_who_has.tpa = some l2 ∧ l2.claimed = false ∧ l2.nreq = 2 ∧
      arp_lookup_node s3.arp_root ex_who_has.tpa = some l3 ∧ l3.claimed = false ∧ l3.nreq = 3 ∧
      arp_lookup_node s4.arp_root ex_who_has.tpa = some l4 ∧ l4.claimed = true ∧ l4.ether = ex_iface :=
  claim_threshold (State.init []) 1000000 1001000 1002000 1003000 none ex_iface true ex_who_has 28
    (wf_init []) (by decide) rfl (by decide)
    (fun l hl => absurd hl (by rw [lookup_init]; simp))
    (by decide) (by decide) (by decide) (by decide) (by decide) (by decide) (by decide) (by decide)
    (by decide)

/-! ## Evaluations at concrete inputs -/

/-- C3, evaluated at the failing input: after "who-has 10.0.0.5" at 1000000 ms
the leaf has `nreq = 1`, `first = last = 1000000`; the next request for it
arrives 40000 ms later (`>= ARP_STALE`, no sweep in between) and is counted as
the second one, `nreq = 2` with `first` still 1000000, instead of restarting
the count: `arp_insert` has already moved `last` to `ft_time` when the test
`ft_time - an->last >= ARP_STALE` is made. -/
theorem stale_restart_missed :
    (arp_lookup_node (ex_probe [1000000]).arp_root ex_who_has.tpa).map
      (fun l => (l.reserved, l.claimed, l.nreq, l.first, l.last)) =
        some (false, false, 1, 1000000, 1000000) ∧
    ARP_STALE ≤ 1040000 - 1000000 ∧
    (arp_lookup_node (ex_probe [1000000, 1040000]).arp_root ex_who_has.tpa).map
      (fun l => (l.nreq, l.first, l.last)) = some (2, 1000000, 1040000) := by
  decide

/-- C9, evaluated at the failing input: on the empty trie at `ft_time = 1000000`
`arp_insert` creates the leaf of 10.0.0.5 and returns it with `first = 1000000`,
not `ARP_NEVER`, so the caller's test `an->first == ARP_NEVER` is false. -/
theorem insert_sets_first :
    (arp_lookup_node arp_root0 0x0a000005).isNone = true ∧
    (insert_ret (arp_insert 9 arp_root0 0x0a000005 1000000 ⟨0, 0, []⟩)).map
      (fun rn => (rn.first, decide (rn.first = ARP_NEVER))) = some (1000000, false) := by
  decide

/-- C5, evaluated at the failing input: after the sweep with cutoff 1300000 the
leaf of 10.0.0.2, last seen at 1200000, is still in the trie and
`arp_lookup` still answers for it. -/
theorem sweep_misses_stale_leaf :
    sub64 (1600 * 1000 % 2 ^ 64) ARP_EXPIRE = 1300000 ∧
    (arp_lookup_node ex_sweeps.arp_root 0x0a000002).map (fun l => (l.last, decide (l.last < 1300000))) =
      some (1200000, true) ∧
    arp_lookup ex_sweeps 0x0a000002 = some ⟨2, 0, 0, 0, 0, 2⟩ ∧
    (arp_lookup_node ex_sweeps.arp_root 0x0a000001).isNone = true := by
  decide

/-- C10, as stated, fails: with 10.0.0.5 outside the address filter, the request
"who-has 10.0.0.5 tell 10.0.0.1" on the empty trie returns `0` and leaves the
sender 10.0.0.1 unregistered: `arp_lookup` does not find it. -/
theorem out_of_scope_counterexample :
    who_has_pkt ex_who_has 28 ∧ out_of_bounds ex_filter ex_who_has.tpa = true ∧
    pkt_ret (packet_analyze_arp (State.init []) 1000000 ex_filter ex_iface true ex_who_has 28) =
      some 0 ∧
    arp_lookup (pkt_state
      (packet_analyze_arp (State.init []) 1000000 ex_filter ex_iface true ex_who_has 28))
      ex_who_has.spa = none := by
  decide

theorem packet_who_has_none (s : State) (ft : Nat) (dst_set : Option (Nat → Bool))
    (iface : ether_addr) (reply_ok : Bool) (ap : arp_pkt) (len : Nat) (hp : who_has_pkt ap len)
    (s2 s3 : State) (out : List arp_pkt)
    (h1 : analyze_who_has s ft dst_set iface reply_ok ap = .ok (none, s2, out))
    (h2 : run_expiry s2 ft = .ok s3) :
    packet_analyze_arp s ft dst_set iface reply_ok ap len = .ok (0, s3, out) := by
  rw [packet_who_has_eq s ft dst_set iface reply_ok ap len hp, h1]
  split
  · next heq => simp at heq
  · next heq => simp at heq
  · next s' o' heq =>
    simp only [Except.ok.injEq, Prod.mk.injEq, true_and] at heq
    obtain ⟨rfl, rfl⟩ := heq
    rw [h2]

theorem run_expiry_not_due (s : State) (ft : Nat)
    (h : ¬ s.arp_root.oldest < sub64 ft ARP_EXPIRE) : run_expiry s ft = .ok s := by
  unfold run_expiry
  rw [if_neg h]

/-- C10, amended. For every well-formed who-has request whose target is outside
the configured address filter, the who-has case touches nothing: no insertion
and no claim evaluation for the target, and no registration of the sender
either.  `packet_analyze_arp` returns `0`, sends nothing, and leaves the state
that the closing expiry step makes of the unchanged state: the state itself
when no sweep is due, and never a leaf or binding that was not there before. -/
theorem out_of_scope (s : State) (ft : Nat) (dst_set : Option (Nat → Bool))
    (iface : ether_addr) (reply_ok : Bool) (ap : arp_pkt) (len : Nat)
    (hs : s.wf) (hp : who_has_pkt ap len) (hout : out_of_bounds dst_set ap.tpa = true) :
    analyze_who_has s ft dst_set iface reply_ok ap = .ok (none, s, []) ∧
    ∃ s', run_expiry s ft = .ok s' ∧
      packet_analyze_arp s ft dst_set iface reply_ok ap len = .ok (0, s', []) ∧
      (∀ a l, arp_lookup_node s'.arp_root a = some l → arp_lookup_node s.arp_root a = some l) ∧
      (∀ a e, arp_lookup s' a = some e → arp_lookup s a = some e) ∧
      (¬ s.arp_root.oldest < sub64 ft ARP_EXPIRE → s' = s) := by
  have haw : analyze_who_has s ft dst_set iface reply_ok ap = .ok (none, s, []) := by
    unfold analyze_who_has
    rw [hout, if_pos rfl]
  obtain ⟨s', he, _, _⟩ := run_expiry_spec s ft hs
  have hnode : ∀ a l, arp_lookup_node s'.arp_root a = some l →
      arp_lookup_node s.arp_root a = some l := by
    intro a l hl
    rw [lookup_eq_descend] at hl ⊢
    exact run_expiry_sub s s' ft a l hs he hl
  refine ⟨haw, s', he, packet_who_has_none s ft dst_set iface reply_ok ap len hp s s' [] haw he,
    hnode, ?_, ?_⟩
  · intro a e hl
    unfold arp_lookup at hl ⊢
    cases hn : arp_lookup_node s'.arp_root a with
    | none => rw [hn] at hl; exact absurd hl (by simp)
    | some l =>
      rw [hn] at hl
      rw [hnode a l hn]
      exact hl
  · intro hnd
    rw [run_expiry_not_due s ft hnd, Except.ok.injEq] at he
    exact he.symm

/-- Witness for the amended C10: the request for 10.0.0.5 with only 10.0.0.1 in
the filter, on the empty trie. -/
theorem out_of_scope_witness :
    analyze_who_has (State.init []) 1000000 ex_filter ex_iface true ex_who_has =
      .ok (none, State.init [], []) ∧
    ∃ s', run_expiry (State.init []) 1000000 = .ok s' ∧
      packet_analyze_arp (State.init []) 1000000 ex_filter ex_iface true ex_who_has 28 =
        .ok (0, s', []) ∧
      (∀ a l, arp_lookup_node s'.arp_root a = some l →
        arp_lookup_node (State.init []).arp_root a = some l) ∧
      (∀ a e, arp_lookup s' a = some e → arp_lookup (State.init []) a = some e) ∧
      (¬ (State.init []).arp_root.oldest < sub64 1000000 ARP_EXPIRE → s' = State.init []) :=
  out_of_scope (State.init []) 1000000 ex_filter ex_iface true ex_who_has 28 (wf_init [])
    (by decide) (by decide)

/-! ## The insertion path -/

theorem walk_full : ∀ (h : Nat) (n : arpn) (a : Nat), walk h h n a = descend h n a := by
  intro h
  induction h with
  | zero => intro n a; rfl
  | succ h ih =>
    intro n a
    simp only [walk, descend]
    cases n.sub (idx (a >>> (4 * h))) with
    | none => rfl
    | some c => exact ih c a

theorem walk_wf : ∀ (h k : Nat) (n : arpn) (a : Nat) (x : arpn), WF h n → covers h n a → k ≤ h →
    walk h k n a = some x → x.plen + 4 * (h - k) = 32 ∧ covers (h - k) x a := by
  intro h
  induction h with
  | zero =>
    intro k n a x hwf hc hk hw
    have hk0 : k = 0 := by omega
    subst hk0
    simp only [walk, Option.some.injEq] at hw
    subst hw
    have hp : n.plen = 32 := hwf
    exact ⟨by omega, hc⟩
  | succ h ih =>
    intro k n a x hwf hc hk hw
    cases k with
    | zero =>
      simp only [walk, Option.some.injEq] at hw
      subst hw
      exact ⟨hwf.1, hc⟩
    | succ k =>
      simp only [walk] at hw
      cases hs : n.sub (idx (a >>> (4 * h))) with
      | none => simp [hs] at hw
      | some c =>
        simp only [hs] at hw
        obtain ⟨hca, hcwf⟩ := hwf.2 _ _ hs
        have := ih k c a x hcwf (covers_child h n c a hc hca) (by omega) hw
        rw [show h + 1 - (k + 1) = h - k by omega]
        exact this

theorem walk_exists : ∀ (h k : Nat) (n : arpn) (a : Nat) (x : arpn), descend h n a = some x → k ≤ h →
    ∃ y, walk h k n a = some y := by
  intro h
  induction h with
  | zero =>
    intro k n a x _ hk
    have hk0 : k = 0 := by omega
    subst hk0
    exact ⟨n, rfl⟩
  | succ h ih =>
    intro k n a x hd hk
    cases k with
    | zero => exact ⟨n, rfl⟩
    | succ k =>
      simp only [descend] at hd
      simp only [walk]
      cases hs : n.sub (idx (a >>> (4 * h))) with
      | none => simp [hs] at hd
      | some c =>
        simp only [hs] at hd
        exact ih k c a x hd (by omega)

/-- The call `arp_insert` bumps `narpn` once per level at most, and touches neither the
counters nor the allocator when the leaf is there already. -/
theorem insert_counts : ∀ (h : Nat) (n : arpn) (a ft : Nat) (m : Mem) (r : Option arpn)
    (n' : arpn) (m' : Mem), WF h n → a < 2 ^ 32 → covers h n a →
    arp_insert (h + 1) n a ft m = .ok (r, n', m') →
    (∃ k, k ≤ h ∧ m'.narpn % 2 ^ 32 = (m.narpn + k) % 2 ^ 32) ∧
    (descend h n a ≠ none → r ≠ none ∧ m' = m) := by
  intro h
  induction h with
  | zero =>
    intro n a ft m r n' m' hwf ha hc he
    have hp : n.plen = 32 := hwf
    have hadd : n.addr = a := by simpa [covers] using hc.symm
    rw [arp_insert] at he
    simp only [hp, hadd, if_true, ne_eq, not_true_eq_false, if_false, Except.ok.injEq,
      Prod.mk.injEq] at he
    obtain ⟨rfl, _, rfl⟩ := he
    exact ⟨⟨0, le_refl _, rfl⟩, fun _ => ⟨by simp, rfl⟩⟩
  | succ h ih =>
    intro n a ft m r n' m' hwf ha hc he
    obtain ⟨hp, hch⟩ := hwf
    have h1 : n.plen ≠ 32 := by omega
    have h2 : (n.plen + 4) % 256 = 32 - 4 * h := by omega
    have h3 : 32 - (32 - 4 * h) = 4 * h := by omega
    rw [arp_insert] at he
    simp only [h1, if_false, h2, h3, idx_mod] at he
    cases hs : n.sub (idx (a >>> (4 * h))) with
    | some sn =>
      obtain ⟨hsa, hswf⟩ := hch _ _ hs
      have hcc := covers_child h n sn a hc hsa
      obtain ⟨r0, sn', m0, he0, _⟩ := arp_insert_spec h sn a ft m hswf ha hcc
      obtain ⟨⟨k, hk, hkn⟩, hsame⟩ := ih sn a ft m r0 sn' m0 hswf ha hcc he0
      simp only [hs, he0] at he
      have hm : m' = m0 ∧ (r = none ↔ r0 = none) := by
        cases r0 with
        | none =>
          simp only [Except.ok.injEq, Prod.mk.injEq] at he
          exact ⟨he.2.2.symm, by simp [← he.1]⟩
        | some rn =>
          simp only [Except.ok.injEq, Prod.mk.injEq] at he
          exact ⟨he.2.2.symm, by simp [← he.1]⟩
      obtain ⟨rfl, hr⟩ := hm
      refine ⟨⟨k, by omega, hkn⟩, ?_⟩
      intro hd
      simp only [descend, hs] at hd
      obtain ⟨q1, q2⟩ := hsame hd
      exact ⟨fun hn => q1 (hr.1 hn), q2⟩
    | none =>
      simp only [hs, arp_new] at he
      refine ⟨?_, fun hd => absurd (by simp only [descend, hs]) hd⟩
      rcases hcal : calloc m with ⟨b, m1⟩
      have hm1 : m1.narpn = m.narpn := by
        unfold calloc at hcal
        split at hcal
        · simp only [Prod.mk.injEq] at hcal; rw [← hcal.2]
        · simp only [Prod.mk.injEq] at hcal; rw [← hcal.2]
      rw [hcal] at he
      cases b with
      | false =>
        simp only [Except.ok.injEq, Prod.mk.injEq] at he
        exact ⟨0, Nat.zero_le _, by rw [← he.2.2, hm1]; rfl⟩
      | true =>
        simp only at he
        have hh : 4 * h ≤ 32 := by omega
        have hnwf := WF_new_node h a hh
        have hncov : covers h (new_node a (32 - 4 * h)) a := (new_node_addr a h ha hh).symm
        generalize hm2 : (if (new_node a (32 - 4 * h)).plen = 32 then
          ({ narpn := (m1.narpn + 1) % 2 ^ 32, nleaves := (m1.nleaves + 1) % 2 ^ 32, heap := m1.heap } : Mem)
          else { narpn := (m1.narpn + 1) % 2 ^ 32, nleaves := m1.nleaves, heap := m1.heap }) = m2 at he
        have hm2n : m2.narpn = (m.narpn + 1) % 2 ^ 32 := by
          rw [← hm2, ← hm1]; split <;> rfl
        obtain ⟨r0, sn', m0, he0, _⟩ := arp_insert_spec h _ a ft m2 hnwf ha hncov
        obtain ⟨⟨k, hk, hkn⟩, _⟩ := ih _ a ft m2 r0 sn' m0 hnwf ha hncov he0
        simp only [he0] at he
        have hm : m' = m0 := by
          cases r0 with
          | none => simp only [Except.ok.injEq, Prod.mk.injEq] at he; exact he.2.2.symm
          | some rn => simp only [Except.ok.injEq, Prod.mk.injEq] at he; exact he.2.2.symm
        subst hm
        refine ⟨k + 1, by omega, ?_⟩
        rw [hkn, hm2n]
        omega

/-- C8. Insert path: on every well-formed trie `arp_insert(root, a)` returns
(the assertion `n->addr == addr` does not fail); when it returns a node, that
node has `plen = 32` and `addr = a` and is the node `arp_lookup` reaches for
`a`, 8 child steps below the root; for every `k <= 8` the node after `k` steps
on the nibble path of `a` exists, has `plen = 4 * k` and `addr` equal to `a`
with the bits beyond `plen` cleared; `narpn` goes up by at most 8; and when
the leaf exists already the call succeeds and leaves the counters and the
allocator untouched. -/
theorem insert_path (s : State) (a ft : Nat) (hs : s.wf) (ha : a < 2 ^ 32) :
    ∃ r n' m', arp_insert 9 s.arp_root a ft s.mem = .ok (r, n', m') ∧
      (∀ rn, r = some rn →
        rn.plen = 32 ∧ rn.addr = a ∧ arp_lookup_node n' a = some rn ∧ walk 8 8 n' a = some rn ∧
        ∀ k, k ≤ 8 → ∃ nk, walk 8 k n' a = some nk ∧ nk.plen = 4 * k ∧
          nk.addr = a &&& (2 ^ 32 - (1 <<< (32 - 4 * k)))) ∧
      (∃ k, k ≤ 8 ∧ m'.narpn % 2 ^ 32 = (s.mem.narpn + k) % 2 ^ 32) ∧
      ((arp_lookup_node s.arp_root a).isSome = true → r.isSome = true ∧ m' = s.mem) := by
  obtain ⟨r, n', m', he, hwf, hadd, hcase⟩ := insert_root_spec s a ft hs ha
  obtain ⟨hcnt, hsame⟩ := insert_counts 8 s.arp_root a ft s.mem r n' m' hs.1 ha (wf_covers s a hs ha) he
  refine ⟨r, n', m', he, ?_, hcnt, ?_⟩
  · intro rn hr
    rcases hcase with ⟨hr', hn'⟩ | ⟨hr', _, _⟩
    swap
    · rw [hr'] at hr; exact absurd hr (by simp)
    rw [hr, Option.some.injEq] at hr'
    have hd : descend 8 n' a = some rn := by rw [hn', hr']; exact ins_descend_self 8 _ a ft
    have hcov : covers 8 n' a := wf_covers { arp_root := n', mem := m' } a (wf_mk _ _ hwf hadd) ha
    obtain ⟨q1, q2⟩ := descend_wf 8 n' a rn hwf hcov hd
    refine ⟨q1, q2, by rw [lookup_eq_descend]; exact hd, by rw [walk_full]; exact hd, ?_⟩
    intro k hk
    obtain ⟨nk, hnk⟩ := walk_exists 8 k n' a rn hd hk
    obtain ⟨p1, p2⟩ := walk_wf 8 k n' a nk hwf hcov hk hnk
    refine ⟨nk, hnk, by omega, ?_⟩
    rw [show 32 - 4 * k = 4 * (8 - k) by omega, land_mask a (4 * (8 - k)) ha (by omega)]
    exact p2.symm
  · intro hsome
    rw [lookup_eq_descend] at hsome
    have hne : descend 8 s.arp_root a ≠ none := by
      intro h; rw [h] at hsome; exact absurd hsome (by simp)
    obtain ⟨q1, q2⟩ := hsame hne
    exact ⟨Option.isSome_iff_ne_none.2 q1, q2⟩

/-- Witness for C8: inserting 10.0.0.5 into the empty trie. -/
theorem insert_path_witness :
    ∃ r n' m', arp_insert 9 (State.init []).arp_root 0x0a000005 1000000 (State.init []).mem =
        .ok (r, n', m') ∧
      (∀ rn, r = some rn →
        rn.plen = 32 ∧ rn.addr = 0x0a000005 ∧ arp_lookup_node n' 0x0a000005 = some rn ∧
        walk 8 8 n' 0x0a000005 = some rn ∧
        ∀ k, k ≤ 8 → ∃ nk, walk 8 k n' 0x0a000005 = some nk ∧ nk.plen = 4 * k ∧
          nk.addr = 0x0a000005 &&& (2 ^ 32 - (1 <<< (32 - 4 * k)))) ∧
      (∃ k, k ≤ 8 ∧ m'.narpn % 2 ^ 32 = ((State.init []).mem.narpn + k) % 2 ^ 32) ∧
      ((arp_lookup_node (State.init []).arp_root 0x0a000005).isSome = true →
        r.isSome = true ∧ m' = (State.init []).mem) :=
  insert_path (State.init []) 0x0a000005 1000000 (wf_init []) (by decide)

/-! ## The fence invariant over reachable states -/

theorem fmax_fold_attained (g : Fin 16 → Option arpn) : ∀ (l : List (Fin 16)) (f0 : Nat),
    l.foldl (fun f i => fmax f (g i)) f0 = f0 ∨
      ∃ i c, g i = some c ∧ c.last = l.foldl (fun f i => fmax f (g i)) f0 := by
  intro l
  induction l with
  | nil => intro f0; exact Or.inl rfl
  | cons j l ih =>
    intro f0
    rw [List.foldl_cons]
    rcases ih (fmax f0 (g j)) with h | h
    · rw [h]
      cases hg : g j with
      | none => left; rfl
      | some c =>
        simp only [fmax, arpn.newest]
        rcases le_total f0 c.last with hle | hle
        · right; exact ⟨j, c, hg, (max_eq_right hle).symm⟩
        · left; exact max_eq_left hle
    · exact Or.inr h

theorem fence_max_attained (n : arpn) :
    fence_max n = 0 ∨ ∃ i c, n.sub i = some c ∧ c.last = fence_max n :=
  fmax_fold_attained n.sub _ 0

theorem fence_max_eq (n : arpn) (M : Nat) (hub : ∀ i c, n.sub i = some c → c.last ≤ M)
    (hat : M = 0 ∨ ∃ i c, n.sub i = some c ∧ c.last = M) : fence_max n = M := by
  apply le_antisymm
  · rcases fence_max_attained n with h | ⟨i, c, hc, hl⟩
    · rw [h]; exact Nat.zero_le _
    · rw [← hl]; exact hub i c hc
  · rcases hat with h | ⟨i, c, hc, hl⟩
    · rw [h]; exact Nat.zero_le _
    · rw [← hl]; exact le_fence_max n c i hc

theorem fmin_fold_ge (g : Fin 16 → Option arpn) (x : Nat) (hx : ∀ i c, g i = some c → x ≤ c.last) :
    ∀ (l : List (Fin 16)) (f0 : Nat), x ≤ f0 → x ≤ l.foldl (fun f i => fmin f (g i)) f0 := by
  intro l
  induction l with
  | nil => intro f0 h; exact h
  | cons j l ih =>
    intro f0 h
    rw [List.foldl_cons]
    apply ih
    cases hg : g j with
    | none => exact h
    | some c => exact le_min h (hx j c hg)

theorem le_fence_min (n : arpn) (x : Nat) (hx : ∀ i c, n.sub i = some c → x ≤ c.last)
    (hn : x ≤ ARP_NEVER) : x ≤ fence_min n :=
  fmin_fold_ge n.sub x hx _ _ hn

theorem fence_congr (n n' : arpn)
    (h : ∀ i, (n'.sub i).map arpn.last = (n.sub i).map arpn.last) :
    fence_max n' = fence_max n ∧ fence_min n' = fence_min n := by
  have key : ∀ (k : Nat → Option arpn → Nat),
      (∀ f (o o' : Option arpn), o'.map arpn.last = o.map arpn.last → k f o' = k f o) →
      ∀ f0, (List.finRange 16).foldl (fun f i => k f (n'.sub i)) f0 =
        (List.finRange 16).foldl (fun f i => k f (n.sub i)) f0 := by
    intro k hk f0
    apply List.foldl_ext
    intro f i _
    exact hk f _ _ (h i)
  constructor
  · apply key fmax
    intro f o o' ho
    cases o <;> cases o' <;> simp_all [fmax]
  · apply key fmin
    intro f o o' ho
    cases o <;> cases o' <;> simp_all [fmin]

theorem Inv_mono : ∀ (h : Nat) (n : arpn) (t t' : Nat), t ≤ t' → Inv t h n → Inv t' h n := by
  intro h
  induction h with
  | zero => intro n t t' ht hi; exact le_trans hi ht
  | succ h ih =>
    intro n t t' ht hi
    exact ⟨hi.1, fun i c hc => ih c t t' ht (hi.2 i c hc)⟩

theorem Inv_new_node (h a p t : Nat) : Inv t h (new_node a p) := by
  cases h with
  | zero => exact Nat.zero_le _
  | succ h =>
    have hemp : ∀ i, (new_node a p).sub i = none := fun _ => rfl
    refine ⟨⟨?_, ?_, fun _ => ⟨rfl, rfl⟩⟩, fun i c hc => ?_⟩
    · rw [fence_max_empty _ hemp]; rfl
    · rw [fence_min_empty _ hemp]; exact le_refl _
    · rw [hemp i] at hc; exact absurd hc (by simp)

theorem ins_tree_last_mono (h : Nat) (n : arpn) (a ft : Nat) : n.last ≤ (ins_tree h n a ft).last := by
  cases h with
  | zero => simp only [ins_tree, touch_last]; exact le_max_left _ _
  | succ h => simp only [ins_tree, bump_last, set_sub_last]; exact le_max_left _ _

theorem Inv_last_le : ∀ (h : Nat) (n : arpn) (t : Nat), Inv t h n → n.last ≤ t := by
  intro h
  induction h with
  | zero => intro n t hi; exact hi
  | succ h ih =>
    intro n t hi
    have h1 : n.last = fence_max n := hi.1.1
    rw [h1]
    rcases fence_max_attained n with h0 | ⟨i, c, hc, hl⟩
    · rw [h0]; exact Nat.zero_le _
    · rw [← hl]; exact ih c t (hi.2 i c hc)

theorem ins_Inv : ∀ (h : Nat) (n : arpn) (a ft t : Nat), t ≤ ft → Inv t h n →
    Inv ft h (ins_tree h n a ft) := by
  intro h
  induction h with
  | zero =>
    intro n a ft t ht hi
    have : n.last ≤ t := hi
    show (touch n ft).last ≤ ft
    rw [touch_last]
    exact max_le (le_trans this ht) (le_refl _)
  | succ h ih =>
    intro n a ft t ht hi
    obtain ⟨⟨hmax, hmin, _⟩, hkids⟩ := hi
    rw [ins_tree]
    generalize hc0 : (match n.sub (idx (a >>> (4 * h))) with
      | some c => c
      | none => new_node a (32 - 4 * h)) = c0
    have hc0inv : Inv t h c0 := by
      cases hs : n.sub (idx (a >>> (4 * h))) with
      | none => rw [hs] at hc0; rw [← hc0]; exact Inv_new_node _ _ _ _
      | some c => rw [hs] at hc0; rw [← hc0]; exact hkids _ c hs
    have hc0sub : ∀ c, n.sub (idx (a >>> (4 * h))) = some c → c = c0 := by
      intro c hs; rw [hs] at hc0; exact hc0
    have hc' := ih c0 a ft t ht hc0inv
    have hmono := ins_tree_last_mono h c0 a ft
    generalize ins_tree h c0 a ft = c' at hc' hmono
    have hsub : ∀ j, (bump (n.set_sub (idx (a >>> (4 * h))) (some c')) c').sub j =
        if j = idx (a >>> (4 * h)) then some c' else n.sub j := by
      intro j
      rw [bump_sub, set_sub_sub]
      by_cases hj : j = idx (a >>> (4 * h))
      · rw [if_pos hj, hj, Function.update_same]
      · rw [if_neg hj, Function.update_noteq hj]
    have hmax' : n.last = fence_max n := hmax
    have hmin' : n.first ≤ fence_min n := hmin
    have hlastb : (bump (n.set_sub (idx (a >>> (4 * h))) (some c')) c').newest =
        max n.last c'.last := by rw [arpn.newest, bump_last, set_sub_last]
    refine ⟨⟨?_, ?_, ?_⟩, ?_⟩
    · -- newest is the maximum
      symm
      apply fence_max_eq
      · intro j c hjc
        rw [hsub] at hjc
        rw [hlastb]
        split at hjc
        · rw [Option.some.injEq] at hjc; rw [← hjc]; exact le_max_right _ _
        · exact le_trans (le_fence_max n c j hjc) (by rw [← hmax']; exact le_max_left _ _)
      · rw [hlastb]
        rcases le_total n.last c'.last with hle | hle
        · right
          exact ⟨idx (a >>> (4 * h)), c', by rw [hsub, if_pos rfl], (max_eq_right hle).symm⟩
        · rw [max_eq_left hle]
          rcases fence_max_attained n with h0 | ⟨j, c, hjc, hl⟩
          · left; rw [hmax', h0]
          · right
            by_cases hj : j = idx (a >>> (4 * h))
            · subst hj
              have hcc := hc0sub c hjc
              subst hcc
              have : c'.last = n.last := by
                apply le_antisymm hle
                rw [hmax', ← hl]; exact hmono
              exact ⟨_, c', by rw [hsub, if_pos rfl], this⟩
            · exact ⟨j, c, by rw [hsub, if_neg hj]; exact hjc, by rw [hl]; exact hmax'.symm⟩
    · -- oldest is a lower bound
      have hfirst : (bump (n.set_sub (idx (a >>> (4 * h))) (some c')) c').oldest =
          min n.first c'.last := by rw [arpn.oldest, bump_first, set_sub_first]
      rw [hfirst]
      apply le_fence_min
      · intro j c hjc
        rw [hsub] at hjc
        split at hjc
        · rw [Option.some.injEq] at hjc; rw [← hjc]; exact min_le_right _ _
        · exact le_trans (min_le_left _ _) (le_trans hmin' (fence_min_le n c j hjc))
      · exact le_trans (min_le_left _ _) (le_trans hmin' (fence_min_le_never n))
    · intro hall
      have := hall (idx (a >>> (4 * h)))
      rw [hsub, if_pos rfl] at this
      exact absurd this (by simp)
    · intro j c hjc
      rw [hsub] at hjc
      split at hjc
      · rw [Option.some.injEq] at hjc; rw [← hjc]; exact hc'
      · exact Inv_mono h c t ft ht (hkids j c hjc)

theorem lw_Inv : ∀ (h : Nat) (n : arpn) (a : Nat) (l : arpn) (t : Nat), Inv t h n →
    (∀ x, descend h n a = some x → l.last = x.last) → Inv t h (leaf_write h n a l) := by
  intro h
  induction h with
  | zero =>
    intro n a l t hi hx
    show l.last ≤ t
    rw [hx n rfl]; exact hi
  | succ h ih =>
    intro n a l t hi hx
    rw [leaf_write]
    cases hs : n.sub (idx (a >>> (4 * h))) with
    | none => exact hi
    | some c =>
      simp only
      have hx' : ∀ x, descend h c a = some x → l.last = x.last := by
        intro x hd; apply hx; simp only [descend, hs, hd]
      have hlast : (leaf_write h c a l).last = c.last := by
        cases h with
        | zero => exact hx' c rfl
        | succ h => exact lw_last h c a l
      have hsub : ∀ j, (n.set_sub (idx (a >>> (4 * h))) (some (leaf_write h c a l))).sub j =
          if j = idx (a >>> (4 * h)) then some (leaf_write h c a l) else n.sub j := by
        intro j
        rw [set_sub_sub]
        by_cases hj : j = idx (a >>> (4 * h))
        · rw [if_pos hj, hj, Function.update_same]
        · rw [if_neg hj, Function.update_noteq hj]
      obtain ⟨hfmax, hfmin⟩ := fence_congr n
        (n.set_sub (idx (a >>> (4 * h))) (some (leaf_write h c a l))) (by
          intro j
          rw [hsub]
          split
          · next hj => rw [hj, hs]; simp [hlast]
          · rfl)
      obtain ⟨⟨hmax, hmin, hemp⟩, hkids⟩ := hi
      refine ⟨⟨?_, ?_, ?_⟩, ?_⟩
      · rw [hfmax]; exact hmax
      · rw [hfmin]; exact hmin
      · intro hall
        have := hall (idx (a >>> (4 * h)))
        rw [hsub, if_pos rfl] at this
        exact absurd this (by simp)
      · intro j d hjd
        rw [hsub] at hjd
        split at hjd
        · rw [Option.some.injEq] at hjd; rw [← hjd]; exact ih c a l t (hkids _ c hs) hx'
        · exact hkids j d hjd

theorem exp_Inv : ∀ (h : Nat) (n : arpn) (cutoff t : Nat), Inv t h n →
    Inv t h (exp_tree h n cutoff) := by
  intro h
  induction h with
  | zero => intro n cutoff t hi; exact hi
  | succ h ih =>
    intro n cutoff t hi
    refine ⟨⟨exp_tree_last h n cutoff, le_of_eq (exp_tree_first h n cutoff), ?_⟩, ?_⟩
    · intro hall
      exact ⟨by rw [arpn.oldest, exp_tree_first, fence_min_empty _ hall],
        by rw [arpn.newest, exp_tree_last, fence_max_empty _ hall]⟩
    · intro i c' hic
      rw [exp_tree_sub] at hic
      obtain ⟨c, hc, hc', _⟩ := exp_kid_some _ _ _ _ hic
      rw [hc']
      split
      · exact ih c cutoff t (hi.2 i c hc)
      · exact hi.2 i c hc

/-- The invariant makes every inner node satisfy `fence_ok`. -/
theorem Inv_all_inner : ∀ (h : Nat) (n : arpn) (t : Nat), Inv t h n → all_inner fence_ok h n := by
  intro h
  induction h with
  | zero => intro n t _; trivial
  | succ h ih => intro n t hi; exact ⟨hi.1, fun i c hc => ih c t (hi.2 i c hc)⟩

theorem calloc_nil (m : Mem) (h : m.heap = []) : calloc m = (true, m) := by
  unfold calloc; rw [h]

/-- When `calloc` does not fail, `arp_insert` does not return `NULL`. -/
theorem insert_nofail : ∀ (fuel : Nat) (n : arpn) (a ft : Nat) (m : Mem) (r : Option arpn)
    (n' : arpn) (m' : Mem), m.heap = [] → arp_insert fuel n a ft m = .ok (r, n', m') →
    r ≠ none ∧ m'.heap = [] := by
  intro fuel
  induction fuel with
  | zero => intro n a ft m r n' m' _ he; simp [arp_insert] at he
  | succ fuel ih =>
    intro n a ft m r n' m' hm he
    rw [arp_insert] at he
    by_cases hp : n.plen = 32
    · rw [if_pos hp] at he
      by_cases hadd : n.addr ≠ a
      · rw [if_pos hadd] at he; exact absurd he (by simp)
      · rw [if_neg hadd] at he
        simp only [Except.ok.injEq, Prod.mk.injEq] at he
        exact ⟨by rw [← he.1]; simp, by rw [← he.2.2]; exact hm⟩
    · rw [if_neg hp] at he
      simp only at he
      generalize idx ((a >>> (32 - (n.plen + 4) % 256)) % 16) = i at he
      generalize (n.plen + 4) % 256 = splen at he
      have hrec : ∀ (sn n1 : arpn) (m1 : Mem), m1.heap = [] →
          (match arp_insert fuel sn a ft m1 with
            | .error e => .error e
            | .ok (none, sn, m) => .ok (none, n1.set_sub i (some sn), m)
            | .ok (some rn, sn, m) => .ok (some rn, bump (n1.set_sub i (some sn)) sn, m)) =
            Except.ok (r, n', m') → r ≠ none ∧ m'.heap = [] := by
        intro sn n1 m1 hm1 he1
        cases hins : arp_insert fuel sn a ft m1 with
        | error e => rw [hins] at he1; exact absurd he1 (by simp)
        | ok x =>
          obtain ⟨r0, sn', m0⟩ := x
          obtain ⟨q1, q2⟩ := ih sn a ft m1 r0 sn' m0 hm1 hins
          rw [hins] at he1
          cases r0 with
          | none => exact absurd rfl q1
          | some rn =>
            simp only [Except.ok.injEq, Prod.mk.injEq] at he1
            exact ⟨by rw [← he1.1]; simp, by rw [← he1.2.2]; exact q2⟩
      cases hs : n.sub i with
      | some sn =>
        rw [hs] at he
        exact hrec sn n m hm he
      | none =>
        rw [hs] at he
        simp only [arp_new, calloc_nil m hm] at he
        refine hrec _ _ _ ?_ he
        split <;> exact hm

theorem insert_inv (s : State) (a t : Nat) (r : Option arpn) (n' : arpn) (m' : Mem)
    (hs : s.wf) (hi : Inv t 8 s.arp_root) (hm : s.mem.heap = []) (ha : a < 2 ^ 32)
    (he : arp_insert 9 s.arp_root a t s.mem = .ok (r, n', m')) :
    WF 8 n' ∧ n'.addr = 0 ∧ Inv t 8 n' ∧ m'.heap = [] ∧ n' = ins_tree 8 s.arp_root a t ∧
      r = some (touch (old_leaf 8 s.arp_root a) t) := by
  obtain ⟨r1, n1, m1, he1, hwf, hadd, hcase⟩ := insert_root_spec s a t hs ha
  rw [he1, Except.ok.injEq, Prod.mk.injEq, Prod.mk.injEq] at he
  obtain ⟨rfl, rfl, rfl⟩ := he
  obtain ⟨q1, q2⟩ := insert_nofail 9 s.arp_root a t s.mem r1 n1 m1 hm he1
  rcases hcase with ⟨hr, hn⟩ | ⟨hr, _, _⟩
  · refine ⟨hwf, hadd, ?_, q2, hn, hr⟩
    rw [hn]; exact ins_Inv 8 _ a t t (le_refl _) hi
  · exact absurd hr q1

theorem Inv_descend_last : ∀ (h : Nat) (n : arpn) (a t : Nat) (x : arpn), Inv t h n →
    descend h n a = some x → x.last ≤ t := by
  intro h
  induction h with
  | zero =>
    intro n a t x hi hd
    simp only [descend, Option.some.injEq] at hd
    rw [← hd]; exact hi
  | succ h ih =>
    intro n a t x hi hd
    simp only [descend] at hd
    cases hs : n.sub (idx (a >>> (4 * h))) with
    | none => simp [hs] at hd
    | some c => simp only [hs] at hd; exact ih c a t x (hi.2 _ c hs) hd

theorem old_leaf_last_le (n : arpn) (a t : Nat) (hi : Inv t 8 n) : (old_leaf 8 n a).last ≤ t := by
  cases hd : descend 8 n a with
  | none => rw [old_leaf_none 8 _ _ hd]; exact Nat.zero_le _
  | some x => rw [old_leaf_some 8 _ _ x hd]; exact Inv_descend_last 8 n a t x hi hd

/-- An insertion at clock `t` followed by a write through the returned pointer
that leaves `last` at `t` keeps the invariant. -/
theorem ins_write_inv (s : State) (a t : Nat) (l : arpn) (hs : s.wf) (hi : Inv t 8 s.arp_root)
    (ha : a < 2 ^ 32) (hl1 : l.plen = 32) (hl2 : l.addr = a)
    (hl3 : l.last = (touch (old_leaf 8 s.arp_root a) t).last) (m : Mem) :
    State.wf { arp_root := leaf_write 8 (ins_tree 8 s.arp_root a t) a l, mem := m } ∧
    Inv t 8 (leaf_write 8 (ins_tree 8 s.arp_root a t) a l) := by
  obtain ⟨h1, h2, _⟩ := ins_write s a t l hs ha hl1 hl2
  refine ⟨wf_mk _ _ h1 h2, ?_⟩
  apply lw_Inv 8 _ a l t (ins_Inv 8 _ a t t (le_refl _) hi)
  intro x hx
  rw [ins_descend_self, Option.some.injEq] at hx
  rw [← hx]; exact hl3

theorem register_inv (s : State) (a t : Nat) (e : ether_addr) (r : Int) (s' : State)
    (hs : s.wf) (hi : Inv t 8 s.arp_root) (hm : s.mem.heap = []) (ha : a < 2 ^ 32)
    (he : arp_register s t a e = .ok (r, s')) :
    s'.wf ∧ Inv t 8 s'.arp_root ∧ s'.mem.heap = [] := by
  unfold arp_register at he
  cases hins : arp_insert 9 s.arp_root a t s.mem with
  | error x => rw [hins] at he; exact absurd he (by simp)
  | ok x =>
    obtain ⟨r0, n0, m0⟩ := x
    obtain ⟨_, _, _, q4, q5, q6⟩ := insert_inv s a t r0 n0 m0 hs hi hm ha hins
    rw [hins, q6] at he
    simp only [register_leaf_eq, Except.ok.injEq, Prod.mk.injEq] at he
    obtain ⟨_, hs'⟩ := he
    rw [← hs', q5]
    obtain ⟨w1, w2⟩ := ins_write_inv s a t
      { touch (old_leaf 8 s.arp_root a) t with ether := e, nreq := 0 } hs hi ha
      (rn_wf s a t hs ha).1 (rn_wf s a t hs ha).2 rfl m0
    refine ⟨w1, ?_, ?_⟩
    · dsimp only; exact w2
    · dsimp only; exact q4

theorem run_expiry_inv (s s' : State) (t ft : Nat) (hs : s.wf) (hi : Inv t 8 s.arp_root)
    (he : run_expiry s ft = .ok s') : s'.wf ∧ Inv t 8 s'.arp_root := by
  obtain ⟨s1, he1, hwf, hcase⟩ := run_expiry_spec s ft hs
  rw [he1, Except.ok.injEq] at he
  subst he
  refine ⟨hwf, ?_⟩
  rcases hcase with h | h
  · rw [h]; exact hi
  · rw [h]; exact exp_Inv 8 _ _ t hi

theorem expire_inv (n n' : arpn) (m m' : Mem) (t cutoff : Nat) (hwf : WF 8 n) (hadd : n.addr = 0)
    (hi : Inv t 8 n) (he : arp_expire 8 n cutoff m = .ok (n', m')) :
    WF 8 n' ∧ n'.addr = 0 ∧ Inv t 8 n' := by
  obtain ⟨m1, he1⟩ := arp_expire_refines 7 n cutoff m hwf
  rw [he1, Except.ok.injEq, Prod.mk.injEq] at he
  obtain ⟨rfl, _⟩ := he
  exact ⟨exp_WF 8 n cutoff hwf, by rw [exp_tree_addr]; exact hadd, exp_Inv 8 n cutoff t hi⟩

theorem analyze_who_has_inv (s : State) (t : Nat) (dst_set : Option (Nat → Bool))
    (iface : ether_addr) (reply_ok : Bool) (ap : arp_pkt) (r : Option Int) (s' : State)
    (out : List arp_pkt) (hs : s.wf) (hi : Inv t 8 s.arp_root) (hm : s.mem.heap = [])
    (hspa : ap.spa < 2 ^ 32) (htpa : ap.tpa < 2 ^ 32)
    (he : analyze_who_has s t dst_set iface reply_ok ap = .ok (r, s', out)) :
    s'.wf ∧ Inv t 8 s'.arp_root := by
  unfold analyze_who_has at he
  by_cases hb : out_of_bounds dst_set ap.tpa = true
  · rw [if_pos hb] at he
    simp only [Except.ok.injEq, Prod.mk.injEq] at he
    rw [← he.2.1]; exact ⟨hs, hi⟩
  · rw [if_neg hb] at he
    cases hreg : arp_register s t ap.spa ap.sha with
    | error x => rw [hreg] at he; exact absurd he (by simp)
    | ok x =>
      obtain ⟨r1, s1⟩ := x
      obtain ⟨hs1, hi1, hm1⟩ := register_inv s ap.spa t ap.sha r1 s1 hs hi hm hspa hreg
      rw [hreg] at he
      simp only at he
      cases hins : arp_insert 9 s1.arp_root ap.tpa t s1.mem with
      | error x => rw [hins] at he; exact absurd he (by simp)
      | ok x =>
        obtain ⟨r0, n0, m0⟩ := x
        obtain ⟨_, _, _, _, q5, q6⟩ := insert_inv s1 ap.tpa t r0 n0 m0 hs1 hi1 hm1 htpa hins
        rw [hins, q6] at he
        simp only at he
        have hrn := rn_wf s1 ap.tpa t hs1 htpa
        have hfr := analyze_target_frame (touch (old_leaf 8 s1.arp_root ap.tpa) t) t iface ap
        have hlast : (analyze_target (touch (old_leaf 8 s1.arp_root ap.tpa) t) t iface ap).1.last =
            (touch (old_leaf 8 s1.arp_root ap.tpa) t).last := by
          rcases analyze_target_last (touch (old_leaf 8 s1.arp_root ap.tpa) t) t iface ap with h | h
          · exact h
          · rw [h, touch_last]
            exact (max_eq_right (old_leaf_last_le s1.arp_root ap.tpa t hi1)).symm
        obtain ⟨w1, w2⟩ := ins_write_inv s1 ap.tpa t
          (analyze_target (touch (old_leaf 8 s1.arp_root ap.tpa) t) t iface ap).1 hs1 hi1 htpa
          (by rw [hfr.1, hrn.1]) (by rw [hfr.2.1, hrn.2]) hlast m0
        rw [q5] at he
        rcases hat : analyze_target (touch (old_leaf 8 s1.arp_root ap.tpa) t) t iface ap with ⟨an, rep⟩
        rw [hat] at he w1 w2
        cases rep with
        | none =>
          simp only [Except.ok.injEq, Prod.mk.injEq] at he
          rw [← he.2.1]
          refine ⟨w1, ?_⟩
          dsimp only; exact w2
        | some rp =>
          simp only [Except.ok.injEq, Prod.mk.injEq] at he
          rw [← he.2.1]
          refine ⟨w1, ?_⟩
          dsimp only; exact w2

theorem analyze_is_at_inv (s : State) (t : Nat) (ap : arp_pkt) (s' : State)
    (hs : s.wf) (hi : Inv t 8 s.arp_root) (hm : s.mem.heap = [])
    (hspa : ap.spa < 2 ^ 32) (htpa : ap.tpa < 2 ^ 32)
    (he : analyze_is_at s t ap = .ok s') : s'.wf ∧ Inv t 8 s'.arp_root := by
  unfold analyze_is_at at he
  cases hreg : arp_register s t ap.spa ap.sha with
  | error x => rw [hreg] at he; exact absurd he (by simp)
  | ok x =>
    obtain ⟨r1, s1⟩ := x
    obtain ⟨hs1, hi1, hm1⟩ := register_inv s ap.spa t ap.sha r1 s1 hs hi hm hspa hreg
    rw [hreg] at he
    simp only at he
    cases hreg2 : arp_register s1 t ap.tpa ap.tha with
    | error x => rw [hreg2] at he; exact absurd he (by simp)
    | ok x =>
      obtain ⟨r2, s2⟩ := x
      obtain ⟨hs2, hi2, _⟩ := register_inv s1 ap.tpa t ap.tha r2 s2 hs1 hi1 hm1 htpa hreg2
      rw [hreg2] at he
      simp only [Except.ok.injEq] at he
      rw [← he]; exact ⟨hs2, hi2⟩

theorem packet_inv (s : State) (t : Nat) (dst_set : Option (Nat → Bool))
    (iface : ether_addr) (reply_ok : Bool) (ap : arp_pkt) (len : Nat) (r : Int) (s' : State)
    (out : List arp_pkt) (hs : s.wf) (hi : Inv t 8 s.arp_root) (hm : s.mem.heap = [])
    (hspa : ap.spa < 2 ^ 32) (htpa : ap.tpa < 2 ^ 32)
    (he : packet_analyze_arp s t dst_set iface reply_ok ap len = .ok (r, s', out)) :
    s'.wf ∧ Inv t 8 s'.arp_root := by
  unfold packet_analyze_arp at he
  split_ifs at he with h1 h2 h3 h4
  · simp only [Except.ok.injEq, Prod.mk.injEq] at he; rw [← he.2.1]; exact ⟨hs, hi⟩
  · simp only [Except.ok.injEq, Prod.mk.injEq] at he; rw [← he.2.1]; exact ⟨hs, hi⟩
  · cases haw : analyze_who_has s t dst_set iface reply_ok ap with
    | error x => rw [haw] at he; exact absurd he (by simp)
    | ok x =>
      obtain ⟨r0, s2, o2⟩ := x
      obtain ⟨hs2, hi2⟩ := analyze_who_has_inv s t dst_set iface reply_ok ap r0 s2 o2 hs hi hm
        hspa htpa haw
      rw [haw] at he
      cases r0 with
      | some r1 =>
        simp only [Except.ok.injEq, Prod.mk.injEq] at he
        rw [← he.2.1]; exact ⟨hs2, hi2⟩
      | none =>
        simp only at he
        cases hexp : run_expiry s2 t with
        | error x => rw [hexp] at he; exact absurd he (by simp)
        | ok s3 =>
          rw [hexp] at he
          simp only [Except.ok.injEq, Prod.mk.injEq] at he
          rw [← he.2.1]
          exact run_expiry_inv s2 s3 t t hs2 hi2 hexp
  · cases hia : analyze_is_at s t ap with
    | error x => rw [hia] at he; exact absurd he (by simp)
    | ok s2 =>
      obtain ⟨hs2, hi2⟩ := analyze_is_at_inv s t ap s2 hs hi hm hspa htpa hia
      rw [hia] at he
      simp only at he
      cases hexp : run_expiry s2 t with
      | error x => rw [hexp] at he; exact absurd he (by simp)
      | ok s3 =>
        rw [hexp] at he
        simp only [Except.ok.injEq, Prod.mk.injEq] at he
        rw [← he.2.1]
        exact run_expiry_inv s2 s3 t t hs2 hi2 hexp
  · simp only [Except.ok.injEq, Prod.mk.injEq] at he; rw [← he.2.1]; exact ⟨hs, hi⟩

theorem Inv_init (t : Nat) : Inv t 8 arp_root0 := by
  have hemp : ∀ i, arp_root0.sub i = none := fun _ => rfl
  refine ⟨⟨?_, ?_, fun _ => ⟨rfl, rfl⟩⟩, fun i c hc => ?_⟩
  · rw [fence_max_empty _ hemp]; rfl
  · rw [fence_min_empty _ hemp]; exact le_refl _
  · rw [hemp i] at hc; exact absurd hc (by simp)

/-- Every reachable tree is well formed and satisfies the fence invariant. -/
theorem Reach_inv (n : arpn) (t : Nat) (h : Reach n t) : WF 8 n ∧ n.addr = 0 ∧ Inv t 8 n := by
  induction h with
  | init => exact ⟨(wf_init []).1, rfl, Inv_init 0⟩
  | tick _ ht ih => exact ⟨ih.1, ih.2.1, Inv_mono 8 _ _ _ ht ih.2.2⟩
  | @insert n t a m r n' m' _ ha hm he ih =>
    obtain ⟨q1, q2, q3, _⟩ := insert_inv { arp_root := n, mem := m } a t r n' m'
      (wf_mk _ _ ih.1 ih.2.1) ih.2.2 hm ha he
    exact ⟨q1, q2, q3⟩
  | @register n t a e m r s' _ ha hm he ih =>
    obtain ⟨q1, q2, _⟩ := register_inv { arp_root := n, mem := m } a t e r s'
      (wf_mk _ _ ih.1 ih.2.1) ih.2.2 hm ha he
    exact ⟨q1.1, q1.2, q2⟩
  | @packet n t m dst_set iface reply_ok ap len r s' out _ hm hspa htpa he ih =>
    obtain ⟨q1, q2⟩ := packet_inv { arp_root := n, mem := m } t dst_set iface reply_ok ap len r s'
      out (wf_mk _ _ ih.1 ih.2.1) ih.2.2 hm hspa htpa he
    exact ⟨q1.1, q1.2, q2⟩
  | @expire n t cutoff m n' m' _ he ih =>
    exact expire_inv n n' m m' t cutoff ih.1 ih.2.1 ih.2.2 he
  | @periodic n t tv_sec m s' _ he ih =>
    unfold arp_periodic at he
    simp only at he
    cases hexp : arp_expire 8 n (sub64 (tv_sec * 1000 % 2 ^ 64) ARP_EXPIRE) m with
    | error x => rw [hexp] at he; exact absurd he (by simp)
    | ok x =>
      obtain ⟨n', m'⟩ := x
      rw [hexp] at he
      simp only [Except.ok.injEq] at he
      rw [← he]
      exact expire_inv n n' m m' t _ ih.1 ih.2.1 ih.2.2 hexp

theorem ex_once_reach : Reach ex_once.arp_root 1000000 :=
  @Reach.register arp_root0 1000000 0x0a000005 ⟨2, 0, 0, 0, 0, 5⟩ (State.init []).mem 0 ex_once
    (@Reach.tick arp_root0 0 1000000 Reach.init (by decide)) (by decide) rfl rfl

theorem ex_twice_reach : Reach ex_twice.arp_root 1200000 :=
  @Reach.register ex_once.arp_root 1200000 0x0a000005 ⟨2, 0, 0, 0, 0, 5⟩ ex_once.mem 0 ex_twice
    (@Reach.tick ex_once.arp_root 1000000 1200000 ex_once_reach (by decide)) (by decide) rfl rfl

/-- C6, as stated, fails: after 10.0.0.5 has registered at 1000000 ms and again
at 1200000 ms (a reachable state) the root still has `oldest = 1000000` while
the minimum of `newest` over its children is 1200000: the fence is stale. -/
theorem fence_counterexample :
    Reach ex_twice.arp_root 1200000 ∧ ex_twice.arp_root.oldest = 1000000 ∧
    fence_min ex_twice.arp_root = 1200000 ∧ ¬ all_inner fence_exact 8 ex_twice.arp_root :=
  ⟨ex_twice_reach, by decide, by decide, fun h => absurd h.1.1 (by decide)⟩

/-- C6, amended. In every state reachable from the empty trie through
`arp_insert`, `arp_register`, packet processing, `arp_expire` and
`arp_periodic`, with a clock that does not run backwards and allocations that
succeed, every inner node has `newest` equal to the maximum of `newest` over
its present children, `oldest` at most the minimum of their `newest`, and
`oldest = ARP_NEVER`, `newest = 0` when it has no children. -/
theorem fence_invariant (n : arpn) (t : Nat) (h : Reach n t) : all_inner fence_ok 8 n :=
  Inv_all_inner 8 n t (Reach_inv n t h).2.2

/-- Witness for the amended C6: the state after two registrations of 10.0.0.5. -/
theorem fence_invariant_witness : all_inner fence_ok 8 ex_twice.arp_root :=
  fence_invariant ex_twice.arp_root 1200000 ex_twice_reach

/-! ## Lookup as a read -/

theorem lookup_call_none (s : State) (a : Nat) (e0 : ether_addr)
    (h : arp_lookup_node s.arp_root a = none) : arp_lookup_call s a e0 = (-1, e0, s) := by
  unfold arp_lookup_call
  rw [h]

theorem lookup_call_some (s : State) (a : Nat) (e0 : ether_addr) (l : arpn)
    (h : arp_lookup_node s.arp_root a = some l) : arp_lookup_call s a e0 = (0, l.ether, s) := by
  unfold arp_lookup_call
  rw [h]

theorem lookup_none_iff_walk (root : arpn) (a : Nat) :
    arp_lookup_node root a = none ↔ ∃ k, k ≤ 8 ∧ walk 8 k root a = none := by
  rw [lookup_eq_descend]
  constructor
  · intro h
    exact ⟨8, le_refl 8, by rw [walk_full]; exact h⟩
  · rintro ⟨k, hk, hw⟩
    cases hd : descend 8 root a with
    | none => rfl
    | some x =>
      obtain ⟨y, hy⟩ := walk_exists 8 k root a x hd hk
      rw [hw] at hy
      exact absurd hy (by simp)

/-- C11. `arp_lookup` is a read: the state after the call is the state before
it (tree, fences, leaf fields, counters and allocator alike), so no node is
created.  It returns -1 exactly when some node on the 8-nibble path of `a` is
absent, and then leaves `*ether` alone; otherwise it returns 0 and `*ether`
holds the `ether` field of the node at the end of the path.  In a well-formed
trie that node is the leaf of `a`, and the return value is -1 exactly when no
leaf of the trie has address `a`. -/
theorem lookup_pure_read (s : State) (a : Nat) (e0 : ether_addr) :
    (arp_lookup_call s a e0).2.2 = s ∧
    ((arp_lookup_call s a e0).1 = -1 ∨ (arp_lookup_call s a e0).1 = 0) ∧
    ((arp_lookup_call s a e0).1 = -1 ↔ ∃ k, k ≤ 8 ∧ walk 8 k s.arp_root a = none) ∧
    ((arp_lookup_call s a e0).1 = -1 → (arp_lookup_call s a e0).2.1 = e0 ∧ arp_lookup s a = none) ∧
    ((arp_lookup_call s a e0).1 = 0 → ∃ l, walk 8 8 s.arp_root a = some l ∧
      (arp_lookup_call s a e0).2.1 = l.ether ∧ arp_lookup s a = some l.ether ∧
      (s.wf → a < 2 ^ 32 → l.plen = 32 ∧ l.addr = a)) ∧
    (s.wf → a < 2 ^ 32 →
      ((arp_lookup_call s a e0).1 = -1 ↔
        ∀ b l, b < 2 ^ 32 → walk 8 8 s.arp_root b = some l → l.addr ≠ a)) := by
  have ne10 : ¬ ((-1 : Int) = 0) := by decide
  have ne01 : ¬ ((0 : Int) = -1) := by decide
  cases hl : arp_lookup_node s.arp_root a with
  | none =>
    have hw := (lookup_none_iff_walk s.arp_root a).1 hl
    rw [lookup_call_none s a e0 hl]
    refine ⟨rfl, Or.inl rfl, ⟨fun _ => hw, fun _ => rfl⟩, fun _ => ⟨rfl, ?_⟩,
      fun h => absurd h ne10, fun hs ha => ⟨fun _ b l hb hd hla => ?_, fun _ => rfl⟩⟩
    · unfold arp_lookup
      rw [hl]
    · rw [walk_full] at hd
      have hba := (descend_wf 8 s.arp_root b l hs.1 (wf_covers s b hs hb) hd).2
      rw [hla] at hba
      rw [lookup_eq_descend, hba, hd] at hl
      exact absurd hl (by simp)
  | some l =>
    have hd : descend 8 s.arp_root a = some l := by rw [← lookup_eq_descend]; exact hl
    have hnw : ¬ ∃ k, k ≤ 8 ∧ walk 8 k s.arp_root a = none := by
      intro h
      rw [← lookup_none_iff_walk, hl] at h
      exact absurd h (by simp)
    rw [lookup_call_some s a e0 l hl]
    refine ⟨rfl, Or.inr rfl, ⟨fun h => absurd h ne01, fun h => absurd h hnw⟩,
      fun h => absurd h ne01, fun _ => ⟨l, ?_, rfl, ?_, fun hs ha => ?_⟩,
      fun hs ha => ⟨fun h => absurd h ne01, fun h => ?_⟩⟩
    · rw [walk_full]
      exact hd
    · unfold arp_lookup
      rw [hl]
    · exact descend_wf 8 s.arp_root a l hs.1 (wf_covers s a hs ha) hd
    · have hla := (descend_wf 8 s.arp_root a l hs.1 (wf_covers s a hs ha) hd).2
      exact absurd hla (h a l ha (by rw [walk_full]; exact hd))

/-- Witness for C11: looking up 10.0.0.5 after it has registered. -/
theorem lookup_pure_read_witness :
    (arp_lookup_call ex_once 0x0a000005 ether_zero).2.2 = ex_once ∧
    (arp_lookup_call ex_once 0x0a000005 ether_zero).1 = 0 ∧
    (arp_lookup_call ex_once 0x0a000005 ether_zero).2.1 = ⟨2, 0, 0, 0, 0, 5⟩ ∧
    (arp_lookup_call ex_once 0x0a000006 ether_zero).1 = -1 :=
  ⟨(lookup_pure_read ex_once 0x0a000005 ether_zero).1, by decide, by decide, by decide⟩

/-! ## The claim transition -/

theorem ex_probe1_reach : Reach (ex_probe [1000000]).arp_root 1000000 :=
  @Reach.packet arp_root0 1000000 (State.init []).mem none ex_iface true ex_who_has 28 0
    (ex_probe [1000000]) []
    (@Reach.tick arp_root0 0 1000000 Reach.init (by decide)) rfl (by decide) (by decide) rfl

theorem ex_probe2_reach : Reach (ex_probe [1000000, 1001000]).arp_root 1001000 :=
  @Reach.packet (ex_probe [1000000]).arp_root 1001000 (ex_probe [1000000]).mem none ex_iface true
    ex_who_has 28 0 (ex_probe [1000000, 1001000]) []
    (@Reach.tick (ex_probe [1000000]).arp_root 1000000 1001000 ex_probe1_reach (by decide))
    rfl (by decide) (by decide) rfl

theorem ex_probing3_reach : Reach ex_probing3.arp_root 1002000 :=
  @Reach.packet (ex_probe [1000000, 1001000]).arp_root 1002000 (ex_probe [1000000, 1001000]).mem
    none ex_iface true ex_who_has 28 0 ex_probing3 []
    (@Reach.tick (ex_probe [1000000, 1001000]).arp_root 1001000 1002000 ex_probe2_reach (by decide))
    rfl (by decide) (by decide) rfl

theorem ex_probing3_wf : ex_probing3.wf :=
  ⟨(Reach_inv _ _ ex_probing3_reach).1, (Reach_inv _ _ ex_probing3_reach).2.1⟩

/-- The counting branch for a `uint64_t` clock, whatever `first` is. -/
theorem analyze_target_count64 (an : arpn) (ft : Nat) (iface : ether_addr) (ap : arp_pkt)
    (hr : an.reserved = false) (hc : an.claimed = false) (hle : an.first ≤ ft) (hft : ft < 2 ^ 64)
    (h0 : an.nreq ≠ 0) (hs : sub64 ft an.last < ARP_STALE)
    (h : an.nreq < ARP_MINREQ ∨ sub64 ft an.first < ARP_TIMEOUT) :
    (analyze_target an ft iface ap).2 = none ∧
    (analyze_target an ft iface ap).1.nreq = (an.nreq + 1) % 2 ^ 32 ∧
    (analyze_target an ft iface ap).1.first = an.first ∧ (analyze_target an ft iface ap).1.last = ft ∧
    (analyze_target an ft iface ap).1.claimed = false ∧
    (analyze_target an ft iface ap).1.reserved = false ∧
    (analyze_target an ft iface ap).1.ether = an.ether := by
  by_cases hf : an.first = ARP_NEVER
  · have hft' : ft = an.first := by
      rw [hf] at hle ⊢
      unfold ARP_NEVER at hle ⊢
      omega
    have hs' : ¬ (ARP_STALE ≤ sub64 ft an.last) := by omega
    have h' : ¬ (ARP_MINREQ ≤ an.nreq ∧ ARP_TIMEOUT ≤ sub64 ft ft) := by
      rw [sub64_self]
      intro hh
      exact absurd hh.2 (by decide)
    unfold analyze_target
    simp only [if_pos hf, hr, hc, Bool.false_eq_true, if_false, h0, false_or, ge_iff_le, hs', h']
    simp only [true_and, and_true]
    exact hft'
  · exact analyze_target_count an ft iface ap hr hc hf h0 hs h



/-- One who-has request, target in scope, when the target has the leaf `l1`
once the sender is registered: the who-has case leaves the leaf as
`analyze_target` makes it of the touched leaf and hands out its reply; the
sweep that follows can only delete the leaf, and does not when the clock is
past `ARP_EXPIRE`. -/
theorem packet_who_has_found (s : State) (ft : Nat) (dst_set : Option (Nat → Bool))
    (iface : ether_addr) (reply_ok : Bool) (ap : arp_pkt) (len : Nat)
    (hs : s.wf) (hp : who_has_pkt ap len) (hin : out_of_bounds dst_set ap.tpa = false)
    (l1 : arpn)
    (hl1 : descend 8 (state_of (arp_register s ft ap.spa ap.sha)).arp_root ap.tpa = some l1) :
    ∃ r0 s2 r s', analyze_who_has s ft dst_set iface reply_ok ap =
        .ok (r0, s2, (analyze_target (touch l1 ft) ft iface ap).2.toList) ∧ s2.wf ∧
      descend 8 s2.arp_root ap.tpa = some (analyze_target (touch l1 ft) ft iface ap).1 ∧
      packet_analyze_arp s ft dst_set iface reply_ok ap len =
        .ok (r, s', (analyze_target (touch l1 ft) ft iface ap).2.toList) ∧
      r = (if (analyze_target (touch l1 ft) ft iface ap).2 = none ∨ reply_ok = true then 0 else -1) ∧
      s'.wf ∧
      (∀ l', descend 8 s'.arp_root ap.tpa = some l' →
        l' = (analyze_target (touch l1 ft) ft iface ap).1) ∧
      (ARP_EXPIRE ≤ ft →
        descend 8 s'.arp_root ap.tpa = some (analyze_target (touch l1 ft) ft iface ap).1) := by
  have hspa := hp.2.2.2.2.2.2.1
  have htpa := hp.2.2.2.2.2.2.2
  obtain ⟨r1, s1, hreg, hs1, r, s2, out, haw, hs2, hcase⟩ :=
    analyze_who_has_spec s ft dst_set iface reply_ok ap hs hspa htpa hin
  rw [hreg] at hl1
  have hl1' : descend 8 s1.arp_root ap.tpa = some l1 := hl1
  rcases hcase with ⟨_, _, hnone, _⟩ | ⟨hd, hout, hr, _, hfresh⟩
  · rw [hnone] at hl1'; exact absurd hl1' (by simp)
  · rw [old_leaf_some 8 _ _ l1 hl1'] at hd hout
    subst hout
    have hiff : ((analyze_target (touch l1 ft) ft iface ap).2.toList = [] ∨ reply_ok = true) ↔
        ((analyze_target (touch l1 ft) ft iface ap).2 = none ∨ reply_ok = true) := by
      cases (analyze_target (touch l1 ft) ft iface ap).2 <;> simp
    by_cases hrep : (analyze_target (touch l1 ft) ft iface ap).2 = none ∨ reply_ok = true
    · rw [if_pos (hiff.2 hrep)] at hr
      subst hr
      obtain ⟨s3, he, hs3, _⟩ := run_expiry_spec s2 ft hs2
      refine ⟨none, s2, 0, s3, haw, hs2, hd, ?_, by rw [if_pos hrep], hs3, ?_, ?_⟩
      · rw [packet_who_has_eq s ft dst_set iface reply_ok ap len hp, haw]
        simp only [he]
      · intro l' hl'
        have := run_expiry_sub s2 s3 ft ap.tpa l' hs2 he hl'
        rw [hd, Option.some.injEq] at this
        exact this.symm
      · intro h1
        rw [run_expiry_keeps s2 s3 ft ap.tpa hs2 he, hd]
        apply hfresh
        rw [sub64_expire ft h1]
        exact Nat.sub_le _ _
    · rw [if_neg (fun h => hrep (hiff.1 h))] at hr
      subst hr
      refine ⟨some (-1), s2, -1, s2, haw, hs2, hd, ?_, by rw [if_neg hrep], hs2, ?_, fun _ => hd⟩
      · rw [packet_who_has_eq s ft dst_set iface reply_ok ap len hp, haw]
      · intro l' hl'
        rw [hd, Option.some.injEq] at hl'
        exact hl'.symm


/-- C13. A who-has request for a target in scope, on a `uint64_t` clock, when
the target has the leaf `l` at the time the request is examined (the sender
has been registered by then; `l` is the leaf of the state before the packet
when the sender is not the target), `l` is neither reserved nor claimed, and
the restart branch is not taken on the leaf `touch l ft_time` that `arp_insert`
returns.  If `nreq >= 3` and `ft_time - first >= 3000` the call hands exactly
one reply to `ethernet_reply`, an is-at whose sender hardware address is the
interface's, whose sender IP is the requested address and whose target
addresses are the requester's, and the leaf gets `ether` = the interface's
address, `claimed` set and `nreq = 0`; the return value is 0, or -1 when
`ethernet_reply` fails.  If `nreq < 3` or `ft_time - first < 3000` the call
returns 0, sends nothing, and the leaf gets `nreq + 1` (as an `unsigned int`)
and `last = ft_time`, with `claimed` still clear and `ether` unchanged.  In both
cases the closing sweep can only remove the leaf, and it does not when
`ft_time >= 300000`. -/
theorem claim_transition (s : State) (ft : Nat) (dst_set : Option (Nat → Bool))
    (iface : ether_addr) (reply_ok : Bool) (ap : arp_pkt) (len : Nat) (l : arpn)
    (hs : s.wf) (hp : who_has_pkt ap len) (hin : out_of_bounds dst_set ap.tpa = false)
    (hft : ft < 2 ^ 64)
    (hl : arp_lookup_node (state_of (arp_register s ft ap.spa ap.sha)).arp_root ap.tpa = some l)
    (hres : l.reserved = false) (hcl : l.claimed = false)
    (hnr : ¬ ((touch l ft).nreq = 0 ∨ sub64 ft (touch l ft).last ≥ ARP_STALE)) :
    (ap.spa ≠ ap.tpa → arp_lookup_node s.arp_root ap.tpa = some l) ∧
    (ARP_MINREQ ≤ l.nreq ∧ ARP_TIMEOUT ≤ sub64 ft (touch l ft).first →
      ∃ r s', packet_analyze_arp s ft dst_set iface reply_ok ap len =
          .ok (r, s', [arp_reply iface ap]) ∧
        r = (if reply_ok = true then 0 else -1) ∧
        (arp_reply iface ap).oper = arp_oper_is_at ∧ (arp_reply iface ap).sha = iface ∧
        (arp_reply iface ap).spa = ap.tpa ∧ (arp_reply iface ap).tha = ap.sha ∧
        (arp_reply iface ap).tpa = ap.spa ∧
        (∀ l', arp_lookup_node s'.arp_root ap.tpa = some l' →
          l'.ether = iface ∧ l'.claimed = true ∧ l'.nreq = 0 ∧ l'.reserved = false) ∧
        (ARP_EXPIRE ≤ ft → ∃ l', arp_lookup_node s'.arp_root ap.tpa = some l')) ∧
    (l.nreq < ARP_MINREQ ∨ sub64 ft (touch l ft).first < ARP_TIMEOUT →
      ∃ s', packet_analyze_arp s ft dst_set iface reply_ok ap len = .ok (0, s', []) ∧
        (∀ l', arp_lookup_node s'.arp_root ap.tpa = some l' →
          l'.nreq = (l.nreq + 1) % 2 ^ 32 ∧ (l.nreq + 1 < 2 ^ 32 → l'.nreq = l.nreq + 1) ∧
          l'.last = ft ∧ l'.claimed = false ∧ l'.reserved = false ∧ l'.ether = l.ether) ∧
        (ARP_EXPIRE ≤ ft → ∃ l', arp_lookup_node s'.arp_root ap.tpa = some l')) := by
  have hspa := hp.2.2.2.2.2.2.1
  have htpa := hp.2.2.2.2.2.2.2
  rw [lookup_eq_descend] at hl
  obtain ⟨r0, s2, r, s', _, _, _, hpk, hr, _, honly, hkeep⟩ :=
    packet_who_has_found s ft dst_set iface reply_ok ap len hs hp hin l hl
  have hres' : (touch l ft).reserved = false := by rw [touch_reserved, hres]
  have hcl' : (touch l ft).claimed = false := by rw [touch_claimed, hcl]
  have hn0 : (touch l ft).nreq ≠ 0 := fun h => hnr (Or.inl h)
  have hst : sub64 ft (touch l ft).last < ARP_STALE := by
    by_contra h
    exact hnr (Or.inr (Nat.le_of_not_lt h))
  have hle : (touch l ft).first ≤ ft := by rw [touch_first]; exact Nat.min_le_right _ _
  refine ⟨fun hne => ?_, fun hclaim => ?_, fun hcount => ?_⟩
  · obtain ⟨r1, s1, hreg, _⟩ := register_spec s ft ap.spa ap.sha hs hspa
    rw [hreg] at hl
    have hl' : descend 8 s1.arp_root ap.tpa = some l := hl
    rw [lookup_eq_descend, ← hl']
    exact (register_descend_other s s1 ft ap.spa ap.sha r1 hs hspa hreg ap.tpa htpa
      (Ne.symm hne)).symm
  · have hf : (touch l ft).first ≠ ARP_NEVER := by
      intro hf
      have hft' : ft = (touch l ft).first := by
        rw [hf] at hle ⊢
        unfold ARP_NEVER at hle ⊢
        omega
      have h2 := hclaim.2
      rw [← hft', sub64_self] at h2
      exact absurd h2 (by decide)
    have h3 : ARP_MINREQ ≤ (touch l ft).nreq := by rw [touch_nreq]; exact hclaim.1
    obtain ⟨a1, a2, _, _, a5, a6, a7⟩ :=
      analyze_target_claim (touch l ft) ft iface ap hres' hcl' hf hst h3 hclaim.2
    rw [a1] at hpk hr
    refine ⟨r, s', hpk, ?_, rfl, rfl, rfl, rfl, rfl, ?_, ?_⟩
    · rw [hr]
      simp
    · intro l' hl'
      rw [lookup_eq_descend] at hl'
      rw [honly l' hl']
      exact ⟨a7, a5, a2, a6⟩
    · intro h
      exact ⟨_, by rw [lookup_eq_descend]; exact hkeep h⟩
  · have hcount' : (touch l ft).nreq < ARP_MINREQ ∨ sub64 ft (touch l ft).first < ARP_TIMEOUT := by
      rw [touch_nreq]; exact hcount
    obtain ⟨a1, a2, _, a4, a5, a6, a7⟩ :=
      analyze_target_count64 (touch l ft) ft iface ap hres' hcl' hle hft hn0 hst hcount'
    rw [a1] at hpk hr
    have hr0 : r = 0 := by rw [hr]; simp
    subst hr0
    refine ⟨s', hpk, ?_, ?_⟩
    · intro l' hl'
      rw [lookup_eq_descend] at hl'
      rw [honly l' hl']
      rw [touch_nreq] at a2
      rw [touch_ether] at a7
      exact ⟨a2, fun hlt => by rw [a2, Nat.mod_eq_of_lt hlt], a4, a5, a6, a7⟩
    · intro h
      exact ⟨_, by rw [lookup_eq_descend]; exact hkeep h⟩

/-- Witness for C13: the fourth request for 10.0.0.5, 3000 ms after the first,
is answered and claims the address. -/
theorem claim_transition_witness :
    ∃ r s', packet_analyze_arp ex_probing3 1003000 none ex_iface true ex_who_has 28 =
        .ok (r, s', [arp_reply ex_iface ex_who_has]) ∧
      r = (if true = true then 0 else -1) ∧
      (arp_reply ex_iface ex_who_has).oper = arp_oper_is_at ∧
      (arp_reply ex_iface ex_who_has).sha = ex_iface ∧
      (arp_reply ex_iface ex_who_has).spa = ex_who_has.tpa ∧
      (arp_reply ex_iface ex_who_has).tha = ex_who_has.sha ∧
      (arp_reply ex_iface ex_who_has).tpa = ex_who_has.spa ∧
      (∀ l', arp_lookup_node s'.arp_root ex_who_has.tpa = some l' →
        l'.ether = ex_iface ∧ l'.claimed = true ∧ l'.nreq = 0 ∧ l'.reserved = false) ∧
      (ARP_EXPIRE ≤ 1003000 → ∃ l', arp_lookup_node s'.arp_root ex_who_has.tpa = some l') :=
  (claim_transition ex_probing3 1003000 none ex_iface true ex_who_has 28
    { new_node 0x0a000005 32 with first := 1000000, last := 1002000, nreq := 3 }
    ex_probing3_wf (by decide) rfl (by decide) rfl rfl rfl (by decide)).2.1 ⟨by decide, by decide⟩

/-! ## Refreshing a claimed address -/

theorem ex_claimed_reach : Reach ex_claimed.arp_root 1003000 :=
  @Reach.packet ex_probing3.arp_root 1003000 ex_probing3.mem none ex_iface true ex_who_has 28 0
    ex_claimed [arp_reply ex_iface ex_who_has]
    (@Reach.tick ex_probing3.arp_root 1002000 1003000 ex_probing3_reach (by decide))
    rfl (by decide) (by decide) rfl

theorem ex_claimed_wf : ex_claimed.wf :=
  ⟨(Reach_inv _ _ ex_claimed_reach).1, (Reach_inv _ _ ex_claimed_reach).2.1⟩

/-- The refresh branch of the who-has case. -/
theorem analyze_target_claimed (an : arpn) (ft : Nat) (iface : ether_addr) (ap : arp_pkt)
    (hr : an.reserved = false) (hc : an.claimed = true) :
    (analyze_target an ft iface ap).2 = some (arp_reply iface ap) ∧
    (analyze_target an ft iface ap).1.nreq = 0 ∧
    (analyze_target an ft iface ap).1.last = an.last ∧
    (analyze_target an ft iface ap).1.claimed = true ∧
    (analyze_target an ft iface ap).1.reserved = false ∧
    (analyze_target an ft iface ap).1.ether = an.ether := by
  unfold analyze_target
  by_cases h1 : an.first = ARP_NEVER <;> simp [h1, hr, hc]

/-- C14, as stated, fails: 10.0.0.5 is claimed on the interface
02:00:00:00:00:09, then registered by a host with 02:00:00:00:00:05, so that
its leaf is claimed and stores that host's address; the next who-has for it
is answered with the interface's address as sender hardware address, not with
the stored binding, which stays in the leaf. -/
theorem claimed_refresh_counterexample :
    who_has_pkt ex_who_has 28 ∧ out_of_bounds none ex_who_has.tpa = false ∧
    (arp_lookup_node ex_claimed_moved.arp_root ex_who_has.tpa).map
      (fun l => (l.claimed, l.reserved, l.ether)) = some (true, false, ⟨2, 0, 0, 0, 0, 5⟩) ∧
    (pkt_out (packet_analyze_arp ex_claimed_moved 1005000 none ex_iface true ex_who_has 28)).map
      (fun r => r.sha) = [⟨2, 0, 0, 0, 0, 9⟩] ∧
    arp_lookup (pkt_state (packet_analyze_arp ex_claimed_moved 1005000 none ex_iface true
      ex_who_has 28)) ex_who_has.tpa = some ⟨2, 0, 0, 0, 0, 5⟩ := by
  refine ⟨by decide, by decide, by decide, by decide, by decide⟩

/-- C14, amended. A who-has request for a target in scope whose leaf is
claimed and not reserved: the call hands exactly one reply to
`ethernet_reply`, an is-at whose sender hardware address is the address of the
receiving interface (the leaf's stored binding is not read), whose sender IP
is the requested address and whose target addresses are the requester's; it
returns 0, or -1 when `ethernet_reply` fails; the leaf gets `nreq = 0` and keeps
its flags, and keeps its stored binding when the sender is not the target.
The reply carries the stored binding exactly when that binding is the
interface's address, as it is from the claim until an `arp_register` changes
it.  The closing sweep can only remove the leaf, and does not when
`ft_time >= 300000`. -/
theorem claimed_refresh (s : State) (ft : Nat) (dst_set : Option (Nat → Bool))
    (iface : ether_addr) (reply_ok : Bool) (ap : arp_pkt) (len : Nat) (l : arpn)
    (hs : s.wf) (hp : who_has_pkt ap len) (hin : out_of_bounds dst_set ap.tpa = false)
    (hl : arp_lookup_node s.arp_root ap.tpa = some l)
    (hcl : l.claimed = true) (hres : l.reserved = false) :
    ∃ r s', packet_analyze_arp s ft dst_set iface reply_ok ap len =
        .ok (r, s', [arp_reply iface ap]) ∧
      r = (if reply_ok = true then 0 else -1) ∧
      (arp_reply iface ap).oper = arp_oper_is_at ∧ (arp_reply iface ap).sha = iface ∧
      (arp_reply iface ap).spa = ap.tpa ∧ (arp_reply iface ap).tha = ap.sha ∧
      (arp_reply iface ap).tpa = ap.spa ∧
      ((arp_reply iface ap).sha = l.ether ↔ l.ether = iface) ∧
      (∀ l', arp_lookup_node s'.arp_root ap.tpa = some l' →
        l'.nreq = 0 ∧ l'.claimed = true ∧ l'.reserved = false ∧
        (ap.spa ≠ ap.tpa → l'.ether = l.ether)) ∧
      (ARP_EXPIRE ≤ ft → ∃ l', arp_lookup_node s'.arp_root ap.tpa = some l') := by
  have hspa := hp.2.2.2.2.2.2.1
  have htpa := hp.2.2.2.2.2.2.2
  rw [lookup_eq_descend] at hl
  obtain ⟨r1, s1, hreg, _⟩ := register_spec s ft ap.spa ap.sha hs hspa
  obtain ⟨l1, hl1, hr1, hc1, hsame⟩ :=
    register_flags s s1 ft ap.spa ap.sha r1 hs hspa hreg ap.tpa htpa l hl
  have hl1' : descend 8 (state_of (arp_register s ft ap.spa ap.sha)).arp_root ap.tpa = some l1 := by
    rw [hreg]; exact hl1
  obtain ⟨r0, s2, r, s', _, _, _, hpk, hr, _, honly, hkeep⟩ :=
    packet_who_has_found s ft dst_set iface reply_ok ap len hs hp hin l1 hl1'
  have hres' : (touch l1 ft).reserved = false := by rw [touch_reserved, hr1, hres]
  have hcl' : (touch l1 ft).claimed = true := by rw [touch_claimed, hc1, hcl]
  obtain ⟨a1, a2, _, a4, a5, a6⟩ := analyze_target_claimed (touch l1 ft) ft iface ap hres' hcl'
  rw [a1] at hpk hr
  refine ⟨r, s', hpk, ?_, rfl, rfl, rfl, rfl, rfl, ⟨fun h => h.symm, fun h => h.symm⟩, ?_, ?_⟩
  · rw [hr]
    simp
  · intro l' hl'
    rw [lookup_eq_descend] at hl'
    rw [honly l' hl']
    refine ⟨a2, a4, a5, fun hne => ?_⟩
    rw [a6, touch_ether, hsame (Ne.symm hne)]
  · intro h
    exact ⟨_, by rw [lookup_eq_descend]; exact hkeep h⟩

/-- Witness for the amended C14: a who-has for the claimed 10.0.0.5. -/
theorem claimed_refresh_witness :
    ∃ r s', packet_analyze_arp ex_claimed 1004000 none ex_iface true ex_who_has 28 =
        .ok (r, s', [arp_reply ex_iface ex_who_has]) ∧
      r = (if true = true then 0 else -1) ∧
      (arp_reply ex_iface ex_who_has).oper = arp_oper_is_at ∧
      (arp_reply ex_iface ex_who_has).sha = ex_iface ∧
      (arp_reply ex_iface ex_who_has).spa = ex_who_has.tpa ∧
      (arp_reply ex_iface ex_who_has).tha = ex_who_has.sha ∧
      (arp_reply ex_iface ex_who_has).tpa = ex_who_has.spa ∧
      ((arp_reply ex_iface ex_who_has).sha = ex_iface ↔ ex_iface = ex_iface) ∧
      (∀ l', arp_lookup_node s'.arp_root ex_who_has.tpa = some l' →
        l'.nreq = 0 ∧ l'.claimed = true ∧ l'.reserved = false ∧
        (ex_who_has.spa ≠ ex_who_has.tpa → l'.ether = ex_iface)) ∧
      (ARP_EXPIRE ≤ 1004000 → ∃ l', arp_lookup_node s'.arp_root ex_who_has.tpa = some l') :=
  claimed_refresh ex_claimed 1004000 none ex_iface true ex_who_has 28
    { new_node 0x0a000005 32 with
      first := 1000000, last := 1003000, ether := ex_iface, claimed := true }
    ex_claimed_wf (by decide) rfl rfl rfl rfl

/-! ## Registration and probing -/

/-- C15. On a well-formed trie `arp_register a e` returns; when it returns 0
the leaf of `a` has `nreq = 0` and `ether = e`, whatever binding and count it
had before (its flags are those of the leaf before the call, clear for a new
leaf).  The next who-has request for `a`, in scope, at any time and from any
sender, then takes the restart branch if that leaf is neither reserved nor
claimed: the call returns 0 and sends nothing, and the leaf gets `nreq = 1`
and `first = ft_time`; the closing sweep can only remove the leaf, and does
not when `ft_time >= 300000`. -/
theorem register_cancels_probing (s : State) (ft a : Nat) (e : ether_addr) (hs : s.wf)
    (ha : a < 2 ^ 32) :
    ∃ r s1, arp_register s ft a e = .ok (r, s1) ∧ (r = 0 ∨ r = -1) ∧
      (r = 0 → ∃ l1, arp_lookup_node s1.arp_root a = some l1 ∧ l1.nreq = 0 ∧ l1.ether = e ∧
        l1.reserved = (old_leaf 8 s.arp_root a).reserved ∧
        l1.claimed = (old_leaf 8 s.arp_root a).claimed ∧
        ∀ (ft2 : Nat) (dst_set : Option (Nat → Bool)) (iface : ether_addr) (reply_ok : Bool)
          (ap : arp_pkt) (len : Nat), who_has_pkt ap len → ap.tpa = a →
          out_of_bounds dst_set ap.tpa = false → l1.reserved = false → l1.claimed = false →
          ∃ s2, packet_analyze_arp s1 ft2 dst_set iface reply_ok ap len = .ok (0, s2, []) ∧
            (∀ l2, arp_lookup_node s2.arp_root a = some l2 →
              l2.nreq = 1 ∧ l2.first = ft2 ∧ l2.claimed = false ∧ l2.reserved = false) ∧
            (ARP_EXPIRE ≤ ft2 → ∃ l2, arp_lookup_node s2.arp_root a = some l2)) := by
  obtain ⟨r, s1, hreg, hs1, hcase⟩ := register_spec s ft a e hs ha
  refine ⟨r, s1, hreg, ?_, fun hr0 => ?_⟩
  · rcases hcase with ⟨h, _⟩ | ⟨h, _⟩
    · exact Or.inl h
    · exact Or.inr h
  · subst hr0
    have hd := register_descend_self s s1 ft a e hs ha hreg
    refine ⟨_, by rw [lookup_eq_descend]; exact hd, rfl, rfl, ?_, ?_, ?_⟩
    · exact touch_reserved _ _
    · exact touch_claimed _ _
    · intro ft2 dst_set iface reply_ok ap len hp htp hin hres hcl
      subst htp
      have hspa := hp.2.2.2.2.2.2.1
      obtain ⟨r2, s1', hreg2, _⟩ := register_spec s1 ft2 ap.spa ap.sha hs1 hspa
      obtain ⟨l1x, hl1x, hr1x, hc1x, hsame⟩ :=
        register_flags s1 s1' ft2 ap.spa ap.sha r2 hs1 hspa hreg2 ap.tpa ha _ hd
      have hn1x : l1x.nreq = 0 := by
        by_cases hne : ap.tpa = ap.spa
        · rcases (register_spec s1 ft2 ap.spa ap.sha hs1 hspa) with ⟨r3, s3, hreg3, _, hc3⟩
          rw [hreg2] at hreg3
          simp only [Except.ok.injEq, Prod.mk.injEq] at hreg3
          obtain ⟨rfl, rfl⟩ := hreg3
          rcases hc3 with ⟨h0, _⟩ | ⟨_, hsm, hnone⟩
          · subst h0
            have hd2 := register_descend_self s1 s1' ft2 ap.spa ap.sha hs1 hspa hreg2
            rw [← hne, hl1x, Option.some.injEq] at hd2
            rw [hd2]
          · rw [← hne, hd] at hnone
            exact absurd hnone (by simp)
        · rw [hsame hne]
      have hl1x' : descend 8 (state_of (arp_register s1 ft2 ap.spa ap.sha)).arp_root ap.tpa =
          some l1x := by
        rw [hreg2]; exact hl1x
      obtain ⟨r0, s2, rr, s', _, _, _, hpk, hr, _, honly, hkeep⟩ :=
        packet_who_has_found s1 ft2 dst_set iface reply_ok ap len hs1 hp hin l1x hl1x'
      have hres' : (touch l1x ft2).reserved = false := by rw [touch_reserved, hr1x]; exact hres
      have hcl' : (touch l1x ft2).claimed = false := by rw [touch_claimed, hc1x]; exact hcl
      have hn' : (touch l1x ft2).nreq = 0 := by rw [touch_nreq, hn1x]
      obtain ⟨a1, a2, a3, _, a5, a6, _⟩ :=
        analyze_target_restart (touch l1x ft2) ft2 iface ap hres' hcl' (Or.inl hn')
      rw [a1] at hpk hr
      have hr0 : rr = 0 := by rw [hr]; simp
      subst hr0
      refine ⟨s', hpk, ?_, ?_⟩
      · intro l2 hl2
        rw [lookup_eq_descend] at hl2
        rw [honly l2 hl2]
        exact ⟨a2, a3, a5, a6⟩
      · intro h
        exact ⟨_, by rw [lookup_eq_descend]; exact hkeep h⟩

/-- Witness for C15: 10.0.0.5 registers while it is being probed with `nreq = 3`. -/
theorem register_cancels_probing_witness :
    ∃ r s1, arp_register ex_probing3 1002500 0x0a000005 ⟨2, 0, 0, 0, 0, 5⟩ = .ok (r, s1) ∧
      (r = 0 ∨ r = -1) ∧
      (r = 0 → ∃ l1, arp_lookup_node s1.arp_root 0x0a000005 = some l1 ∧ l1.nreq = 0 ∧
        l1.ether = ⟨2, 0, 0, 0, 0, 5⟩ ∧
        l1.reserved = (old_leaf 8 ex_probing3.arp_root 0x0a000005).reserved ∧
        l1.claimed = (old_leaf 8 ex_probing3.arp_root 0x0a000005).claimed ∧
        ∀ (ft2 : Nat) (dst_set : Option (Nat → Bool)) (iface : ether_addr) (reply_ok : Bool)
          (ap : arp_pkt) (len : Nat), who_has_pkt ap len → ap.tpa = 0x0a000005 →
          out_of_bounds dst_set ap.tpa = false → l1.reserved = false → l1.claimed = false →
          ∃ s2, packet_analyze_arp s1 ft2 dst_set iface reply_ok ap len = .ok (0, s2, []) ∧
            (∀ l2, arp_lookup_node s2.arp_root 0x0a000005 = some l2 →
              l2.nreq = 1 ∧ l2.first = ft2 ∧ l2.claimed = false ∧ l2.reserved = false) ∧
            (ARP_EXPIRE ≤ ft2 → ∃ l2, arp_lookup_node s2.arp_root 0x0a000005 = some l2)) :=
  register_cancels_probing ex_probing3 1002500 0x0a000005 ⟨2, 0, 0, 0, 0, 5⟩ ex_probing3_wf
    (by decide)

/-! ## The fences after a sweep -/

theorem fmin_fold_attained (g : Fin 16 → Option arpn) : ∀ (l : List (Fin 16)) (f0 : Nat),
    l.foldl (fun f i => fmin f (g i)) f0 = f0 ∨
      ∃ i c, g i = some c ∧ c.last = l.foldl (fun f i => fmin f (g i)) f0 := by
  intro l
  induction l with
  | nil => intro f0; exact Or.inl rfl
  | cons j l ih =>
    intro f0
    rw [List.foldl_cons]
    rcases ih (fmin f0 (g j)) with h | h
    · rw [h]
      cases hg : g j with
      | none => left; rfl
      | some c =>
        simp only [fmin, arpn.newest]
        rcases le_total f0 c.last with hle | hle
        · left; exact min_eq_left hle
        · right; exact ⟨j, c, hg, (min_eq_right hle).symm⟩
    · exact Or.inr h

theorem fence_min_attained (n : arpn) :
    fence_min n = ARP_NEVER ∨ ∃ i c, n.sub i = some c ∧ c.last = fence_min n :=
  fmin_fold_attained n.sub _ ARP_NEVER

/-- C16. On a well-formed inner node `n` (height `h + 1`) `arp_expire n cutoff`
returns.  Slot by slot, with `c'` the child `c` after the recursive call when
that call is made (`c` is an inner node with `oldest < cutoff`; the call
returns) and `c` itself otherwise: the child survives, as `c'`, exactly when
`cutoff <= c'.newest`, and the slot is empty afterwards otherwise.  The fences
of `n` are then exact: `oldest` is the minimum and `newest` the maximum of
`newest` over the surviving children -- bounds of every surviving child,
attained by one unless equal to the start values -- and `oldest = ARP_NEVER`,
`newest = 0` when no child survived. -/
theorem expire_recomputes (h : Nat) (n : arpn) (cutoff : Nat) (m : Mem) (hwf : WF (h + 1) n) :
    ∃ n' m', arp_expire (h + 1) n cutoff m = .ok (n', m') ∧
      (∀ i, (n.sub i = none → n'.sub i = none) ∧
        ∀ c, n.sub i = some c →
          (c.plen < 32 → ∀ m1, ∃ m2, arp_expire h c cutoff m1 = .ok (exp_tree h c cutoff, m2)) ∧
          ∃ c', c' = (if c.plen < 32 ∧ c.oldest < cutoff then exp_tree h c cutoff else c) ∧
            (cutoff ≤ c'.newest → n'.sub i = some c') ∧
            (c'.newest < cutoff → n'.sub i = none)) ∧
      fence_exact n' ∧
      (∀ i c, n'.sub i = some c → n'.oldest ≤ c.newest ∧ c.newest ≤ n'.newest) ∧
      (n'.oldest = ARP_NEVER ∨ ∃ i c, n'.sub i = some c ∧ c.newest = n'.oldest) ∧
      (n'.newest = 0 ∨ ∃ i c, n'.sub i = some c ∧ c.newest = n'.newest) ∧
      ((∀ i, n'.sub i = none) → n'.oldest = ARP_NEVER ∧ n'.newest = 0) := by
  obtain ⟨m', he⟩ := arp_expire_refines h n cutoff m hwf
  have hf := exp_tree_first h n cutoff
  have hl := exp_tree_last h n cutoff
  refine ⟨exp_tree (h + 1) n cutoff, m', he, ?_, ⟨hf, hl⟩, ?_, ?_, ?_, ?_⟩
  · intro i
    refine ⟨fun hn => ?_, fun c hc => ⟨fun hp m1 => ?_, _, rfl, fun hge => ?_, fun hlt => ?_⟩⟩
    · rw [exp_tree_sub, hn]
      rfl
    · have hwc := (hwf.2 i c hc).2
      cases h with
      | zero =>
        have : c.plen = 32 := hwc
        omega
      | succ h' => exact arp_expire_refines h' c cutoff m1 hwc
    · rw [exp_tree_sub, hc, exp_kid_eq, if_neg (Nat.not_lt.2 hge)]
    · rw [exp_tree_sub, hc, exp_kid_eq, if_pos hlt]
  · intro i c hc
    constructor
    · rw [arpn.oldest, hf]
      exact fence_min_le _ c i hc
    · rw [arpn.newest, arpn.newest, hl]
      exact le_fence_max _ c i hc
  · rw [arpn.oldest, hf]
    exact fence_min_attained _
  · rw [arpn.newest, hl]
    exact fence_max_attained _
  · intro hnone
    rw [arpn.oldest, arpn.newest, hf, hl]
    exact ⟨fence_min_empty _ hnone, fence_max_empty _ hnone⟩

/-- Witness for C16: the sweep with cutoff 1100000 of the trie in which
10.0.0.5 was last seen at 1200000. -/
theorem expire_recomputes_witness :
    ∃ n' m', arp_expire 8 ex_twice.arp_root 1100000 ex_twice.mem = .ok (n', m') ∧
      fence_exact n' ∧
      (∀ i c, n'.sub i = some c → n'.oldest ≤ c.newest ∧ c.newest ≤ n'.newest) ∧
      ((∀ i, n'.sub i = none) → n'.oldest = ARP_NEVER ∧ n'.newest = 0) :=
  match expire_recomputes 7 ex_twice.arp_root 1100000 ex_twice.mem
    (Reach_inv _ _ ex_twice_reach).1 with
  | ⟨n', m', h1, _, h3, h4, _, _, h7⟩ => ⟨n', m', h1, h3, h4, h7⟩

/-! ## Failed allocations -/

theorem missing_new_node (h a p b : Nat) : missing h (new_node a p) b = h := by
  cases h with
  | zero => rfl
  | succ h => simp [missing, new_node]

theorem newest_ge_new_node (h a p : Nat) : newest_ge h (new_node a p) := by
  cases h with
  | zero => trivial
  | succ h =>
    intro i c hc
    simp [new_node] at hc

theorem newest_ge_set_sub (h : Nat) (n c : arpn) (i : Fin 16) (hn : newest_ge (h + 1) n)
    (hc : newest_ge h c) (hle : c.last ≤ n.last) : newest_ge (h + 1) (n.set_sub i (some c)) := by
  intro j cj hj
  rw [set_sub_sub] at hj
  by_cases hji : j = i
  · subst hji
    rw [Function.update_same, Option.some.injEq] at hj
    subst hj
    exact ⟨hle, hc⟩
  · rw [Function.update_noteq hji] at hj
    exact hn j cj hj

theorem calloc_cases (m : Mem) (b : Bool) (m1 : Mem) (h : calloc m = (b, m1)) :
    m1.narpn = m.narpn ∧ m1.nleaves = m.nleaves ∧
    ((m.heap = [] ∧ b = true ∧ m1.heap = []) ∨ m.heap = b :: m1.heap) := by
  unfold calloc at h
  split at h
  · next hh =>
    simp only [Prod.mk.injEq] at h
    obtain ⟨rfl, rfl⟩ := h
    exact ⟨rfl, rfl, Or.inl ⟨hh, rfl, hh⟩⟩
  · next b' rest hh =>
    simp only [Prod.mk.injEq] at h
    obtain ⟨rfl, rfl⟩ := h
    exact ⟨rfl, rfl, Or.inr hh⟩

/-- A call of `arp_insert` returns `NULL` exactly when one of the allocations
it needs fails; the node it was called on then keeps its fences, no leaf is
counted, and `newest_ge` is kept. -/
theorem insert_fail : ∀ (h : Nat) (n : arpn) (a ft : Nat) (m : Mem) (r : Option arpn)
    (n' : arpn) (m' : Mem), WF h n → a < 2 ^ 32 → covers h n a →
    arp_insert (h + 1) n a ft m = .ok (r, n', m') →
    (r = none ↔ false ∈ m.heap.take (missing h n a)) ∧
    (r = none → n'.first = n.first ∧ n'.last = n.last ∧ m'.nleaves = m.nleaves ∧
      (newest_ge h n → newest_ge h n')) := by
  intro h
  induction h with
  | zero =>
    intro n a ft m r n' m' hwf ha hc he
    have hp : n.plen = 32 := hwf
    have hadd : n.addr = a := by simpa [covers] using hc.symm
    rw [arp_insert] at he
    simp only [hp, hadd, if_true, ne_eq, not_true_eq_false, if_false, Except.ok.injEq,
      Prod.mk.injEq] at he
    obtain ⟨rfl, _, rfl⟩ := he
    exact ⟨by simp [missing], fun hr => absurd hr (by simp)⟩
  | succ h ih =>
    intro n a ft m r n' m' hwf ha hc he
    obtain ⟨hp, hch⟩ := hwf
    have h1 : n.plen ≠ 32 := by omega
    have h2 : (n.plen + 4) % 256 = 32 - 4 * h := by omega
    have h3 : 32 - (32 - 4 * h) = 4 * h := by omega
    rw [arp_insert] at he
    simp only [h1, if_false, h2, h3, idx_mod] at he
    cases hs : n.sub (idx (a >>> (4 * h))) with
    | some sn =>
      obtain ⟨hsa, hswf⟩ := hch _ _ hs
      have hcc := covers_child h n sn a hc hsa
      obtain ⟨r0, sn', m0, he0, _⟩ := arp_insert_spec h sn a ft m hswf ha hcc
      obtain ⟨hiff, hfr⟩ := ih sn a ft m r0 sn' m0 hswf ha hcc he0
      have hmiss : missing (h + 1) n a = missing h sn a := by simp only [missing, hs]
      rw [hmiss]
      simp only [hs, he0] at he
      cases r0 with
      | none =>
        simp only [Except.ok.injEq, Prod.mk.injEq] at he
        obtain ⟨rfl, rfl, rfl⟩ := he
        obtain ⟨f1, f2, f3, f4⟩ := hfr rfl
        refine ⟨⟨fun _ => hiff.1 rfl, fun _ => rfl⟩, fun _ => ⟨rfl, rfl, f3, fun hu => ?_⟩⟩
        refine newest_ge_set_sub h n sn' _ hu (f4 (hu _ sn hs).2) ?_
        rw [f2]
        exact (hu _ sn hs).1
      | some rn =>
        simp only [Except.ok.injEq, Prod.mk.injEq] at he
        obtain ⟨rfl, _, _⟩ := he
        refine ⟨⟨fun hr => absurd hr (by simp), fun hm => absurd (hiff.2 hm) (by simp)⟩,
          fun hr => absurd hr (by simp)⟩
    | none =>
      have hmiss : missing (h + 1) n a = h + 1 := by simp only [missing, hs]
      rw [hmiss]
      simp only [hs, arp_new] at he
      rcases hcal : calloc m with ⟨b, m1⟩
      obtain ⟨c1, c2, c3⟩ := calloc_cases m b m1 hcal
      rw [hcal] at he
      cases b with
      | false =>
        simp only [Except.ok.injEq, Prod.mk.injEq] at he
        obtain ⟨rfl, rfl, rfl⟩ := he
        rcases c3 with ⟨_, hb, _⟩ | hh
        · exact absurd hb (by simp)
        · refine ⟨⟨fun _ => ?_, fun _ => rfl⟩, fun _ => ⟨rfl, rfl, c2, fun hu => hu⟩⟩
          rw [hh]
          simp
      | true =>
        simp only at he
        have hh : 4 * h ≤ 32 := by omega
        have hnwf := WF_new_node h a hh
        have hncov : covers h (new_node a (32 - 4 * h)) a := (new_node_addr a h ha hh).symm
        generalize hm2 : (if (new_node a (32 - 4 * h)).plen = 32 then
          ({ narpn := (m1.narpn + 1) % 2 ^ 32, nleaves := (m1.nleaves + 1) % 2 ^ 32, heap := m1.heap } : Mem)
          else { narpn := (m1.narpn + 1) % 2 ^ 32, nleaves := m1.nleaves, heap := m1.heap }) = m2 at he
        have hm2h : m2.heap = m1.heap := by
          rw [← hm2]; split <;> rfl
        have hm2l : 0 < h → m2.nleaves = m.nleaves := by
          intro hpos
          have : (new_node a (32 - 4 * h)).plen ≠ 32 := by
            simp only [new_node]
            omega
          rw [← hm2, if_neg this]
          exact c2
        obtain ⟨r0, sn', m0, he0, _⟩ := arp_insert_spec h _ a ft m2 hnwf ha hncov
        obtain ⟨hiff, hfr⟩ := ih _ a ft m2 r0 sn' m0 hnwf ha hncov he0
        rw [missing_new_node, hm2h] at hiff
        have htake : false ∈ m.heap.take (h + 1) ↔ false ∈ m1.heap.take h := by
          rcases c3 with ⟨q1, _, q3⟩ | hh
          · rw [q1, q3]
            simp
          · rw [hh]
            simp
        rw [htake]
        simp only [he0] at he
        cases r0 with
        | none =>
          simp only [Except.ok.injEq, Prod.mk.injEq] at he
          obtain ⟨rfl, rfl, rfl⟩ := he
          obtain ⟨f1, f2, f3, f4⟩ := hfr rfl
          have hpos : 0 < h := by
            rcases Nat.eq_zero_or_pos h with hz | hz
            · subst hz
              have := hiff.1 rfl
              simp at this
            · exact hz
          refine ⟨⟨fun _ => hiff.1 rfl, fun _ => rfl⟩, fun _ => ⟨rfl, rfl, ?_, fun hu => ?_⟩⟩
          · rw [f3]
            exact hm2l hpos
          · rw [set_sub_set_sub]
            refine newest_ge_set_sub h n sn' _ hu (f4 (newest_ge_new_node h _ _)) ?_
            rw [f2]
            exact Nat.zero_le _
        | some rn =>
          simp only [Except.ok.injEq, Prod.mk.injEq] at he
          obtain ⟨rfl, _, _⟩ := he
          refine ⟨⟨fun hr => absurd hr (by simp), fun hm => absurd (hiff.2 hm) (by simp)⟩,
            fun hr => absurd hr (by simp)⟩


/-- C17. On a well-formed trie `arp_insert` returns, and it returns `NULL`
exactly when one of the allocations it needs -- one per absent node on the
path of `a`, in order, whatever the level -- fails.  In that case every
address has the same leaf after the call as before it, if any (no leaf is
created, no field of a leaf changes, `nleaves` is unchanged), so `arp_lookup`
answers every address as before; and `arp_register` and `arp_reserve` return
-1, leaving the state as the failed `arp_insert` left it. -/
theorem insert_failure_clean (s : State) (a ft : Nat) (e : ether_addr) (hs : s.wf)
    (ha : a < 2 ^ 32) :
    ∃ r n' m', arp_insert 9 s.arp_root a ft s.mem = .ok (r, n', m') ∧
      (r = none ↔ false ∈ s.mem.heap.take (missing 8 s.arp_root a)) ∧
      (r = none →
        (∀ b, arp_lookup_node n' b = arp_lookup_node s.arp_root b) ∧
        (∀ b, arp_lookup { arp_root := n', mem := m' } b = arp_lookup s b) ∧
        arp_lookup_node n' a = none ∧
        m'.nleaves = s.mem.nleaves ∧
        arp_register s ft a e = .ok (-1, { arp_root := n', mem := m' }) ∧
        arp_reserve s ft a = .ok (-1, { arp_root := n', mem := m' })) := by
  obtain ⟨r, n', m', he, _, _, hcase⟩ := insert_root_spec s a ft hs ha
  obtain ⟨hiff, hfr⟩ := insert_fail 8 s.arp_root a ft s.mem r n' m' hs.1 ha (wf_covers s a hs ha) he
  refine ⟨r, n', m', he, hiff, fun hr => ?_⟩
  rcases hcase with ⟨hsome, _⟩ | ⟨_, hsame, hnone⟩
  · rw [hr] at hsome
    exact absurd hsome (by simp)
  · subst hr
    have hl : ∀ b, arp_lookup_node n' b = arp_lookup_node s.arp_root b := by
      intro b
      rw [lookup_eq_descend, lookup_eq_descend]
      exact hsame b
    refine ⟨hl, fun b => ?_, ?_, (hfr rfl).2.2.1, ?_, ?_⟩
    · unfold arp_lookup
      rw [hl b]
    · rw [hl a, lookup_eq_descend]
      exact hnone
    · unfold arp_register
      rw [he]
    · unfold arp_reserve
      rw [he]

/-- Witness for C17: inserting 10.0.0.5 into the empty trie when the third
allocation fails. -/
theorem insert_failure_clean_witness :
    ∃ n' m', arp_insert 9 (State.init [true, true, false]).arp_root 0x0a000005 1000000
        (State.init [true, true, false]).mem = .ok (none, n', m') ∧
      (∀ b, arp_lookup_node n' b = arp_lookup_node (State.init [true, true, false]).arp_root b) ∧
      (∀ b, arp_lookup { arp_root := n', mem := m' } b =
        arp_lookup (State.init [true, true, false]) b) ∧
      m'.nleaves = (State.init [true, true, false]).mem.nleaves ∧
      arp_register (State.init [true, true, false]) 1000000 0x0a000005 ⟨2, 0, 0, 0, 0, 5⟩ =
        .ok (-1, { arp_root := n', mem := m' }) ∧
      arp_reserve (State.init [true, true, false]) 1000000 0x0a000005 =
        .ok (-1, { arp_root := n', mem := m' }) := by
  obtain ⟨r, n', m', he, hiff, hcl⟩ := insert_failure_clean (State.init [true, true, false])
    0x0a000005 1000000 ⟨2, 0, 0, 0, 0, 5⟩ (wf_init _) (by decide)
  have hr : r = none := hiff.2 (by decide)
  subst hr
  obtain ⟨h1, h2, _, h4, h5, h6⟩ := hcl rfl
  exact ⟨n', m', he, h1, h2, h4, h5, h6⟩

/-! ## No child is newer than its parent -/

theorem ins_newest_ge : ∀ (h : Nat) (n : arpn) (a ft : Nat), newest_ge h n →
    newest_ge h (ins_tree h n a ft) := by
  intro h
  induction h with
  | zero => intro n a ft _; trivial
  | succ h ih =>
    intro n a ft hn
    have key : ∀ c0, newest_ge h c0 →
        newest_ge (h + 1) (bump (n.set_sub (idx (a >>> (4 * h))) (some (ins_tree h c0 a ft)))
          (ins_tree h c0 a ft)) := by
      intro c0 hc0ge
      have hc' := ih c0 a ft hc0ge
      generalize ins_tree h c0 a ft = c' at hc' ⊢
      intro j cj hj
      rw [bump_sub, set_sub_sub] at hj
      rw [arpn.newest, arpn.newest, bump_last, set_sub_last]
      by_cases hji : j = idx (a >>> (4 * h))
      · rw [hji, Function.update_same, Option.some.injEq] at hj
        rw [← hj]
        exact ⟨le_max_right _ _, hc'⟩
      · rw [Function.update_noteq hji] at hj
        exact ⟨le_trans (hn j cj hj).1 (le_max_left _ _), (hn j cj hj).2⟩
    cases hs : n.sub (idx (a >>> (4 * h))) with
    | none =>
      rw [ins_tree]
      simp only [hs]
      exact key _ (newest_ge_new_node _ _ _)
    | some c =>
      rw [ins_tree]
      simp only [hs]
      exact key c (hn _ c hs).2

theorem lw_newest_ge : ∀ (h : Nat) (n : arpn) (a : Nat) (l : arpn), newest_ge h n →
    (∀ x, descend h n a = some x → l.last ≤ x.last) → newest_ge h (leaf_write h n a l) := by
  intro h
  induction h with
  | zero => intro n a l _ _; trivial
  | succ h ih =>
    intro n a l hn hx
    rw [leaf_write]
    cases hs : n.sub (idx (a >>> (4 * h))) with
    | none => exact hn
    | some c =>
      simp only
      have hx' : ∀ x, descend h c a = some x → l.last ≤ x.last := by
        intro x hd; apply hx; simp only [descend, hs, hd]
      have hlast : (leaf_write h c a l).last ≤ c.last := by
        cases h with
        | zero => exact hx' c rfl
        | succ h => rw [lw_last h c a l]
      exact newest_ge_set_sub h n _ _ hn (ih c a l (hn _ c hs).2 hx')
        (le_trans hlast (hn _ c hs).1)

theorem exp_newest_ge : ∀ (h : Nat) (n : arpn) (cutoff : Nat), newest_ge h n →
    newest_ge h (exp_tree h n cutoff) := by
  intro h
  induction h with
  | zero => intro n cutoff _; trivial
  | succ h ih =>
    intro n cutoff hn i c' hic
    refine ⟨?_, ?_⟩
    · rw [arpn.newest, arpn.newest, exp_tree_last]
      exact le_fence_max _ c' i hic
    · rw [exp_tree_sub] at hic
      obtain ⟨c, hc, hc', _⟩ := exp_kid_some _ _ _ _ hic
      rw [hc']
      split
      · exact ih c cutoff (hn i c hc).2
      · exact (hn i c hc).2

/-- Under `newest_ge` a leaf is not newer than any node above it. -/
theorem ge_descend : ∀ (h : Nat) (n : arpn) (a : Nat) (l : arpn), newest_ge (h + 1) n →
    descend (h + 1) n a = some l → l.last ≤ n.last := by
  intro h
  induction h with
  | zero =>
    intro n a l hn hd
    rw [descend] at hd
    cases hs : n.sub (idx (a >>> (4 * 0))) with
    | none => rw [hs] at hd; exact absurd hd (by simp)
    | some c =>
      rw [hs] at hd
      simp only [descend, Option.some.injEq] at hd
      rw [← hd]
      exact (hn _ c hs).1
  | succ h ih =>
    intro n a l hn hd
    rw [descend] at hd
    cases hs : n.sub (idx (a >>> (4 * (h + 1)))) with
    | none => simp [hs] at hd
    | some c =>
      simp only [hs] at hd
      exact le_trans (ih c a l (hn _ c hs).2 hd) (hn _ c hs).1

theorem ge_walk : ∀ (h k : Nat) (n : arpn) (a : Nat) (x l : arpn), newest_ge h n →
    walk h k n a = some x → descend h n a = some l → k < h → l.last ≤ x.last := by
  intro h
  induction h with
  | zero => intro k n a x l _ _ _ hk; exact absurd hk (Nat.not_lt_zero _)
  | succ h ih =>
    intro k n a x l hn hw hd hk
    cases k with
    | zero =>
      simp only [walk, Option.some.injEq] at hw
      rw [← hw]
      exact ge_descend h n a l hn hd
    | succ k =>
      rw [walk] at hw
      rw [descend] at hd
      cases hs : n.sub (idx (a >>> (4 * h))) with
      | none => simp [hs] at hd
      | some c =>
        simp only [hs] at hd hw
        exact ih k c a x l (hn _ c hs).2 hw hd (Nat.lt_of_succ_lt_succ hk)

theorem ge_path_fresh : ∀ (h : Nat) (n : arpn) (a cutoff : Nat) (l : arpn), newest_ge h n →
    descend h n a = some l → cutoff ≤ l.last → path_fresh h n a cutoff := by
  intro h
  induction h with
  | zero => intro n a cutoff l _ _ _; trivial
  | succ h ih =>
    intro n a cutoff l hn hd hc
    rw [descend] at hd
    cases hs : n.sub (idx (a >>> (4 * h))) with
    | none => simp [hs] at hd
    | some c =>
      simp only [hs] at hd
      refine ⟨c, hs, ?_, ih c a cutoff l (hn _ c hs).2 hd hc⟩
      cases h with
      | zero =>
        simp only [descend, Option.some.injEq] at hd
        rw [hd]
        exact hc
      | succ h => exact le_trans hc (ge_descend h c a l (hn _ c hs).2 hd)


theorem insert_root_ge (s : State) (a ft : Nat) (r : Option arpn) (n' : arpn) (m' : Mem)
    (hs : s.wf) (hg : newest_ge 8 s.arp_root) (ha : a < 2 ^ 32)
    (he : arp_insert 9 s.arp_root a ft s.mem = .ok (r, n', m')) :
    WF 8 n' ∧ n'.addr = 0 ∧ newest_ge 8 n' ∧
      ((r = some (touch (old_leaf 8 s.arp_root a) ft) ∧ n' = ins_tree 8 s.arp_root a ft) ∨
        r = none) := by
  obtain ⟨r1, n1, m1, he1, hwf, hadd, hcase⟩ := insert_root_spec s a ft hs ha
  have hfail := insert_fail 8 s.arp_root a ft s.mem r n' m' hs.1 ha (wf_covers s a hs ha) he
  rw [he1, Except.ok.injEq, Prod.mk.injEq, Prod.mk.injEq] at he
  obtain ⟨rfl, rfl, rfl⟩ := he
  rcases hcase with ⟨hr, hn⟩ | ⟨hr, _, _⟩
  · refine ⟨hwf, hadd, ?_, Or.inl ⟨hr, hn⟩⟩
    rw [hn]
    exact ins_newest_ge 8 _ a ft hg
  · exact ⟨hwf, hadd, (hfail.2 hr).2.2.2 hg, Or.inr hr⟩

/-- An insertion followed by a write through the returned pointer that does
not raise `last` keeps `newest_ge`. -/
theorem ins_write_ge (s : State) (a ft : Nat) (l : arpn) (hs : s.wf) (hg : newest_ge 8 s.arp_root)
    (ha : a < 2 ^ 32) (hl1 : l.plen = 32) (hl2 : l.addr = a)
    (hl3 : l.last ≤ (touch (old_leaf 8 s.arp_root a) ft).last) (m : Mem) :
    State.wf { arp_root := leaf_write 8 (ins_tree 8 s.arp_root a ft) a l, mem := m } ∧
    newest_ge 8 (leaf_write 8 (ins_tree 8 s.arp_root a ft) a l) := by
  obtain ⟨h1, h2, _⟩ := ins_write s a ft l hs ha hl1 hl2
  refine ⟨wf_mk _ _ h1 h2, ?_⟩
  apply lw_newest_ge 8 _ a l (ins_newest_ge 8 _ a ft hg)
  intro x hx
  rw [ins_descend_self, Option.some.injEq] at hx
  rw [← hx]; exact hl3

theorem register_ge (s : State) (a ft : Nat) (e : ether_addr) (r : Int) (s' : State)
    (hs : s.wf) (hg : newest_ge 8 s.arp_root) (ha : a < 2 ^ 32)
    (he : arp_register s ft a e = .ok (r, s')) : s'.wf ∧ newest_ge 8 s'.arp_root := by
  unfold arp_register at he
  cases hins : arp_insert 9 s.arp_root a ft s.mem with
  | error x => rw [hins] at he; exact absurd he (by simp)
  | ok x =>
    obtain ⟨r0, n0, m0⟩ := x
    obtain ⟨q1, q2, q3, q4⟩ := insert_root_ge s a ft r0 n0 m0 hs hg ha hins
    rw [hins] at he
    rcases q4 with ⟨q5, q6⟩ | q5
    · rw [q5] at he
      simp only [register_leaf_eq, Except.ok.injEq, Prod.mk.injEq] at he
      obtain ⟨_, hs'⟩ := he
      rw [← hs', q6]
      obtain ⟨w1, w2⟩ := ins_write_ge s a ft
        { touch (old_leaf 8 s.arp_root a) ft with ether := e, nreq := 0 } hs hg ha
        (rn_wf s a ft hs ha).1 (rn_wf s a ft hs ha).2 (le_refl _) m0
      refine ⟨w1, ?_⟩
      dsimp only; exact w2
    · rw [q5] at he
      simp only [Except.ok.injEq, Prod.mk.injEq] at he
      obtain ⟨_, hs'⟩ := he
      rw [← hs']
      exact ⟨wf_mk _ _ q1 q2, q3⟩

theorem reserve_ge (s : State) (a ft : Nat) (r : Int) (s' : State)
    (hs : s.wf) (hg : newest_ge 8 s.arp_root) (ha : a < 2 ^ 32)
    (he : arp_reserve s ft a = .ok (r, s')) : s'.wf ∧ newest_ge 8 s'.arp_root := by
  unfold arp_reserve at he
  cases hins : arp_insert 9 s.arp_root a ft s.mem with
  | error x => rw [hins] at he; exact absurd he (by simp)
  | ok x =>
    obtain ⟨r0, n0, m0⟩ := x
    obtain ⟨q1, q2, q3, q4⟩ := insert_root_ge s a ft r0 n0 m0 hs hg ha hins
    rw [hins] at he
    rcases q4 with ⟨q5, q6⟩ | q5
    · rw [q5] at he
      simp only [Except.ok.injEq, Prod.mk.injEq] at he
      obtain ⟨_, hs'⟩ := he
      rw [← hs', q6]
      obtain ⟨w1, w2⟩ := ins_write_ge s a ft
        { touch (old_leaf 8 s.arp_root a) ft with first := 0, last := 0, reserved := true }
        hs hg ha (rn_wf s a ft hs ha).1 (rn_wf s a ft hs ha).2 (Nat.zero_le _) m0
      refine ⟨w1, ?_⟩
      dsimp only; exact w2
    · rw [q5] at he
      simp only [Except.ok.injEq, Prod.mk.injEq] at he
      obtain ⟨_, hs'⟩ := he
      rw [← hs']
      exact ⟨wf_mk _ _ q1 q2, q3⟩

theorem run_expiry_ge (s s' : State) (ft : Nat) (hs : s.wf) (hg : newest_ge 8 s.arp_root)
    (he : run_expiry s ft = .ok s') : s'.wf ∧ newest_ge 8 s'.arp_root := by
  obtain ⟨s1, he1, hwf, hcase⟩ := run_expiry_spec s ft hs
  rw [he1, Except.ok.injEq] at he
  subst he
  refine ⟨hwf, ?_⟩
  rcases hcase with h | h
  · rw [h]; exact hg
  · rw [h]; exact exp_newest_ge 8 _ _ hg

theorem expire_ge (n n' : arpn) (m m' : Mem) (cutoff : Nat) (hwf : WF 8 n) (hadd : n.addr = 0)
    (hg : newest_ge 8 n) (he : arp_expire 8 n cutoff m = .ok (n', m')) :
    WF 8 n' ∧ n'.addr = 0 ∧ newest_ge 8 n' := by
  obtain ⟨m1, he1⟩ := arp_expire_refines 7 n cutoff m hwf
  rw [he1, Except.ok.injEq, Prod.mk.injEq] at he
  obtain ⟨rfl, _⟩ := he
  exact ⟨exp_WF 8 n cutoff hwf, by rw [exp_tree_addr]; exact hadd, exp_newest_ge 8 n cutoff hg⟩

theorem analyze_who_has_ge (s : State) (t : Nat) (dst_set : Option (Nat → Bool))
    (iface : ether_addr) (reply_ok : Bool) (ap : arp_pkt) (r : Option Int) (s' : State)
    (out : List arp_pkt) (hs : s.wf) (hg : newest_ge 8 s.arp_root)
    (hspa : ap.spa < 2 ^ 32) (htpa : ap.tpa < 2 ^ 32)
    (he : analyze_who_has s t dst_set iface reply_ok ap = .ok (r, s', out)) :
    s'.wf ∧ newest_ge 8 s'.arp_root := by
  unfold analyze_who_has at he
  by_cases hb : out_of_bounds dst_set ap.tpa = true
  · rw [if_pos hb] at he
    simp only [Except.ok.injEq, Prod.mk.injEq] at he
    rw [← he.2.1]; exact ⟨hs, hg⟩
  · rw [if_neg hb] at he
    cases hreg : arp_register s t ap.spa ap.sha with
    | error x => rw [hreg] at he; exact absurd he (by simp)
    | ok x =>
      obtain ⟨r1, s1⟩ := x
      obtain ⟨hs1, hg1⟩ := register_ge s ap.spa t ap.sha r1 s1 hs hg hspa hreg
      rw [hreg] at he
      simp only at he
      cases hins : arp_insert 9 s1.arp_root ap.tpa t s1.mem with
      | error x => rw [hins] at he; exact absurd he (by simp)
      | ok x =>
        obtain ⟨r0, n0, m0⟩ := x
        obtain ⟨q1, q2, q3, q4⟩ := insert_root_ge s1 ap.tpa t r0 n0 m0 hs1 hg1 htpa hins
        rw [hins] at he
        rcases q4 with ⟨q5, q6⟩ | q5
        · rw [q5] at he
          simp only at he
          have hrn := rn_wf s1 ap.tpa t hs1 htpa
          have hfr := analyze_target_frame (touch (old_leaf 8 s1.arp_root ap.tpa) t) t iface ap
          have hlast : (analyze_target (touch (old_leaf 8 s1.arp_root ap.tpa) t) t iface ap).1.last ≤
              (touch (old_leaf 8 s1.arp_root ap.tpa) t).last := by
            rcases analyze_target_last (touch (old_leaf 8 s1.arp_root ap.tpa) t) t iface ap with h | h
            · exact le_of_eq h
            · rw [h, touch_last]
              exact le_max_right _ _
          obtain ⟨w1, w2⟩ := ins_write_ge s1 ap.tpa t
            (analyze_target (touch (old_leaf 8 s1.arp_root ap.tpa) t) t iface ap).1 hs1 hg1 htpa
            (by rw [hfr.1, hrn.1]) (by rw [hfr.2.1, hrn.2]) hlast m0
          rw [q6] at he
          rcases hat : analyze_target (touch (old_leaf 8 s1.arp_root ap.tpa) t) t iface ap with
            ⟨an, rep⟩
          rw [hat] at he w1 w2
          cases rep with
          | none =>
            simp only [Except.ok.injEq, Prod.mk.injEq] at he
            rw [← he.2.1]
            refine ⟨w1, ?_⟩
            dsimp only; exact w2
          | some rp =>
            simp only [Except.ok.injEq, Prod.mk.injEq] at he
            rw [← he.2.1]
            refine ⟨w1, ?_⟩
            dsimp only; exact w2
        · rw [q5] at he
          simp only [Except.ok.injEq, Prod.mk.injEq] at he
          rw [← he.2.1]
          exact ⟨wf_mk _ _ q1 q2, q3⟩

theorem analyze_is_at_ge (s : State) (t : Nat) (ap : arp_pkt) (s' : State)
    (hs : s.wf) (hg : newest_ge 8 s.arp_root)
    (hspa : ap.spa < 2 ^ 32) (htpa : ap.tpa < 2 ^ 32)
    (he : analyze_is_at s t ap = .ok s') : s'.wf ∧ newest_ge 8 s'.arp_root := by
  unfold analyze_is_at at he
  cases hreg : arp_register s t ap.spa ap.sha with
  | error x => rw [hreg] at he; exact absurd he (by simp)
  | ok x =>
    obtain ⟨r1, s1⟩ := x
    obtain ⟨hs1, hg1⟩ := register_ge s ap.spa t ap.sha r1 s1 hs hg hspa hreg
    rw [hreg] at he
    simp only at he
    cases hreg2 : arp_register s1 t ap.tpa ap.tha with
    | error x => rw [hreg2] at he; exact absurd he (by simp)
    | ok x =>
      obtain ⟨r2, s2⟩ := x
      obtain ⟨hs2, hg2⟩ := register_ge s1 ap.tpa t ap.tha r2 s2 hs1 hg1 htpa hreg2
      rw [hreg2] at he
      simp only [Except.ok.injEq] at he
      rw [← he]; exact ⟨hs2, hg2⟩

theorem packet_ge (s : State) (t : Nat) (dst_set : Option (Nat → Bool))
    (iface : ether_addr) (reply_ok : Bool) (ap : arp_pkt) (len : Nat) (r : Int) (s' : State)
    (out : List arp_pkt) (hs : s.wf) (hg : newest_ge 8 s.arp_root)
    (hspa : ap.spa < 2 ^ 32) (htpa : ap.tpa < 2 ^ 32)
    (he : packet_analyze_arp s t dst_set iface reply_ok ap len = .ok (r, s', out)) :
    s'.wf ∧ newest_ge 8 s'.arp_root := by
  unfold packet_analyze_arp at he
  split_ifs at he with h1 h2 h3 h4
  · simp only [Except.ok.injEq, Prod.mk.injEq] at he; rw [← he.2.1]; exact ⟨hs, hg⟩
  · simp only [Except.ok.injEq, Prod.mk.injEq] at he; rw [← he.2.1]; exact ⟨hs, hg⟩
  · cases haw : analyze_who_has s t dst_set iface reply_ok ap with
    | error x => rw [haw] at he; exact absurd he (by simp)
    | ok x =>
      obtain ⟨r0, s2, o2⟩ := x
      obtain ⟨hs2, hg2⟩ := analyze_who_has_ge s t dst_set iface reply_ok ap r0 s2 o2 hs hg
        hspa htpa haw
      rw [haw] at he
      cases r0 with
      | some r1 =>
        simp only [Except.ok.injEq, Prod.mk.injEq] at he
        rw [← he.2.1]; exact ⟨hs2, hg2⟩
      | none =>
        simp only at he
        cases hexp : run_expiry s2 t with
        | error x => rw [hexp] at he; exact absurd he (by simp)
        | ok s3 =>
          rw [hexp] at he
          simp only [Except.ok.injEq, Prod.mk.injEq] at he
          rw [← he.2.1]
          exact run_expiry_ge s2 s3 t hs2 hg2 hexp
  · cases hia : analyze_is_at s t ap with
    | error x => rw [hia] at he; exact absurd he (by simp)
    | ok s2 =>
      obtain ⟨hs2, hg2⟩ := analyze_is_at_ge s t ap s2 hs hg hspa htpa hia
      rw [hia] at he
      simp only at he
      cases hexp : run_expiry s2 t with
      | error x => rw [hexp] at he; exact absurd he (by simp)
      | ok s3 =>
        rw [hexp] at he
        simp only [Except.ok.injEq, Prod.mk.injEq] at he
        rw [← he.2.1]
        exact run_expiry_ge s2 s3 t hs2 hg2 hexp
  · simp only [Except.ok.injEq, Prod.mk.injEq] at he; rw [← he.2.1]; exact ⟨hs, hg⟩

theorem newest_ge_init : newest_ge 8 arp_root0 := by
  intro i c hc
  simp [arp_root0] at hc


theorem Reachable_inv (n : arpn) (h : Reachable n) : WF 8 n ∧ n.addr = 0 ∧ newest_ge 8 n := by
  induction h with
  | init => exact ⟨(wf_init []).1, rfl, newest_ge_init⟩
  | @insert n a ft m r n' m' _ ha he ih =>
    obtain ⟨q1, q2, q3, _⟩ := insert_root_ge { arp_root := n, mem := m } a ft r n' m'
      (wf_mk _ _ ih.1 ih.2.1) ih.2.2 ha he
    exact ⟨q1, q2, q3⟩
  | @register n ft a e m r s' _ ha he ih =>
    obtain ⟨q1, q2⟩ := register_ge { arp_root := n, mem := m } a ft e r s'
      (wf_mk _ _ ih.1 ih.2.1) ih.2.2 ha he
    exact ⟨q1.1, q1.2, q2⟩
  | @reserve n ft a m r s' _ ha he ih =>
    obtain ⟨q1, q2⟩ := reserve_ge { arp_root := n, mem := m } a ft r s'
      (wf_mk _ _ ih.1 ih.2.1) ih.2.2 ha he
    exact ⟨q1.1, q1.2, q2⟩
  | @packet n ft m dst_set iface reply_ok ap len r s' out _ hspa htpa he ih =>
    obtain ⟨q1, q2⟩ := packet_ge { arp_root := n, mem := m } ft dst_set iface reply_ok ap len r s'
      out (wf_mk _ _ ih.1 ih.2.1) ih.2.2 hspa htpa he
    exact ⟨q1.1, q1.2, q2⟩
  | @expire n cutoff m n' m' _ he ih =>
    exact expire_ge n n' m m' cutoff ih.1 ih.2.1 ih.2.2 he
  | @periodic n tv_sec m s' _ he ih =>
    unfold arp_periodic at he
    simp only at he
    cases hexp : arp_expire 8 n (sub64 (tv_sec * 1000 % 2 ^ 64) ARP_EXPIRE) m with
    | error x => rw [hexp] at he; exact absurd he (by simp)
    | ok x =>
      obtain ⟨n', m'⟩ := x
      rw [hexp] at he
      simp only [Except.ok.injEq] at he
      rw [← he]
      exact expire_ge n n' m m' _ ih.1 ih.2.1 ih.2.2 hexp

theorem ex_once_reachable : Reachable ex_once.arp_root :=
  @Reachable.register arp_root0 1000000 0x0a000005 ⟨2, 0, 0, 0, 0, 5⟩ (State.init []).mem 0
    ex_once Reachable.init (by decide) rfl

/-- C18. In every state reachable from the empty trie -- by `arp_insert`,
`arp_register`, `arp_reserve`, packets, `arp_expire` and `arp_periodic` in any
order, with any clock values and any failed allocations -- every inner node
`x` on the path of an address has `newest` at least the `last` of the leaf of
that address, for every address that has a leaf.  Hence `arp_expire` from the
root, which returns for every cutoff, keeps every leaf with `last >= cutoff`
as it is: a leaf that is gone after the call had `last < cutoff`. -/
theorem expiry_sound (n : arpn) (h : Reachable n) :
    (∀ a k x l, k < 8 → walk 8 k n a = some x → arp_lookup_node n a = some l →
      l.last ≤ x.newest) ∧
    (∀ cutoff m, ∃ n' m', arp_expire 8 n cutoff m = .ok (n', m') ∧
      ∀ a l, arp_lookup_node n a = some l →
        (cutoff ≤ l.last → arp_lookup_node n' a = some l) ∧
        (arp_lookup_node n' a = none → l.last < cutoff)) := by
  obtain ⟨hwf, _, hg⟩ := Reachable_inv n h
  refine ⟨fun a k x l hk hw hl => ?_, fun cutoff m => ?_⟩
  · rw [lookup_eq_descend] at hl
    exact ge_walk 8 k n a x l hg hw hl hk
  · obtain ⟨m', he⟩ := arp_expire_refines 7 n cutoff m hwf
    refine ⟨_, m', he, fun a l hl => ?_⟩
    rw [lookup_eq_descend] at hl
    have hkeep : cutoff ≤ l.last → arp_lookup_node (exp_tree 8 n cutoff) a = some l := by
      intro hc
      rw [lookup_eq_descend, (exp_keeps 8 n a cutoff hwf (ge_path_fresh 8 n a cutoff l hg hl hc)).1]
      exact hl
    refine ⟨hkeep, fun hnone => ?_⟩
    by_contra hlt
    rw [hkeep (Nat.le_of_not_lt hlt)] at hnone
    exact absurd hnone (by simp)

/-- Witness for C18: the trie in which 10.0.0.5 registered at 1000000 ms. -/
theorem expiry_sound_witness :
    (∀ a k x l, k < 8 → walk 8 k ex_once.arp_root a = some x →
      arp_lookup_node ex_once.arp_root a = some l → l.last ≤ x.newest) ∧
    (∀ cutoff m, ∃ n' m', arp_expire 8 ex_once.arp_root cutoff m = .ok (n', m') ∧
      ∀ a l, arp_lookup_node ex_once.arp_root a = some l →
        (cutoff ≤ l.last → arp_lookup_node n' a = some l) ∧
        (arp_lookup_node n' a = none → l.last < cutoff)) :=
  expiry_sound ex_once.arp_root ex_once_reachable

/-! ## Reserved leaves and the sweep -/

theorem walk_WF : ∀ (h k : Nat) (n : arpn) (a : Nat) (x : arpn), WF h n → k ≤ h →
    walk h k n a = some x → WF (h - k) x := by
  intro h
  induction h with
  | zero =>
    intro k n a x hwf hk hw
    have hk0 : k = 0 := by omega
    subst hk0
    simp only [walk, Option.some.injEq] at hw
    subst hw
    exact hwf
  | succ h ih =>
    intro k n a x hwf hk hw
    cases k with
    | zero =>
      simp only [walk, Option.some.injEq] at hw
      subst hw
      exact hwf
    | succ k =>
      rw [walk] at hw
      cases hs : n.sub (idx (a >>> (4 * h))) with
      | none => rw [hs] at hw; exact absurd hw (by simp)
      | some c =>
        rw [hs] at hw
        rw [show h + 1 - (k + 1) = h - k by omega]
        exact ih k c a x (hwf.2 _ _ hs).2 (by omega) hw

theorem walk_descend : ∀ (h k : Nat) (n : arpn) (a : Nat) (x : arpn), k ≤ h →
    walk h k n a = some x → descend h n a = descend (h - k) x a := by
  intro h
  induction h with
  | zero =>
    intro k n a x hk hw
    have hk0 : k = 0 := by omega
    subst hk0
    simp only [walk, Option.some.injEq] at hw
    subst hw
    rfl
  | succ h ih =>
    intro k n a x hk hw
    cases k with
    | zero =>
      simp only [walk, Option.some.injEq] at hw
      subst hw
      rfl
    | succ k =>
      rw [walk] at hw
      rw [descend]
      cases hs : n.sub (idx (a >>> (4 * h))) with
      | none => rw [hs] at hw; exact absurd hw (by simp)
      | some c =>
        rw [hs] at hw
        rw [show h + 1 - (k + 1) = h - k by omega]
        exact ih k c a x (by omega) hw

/-- A write through a leaf pointer leaves the fences of the nodes above the leaf alone. -/
theorem lw_walk : ∀ (h k : Nat) (n : arpn) (a : Nat) (l x : arpn), k < h →
    walk h k (leaf_write h n a l) a = some x →
    ∃ y, walk h k n a = some y ∧ x.first = y.first ∧ x.last = y.last := by
  intro h
  induction h with
  | zero => intro k n a l x hk _; exact absurd hk (Nat.not_lt_zero _)
  | succ h ih =>
    intro k n a l x hk hw
    cases k with
    | zero =>
      simp only [walk, Option.some.injEq] at hw
      subst hw
      exact ⟨n, rfl, lw_first h n a l, lw_last h n a l⟩
    | succ k =>
      rw [leaf_write] at hw
      cases hs : n.sub (idx (a >>> (4 * h))) with
      | none =>
        rw [hs] at hw
        exact ⟨x, hw, rfl, rfl⟩
      | some c =>
        rw [hs] at hw
        rw [walk, set_sub_sub, Function.update_same] at hw
        rw [walk, hs]
        exact ih k c a l x (Nat.lt_of_succ_lt_succ hk) hw


/-- The sweep of the parent of a leaf removes the leaf when its `last` is below
the cutoff, whatever its flags. -/
theorem expire_leaf_slot (P l : arpn) (i : Fin 16) (cutoff : Nat) (m : Mem) (hwf : WF 1 P)
    (hs : P.sub i = some l) (hl : l.last < cutoff) :
    ∃ P' m', arp_expire 1 P cutoff m = .ok (P', m') ∧ P'.sub i = none := by
  obtain ⟨m', hexp⟩ := arp_expire_refines 0 P cutoff m hwf
  refine ⟨_, m', hexp, ?_⟩
  have hp : l.plen = 32 := (hwf.2 i l hs).2
  have hpl : ¬ (l.plen < 32 ∧ l.first < cutoff) := by omega
  rw [exp_tree_sub, hs, exp_kid_eq, if_neg hpl, if_pos hl]

/-- C19. On a well-formed trie `arp_reserve a` returns 0 or -1.  When it
returns 0, the leaf of `a` has `first = last = 0` and `reserved` set, while
every node above it on the path of `a` has the fences that the `arp_insert`
inside the call left (they are not lowered along with the leaf).  The sweep
does not look at `reserved`: for every cutoff above 0, `arp_expire` called on
the parent of that leaf returns with the slot of `a` empty.  And an address
without a leaf is an ordinary one: the next who-has request for it (in scope,
from another sender, clock past `ARP_EXPIRE`, allocations succeeding) leaves
it with a leaf that is neither reserved nor claimed and has `nreq = 1`. -/
theorem reserved_expires (s : State) (ft a : Nat) (hs : s.wf) (ha : a < 2 ^ 32) :
    (∃ r s', arp_reserve s ft a = .ok (r, s') ∧ (r = 0 ∨ r = -1) ∧
      (r = 0 → ∃ l P rn n1 m1, arp_lookup_node s'.arp_root a = some l ∧
        l.first = 0 ∧ l.last = 0 ∧ l.reserved = true ∧
        walk 8 7 s'.arp_root a = some P ∧ P.sub (idx a) = some l ∧
        arp_insert 9 s.arp_root a ft s.mem = .ok (some rn, n1, m1) ∧
        (∀ k x, k < 8 → walk 8 k s'.arp_root a = some x →
          ∃ y, walk 8 k n1 a = some y ∧ x.oldest = y.oldest ∧ x.newest = y.newest) ∧
        (∀ cutoff m, 0 < cutoff →
          ∃ P' m', arp_expire 1 P cutoff m = .ok (P', m') ∧ P'.sub (idx a) = none))) ∧
    (∀ (s2 : State) (t1 : Nat) (dst_set : Option (Nat → Bool)) (iface : ether_addr)
      (reply_ok : Bool) (ap : arp_pkt) (len : Nat), s2.wf →
      arp_lookup_node s2.arp_root a = none → who_has_pkt ap len → ap.tpa = a →
      out_of_bounds dst_set ap.tpa = false → ap.spa ≠ ap.tpa → ARP_EXPIRE ≤ t1 →
      pkt_ret (packet_analyze_arp s2 t1 dst_set iface reply_ok ap len) = some 0 →
      ∃ s3 l1, packet_analyze_arp s2 t1 dst_set iface reply_ok ap len = .ok (0, s3, []) ∧
        arp_lookup_node s3.arp_root a = some l1 ∧
        l1.reserved = false ∧ l1.claimed = false ∧ l1.nreq = 1) := by
  constructor
  · obtain ⟨r, s', hres, hs', hcase⟩ := reserve_spec s ft a hs ha
    refine ⟨r, s', hres, ?_, fun hr0 => ?_⟩
    · rcases hcase with ⟨h, _⟩ | ⟨h, _⟩
      · exact Or.inl h
      · exact Or.inr h
    · rcases hcase with ⟨_, hroot⟩ | ⟨hm1, _⟩
      swap
      · rw [hr0] at hm1
        exact absurd hm1 (by decide)
      obtain ⟨r0, n1, m1, he, _, _, hic⟩ := insert_root_spec s a ft hs ha
      rcases hic with ⟨hr0', hn1⟩ | ⟨hnone, _, _⟩
      swap
      · unfold arp_reserve at hres
        rw [he, hnone] at hres
        simp only [Except.ok.injEq, Prod.mk.injEq] at hres
        rw [hr0] at hres
        exact absurd hres.1 (by decide)
      have hrn := rn_wf s a ft hs ha
      obtain ⟨_, _, hd, _⟩ := ins_write s a ft
        { touch (old_leaf 8 s.arp_root a) ft with first := 0, last := 0, reserved := true }
        hs ha hrn.1 hrn.2
      rw [← hroot] at hd
      obtain ⟨P, hP⟩ := walk_exists 8 7 s'.arp_root a _ hd (by decide)
      have hwd := walk_descend 8 7 s'.arp_root a P (by decide) hP
      rw [hd] at hwd
      have hPsub : P.sub (idx a) = some
          { touch (old_leaf 8 s.arp_root a) ft with first := 0, last := 0, reserved := true } := by
        have h1 : (8 : Nat) - 7 = 0 + 1 := rfl
        rw [h1, descend] at hwd
        simp only [Nat.mul_zero, Nat.shiftRight_zero] at hwd
        cases hsub : P.sub (idx a) with
        | none => rw [hsub] at hwd; exact absurd hwd (by simp)
        | some c =>
          rw [hsub] at hwd
          simp only [descend] at hwd
          rw [hwd]
      refine ⟨_, P, _, n1, m1, by rw [lookup_eq_descend]; exact hd, rfl, rfl, rfl, hP, hPsub,
        by rw [he, hr0'], ?_, ?_⟩
      · intro k x hk hw
        rw [hroot] at hw
        rw [hn1]
        obtain ⟨y, hy, h1, h2⟩ := lw_walk 8 k _ a _ x hk hw
        exact ⟨y, hy, h1, h2⟩
      · intro cutoff m hpos
        exact expire_leaf_slot P _ (idx a) cutoff m
          (walk_WF 8 7 s'.arp_root a P hs'.1 (by decide) hP) hPsub hpos
  · intro s2 t1 dst_set iface reply_ok ap len hs2 hnone hp htpa hin hne hft hret
    subst htpa
    rw [lookup_eq_descend] at hnone
    obtain ⟨s3, l1, hpk, _, hl1, hpr⟩ := probe_first s2 t1 dst_set iface reply_ok ap len hs2 hp
      hin hne hft (fun l hl => by rw [hnone] at hl; exact absurd hl (by simp)) hret
    exact ⟨s3, l1, hpk, by rw [lookup_eq_descend]; exact hl1, hpr.1, hpr.2.1, hpr.2.2.1⟩

/-- Witness for C19: 10.0.0.5 is reserved at 900000 ms in the empty trie (the
call returns 0); `arp_periodic` at 1300 s sweeps with cutoff 1000000 and
removes its leaf; four requests at 1300000, 1301000, 1302000 and 1303000 ms
then claim the address, whose new leaf is not reserved. -/
theorem reserved_expires_witness :
    (∃ r s', arp_reserve (State.init []) 900000 0x0a000005 = .ok (r, s') ∧ (r = 0 ∨ r = -1)) ∧
    (arp_lookup_node ex_reserved.arp_root 0x0a000005).map
      (fun l => (l.reserved, l.first, l.last)) = some (true, 0, 0) ∧
    sub64 (1300 * 1000 % 2 ^ 64) ARP_EXPIRE = 1000000 ∧
    (arp_lookup_node ex_reserved_swept.arp_root 0x0a000005).isNone = true ∧
    (arp_lookup_node (ex_reprobe [1300000, 1301000, 1302000, 1303000]).arp_root 0x0a000005).map
      (fun l => (l.reserved, l.claimed, l.ether)) = some (false, true, ex_iface) :=
  ⟨match (reserved_expires (State.init []) 900000 0x0a000005 (wf_init []) (by decide)).1 with
    | ⟨r, s', h1, h2, _⟩ => ⟨r, s', h1, h2⟩,
   by decide, by decide, by decide, by decide⟩

/-! ## Fresh paths through a packet -/

theorem path_fresh_descend : ∀ (h : Nat) (n : arpn) (b c : Nat), path_fresh (h + 1) n b c →
    ∃ l, descend (h + 1) n b = some l ∧ c ≤ l.last := by
  intro h
  induction h with
  | zero =>
    intro n b c hpf
    obtain ⟨sn, hs, hsn, _⟩ := hpf
    exact ⟨sn, by simp only [descend, hs], hsn⟩
  | succ h ih =>
    intro n b c hpf
    obtain ⟨sn, hs, _, hrest⟩ := hpf
    obtain ⟨l, hl, hc⟩ := ih sn b c hrest
    exact ⟨l, by rw [descend, hs]; exact hl, hc⟩

/-- An insertion keeps every fresh path fresh. -/
theorem ins_fresh : ∀ (h : Nat) (n : arpn) (a ft b c : Nat), path_fresh h n b c →
    path_fresh h (ins_tree h n a ft) b c := by
  intro h
  induction h with
  | zero => intro n a ft b c _; trivial
  | succ h ih =>
    intro n a ft b c hpf
    obtain ⟨sn, hs, hsn, hrest⟩ := hpf
    by_cases hi : idx (b >>> (4 * h)) = idx (a >>> (4 * h))
    · rw [hi] at hs
      simp only [ins_tree, path_fresh, bump_sub, set_sub_sub, hs, hi, Function.update_same]
      exact ⟨_, rfl, le_trans hsn (ins_tree_last_mono h sn a ft), ih sn a ft b c hrest⟩
    · simp only [ins_tree, path_fresh, bump_sub, set_sub_sub, Function.update_noteq hi]
      exact ⟨sn, hs, hsn, hrest⟩

/-- A write through a leaf pointer keeps every fresh path fresh when the leaf
written is fresh. -/
theorem lw_fresh : ∀ (h : Nat) (n : arpn) (a : Nat) (l : arpn) (b c : Nat),
    path_fresh h n b c → c ≤ l.last → path_fresh h (leaf_write h n a l) b c := by
  intro h
  induction h with
  | zero => intro n a l b c _ _; trivial
  | succ h ih =>
    intro n a l b c hpf hl
    obtain ⟨sn, hs, hsn, hrest⟩ := hpf
    rw [leaf_write]
    cases hsa : n.sub (idx (a >>> (4 * h))) with
    | none => exact ⟨sn, hs, hsn, hrest⟩
    | some ca =>
      simp only
      by_cases hi : idx (b >>> (4 * h)) = idx (a >>> (4 * h))
      · rw [hi, hsa, Option.some.injEq] at hs
        subst hs
        simp only [path_fresh, set_sub_sub, hi, Function.update_same]
        refine ⟨_, rfl, ?_, ih ca a l b c hrest hl⟩
        cases h with
        | zero => exact hl
        | succ h => rw [arpn.newest, lw_last]; exact hsn
      · simp only [path_fresh, set_sub_sub, Function.update_noteq hi]
        exact ⟨sn, hs, hsn, hrest⟩

/-- A failed insertion keeps every fresh path fresh. -/
theorem insert_fail_fresh : ∀ (h : Nat) (n : arpn) (a ft : Nat) (m : Mem)
    (n' : arpn) (m' : Mem), WF h n → a < 2 ^ 32 → covers h n a →
    arp_insert (h + 1) n a ft m = .ok (none, n', m') →
    ∀ b c, path_fresh h n b c → path_fresh h n' b c := by
  intro h
  induction h with
  | zero => intro n a ft m n' m' _ _ _ _ b c _; trivial
  | succ h ih =>
    intro n a ft m n' m' hwf ha hc he b c hpf
    have hwf' := hwf
    obtain ⟨hp, hch⟩ := hwf
    have h1 : n.plen ≠ 32 := by omega
    have h2 : (n.plen + 4) % 256 = 32 - 4 * h := by omega
    have h3 : 32 - (32 - 4 * h) = 4 * h := by omega
    have he' := he
    rw [arp_insert] at he
    simp only [h1, if_false, h2, h3, idx_mod] at he
    obtain ⟨sn, hs, hsn, hrest⟩ := hpf
    have hset : ∀ sn' : arpn, (∀ x, n.sub (idx (a >>> (4 * h))) = some x →
        x.last ≤ sn'.last ∧ (path_fresh h x b c → path_fresh h sn' b c)) →
        path_fresh (h + 1) (n.set_sub (idx (a >>> (4 * h))) (some sn')) b c := by
      intro sn' hx
      by_cases hi : idx (b >>> (4 * h)) = idx (a >>> (4 * h))
      · rw [hi] at hs
        obtain ⟨q1, q2⟩ := hx sn hs
        simp only [path_fresh, set_sub_sub, hi, Function.update_same]
        exact ⟨_, rfl, le_trans hsn q1, q2 hrest⟩
      · simp only [path_fresh, set_sub_sub, Function.update_noteq hi]
        exact ⟨sn, hs, hsn, hrest⟩
    cases hsa : n.sub (idx (a >>> (4 * h))) with
    | some ca =>
      obtain ⟨hsa', hswf⟩ := hch _ _ hsa
      have hcc := covers_child h n ca a hc hsa'
      obtain ⟨r0, sn', m0, he0, _⟩ := arp_insert_spec h ca a ft m hswf ha hcc
      simp only [hsa, he0] at he
      cases r0 with
      | none =>
        simp only [Except.ok.injEq, Prod.mk.injEq, true_and] at he
        obtain ⟨rfl, rfl⟩ := he
        apply hset
        intro x hx
        rw [hsa, Option.some.injEq] at hx
        subst hx
        have hfr := (insert_fail h ca a ft m none sn' m0 hswf ha hcc he0).2 rfl
        exact ⟨le_of_eq hfr.2.1.symm, ih ca a ft m sn' m0 hswf ha hcc he0 b c⟩
      | some rn =>
        simp only [Except.ok.injEq, Prod.mk.injEq] at he
        exact absurd he.1 (by simp)
    | none =>
      simp only [hsa, arp_new] at he
      rcases hcal : calloc m with ⟨bb, m1⟩
      rw [hcal] at he
      cases bb with
      | false =>
        simp only [Except.ok.injEq, Prod.mk.injEq, true_and] at he
        obtain ⟨rfl, _⟩ := he
        exact ⟨sn, hs, hsn, hrest⟩
      | true =>
        simp only at he
        have hh : 4 * h ≤ 32 := by omega
        have hnwf := WF_new_node h a hh
        have hncov : covers h (new_node a (32 - 4 * h)) a := (new_node_addr a h ha hh).symm
        generalize (if (new_node a (32 - 4 * h)).plen = 32 then
          ({ narpn := (m1.narpn + 1) % 2 ^ 32, nleaves := (m1.nleaves + 1) % 2 ^ 32, heap := m1.heap } : Mem)
          else { narpn := (m1.narpn + 1) % 2 ^ 32, nleaves := m1.nleaves, heap := m1.heap }) = m2 at he
        obtain ⟨r0, sn', m0, he0, _⟩ := arp_insert_spec h _ a ft m2 hnwf ha hncov
        simp only [he0] at he
        cases r0 with
        | none =>
          simp only [Except.ok.injEq, Prod.mk.injEq, true_and] at he
          obtain ⟨rfl, _⟩ := he
          rw [set_sub_set_sub]
          apply hset
          intro x hx
          rw [hsa] at hx
          exact absurd hx (by simp)
        | some rn =>
          simp only [Except.ok.injEq, Prod.mk.injEq] at he
          exact absurd he.1 (by simp)


theorem insert_root_fresh (s : State) (a ft : Nat) (r : Option arpn) (n' : arpn) (m' : Mem)
    (hs : s.wf) (ha : a < 2 ^ 32)
    (he : arp_insert 9 s.arp_root a ft s.mem = .ok (r, n', m')) :
    WF 8 n' ∧ n'.addr = 0 ∧ (∀ b c, path_fresh 8 s.arp_root b c → path_fresh 8 n' b c) ∧
      ((r = some (touch (old_leaf 8 s.arp_root a) ft) ∧ n' = ins_tree 8 s.arp_root a ft) ∨
        r = none) := by
  obtain ⟨r1, n1, m1, he1, hwf, hadd, hcase⟩ := insert_root_spec s a ft hs ha
  have he2 := he
  rw [he1, Except.ok.injEq, Prod.mk.injEq, Prod.mk.injEq] at he2
  obtain ⟨rfl, rfl, rfl⟩ := he2
  rcases hcase with ⟨hr, hn⟩ | ⟨hr, _, _⟩
  · refine ⟨hwf, hadd, fun b c hpf => ?_, Or.inl ⟨hr, hn⟩⟩
    rw [hn]
    exact ins_fresh 8 _ a ft b c hpf
  · subst hr
    exact ⟨hwf, hadd, insert_fail_fresh 8 s.arp_root a ft s.mem n1 m1 hs.1 ha
      (wf_covers s a hs ha) he, Or.inr rfl⟩

theorem ins_write_fresh (s : State) (a ft : Nat) (l : arpn) (hs : s.wf) (ha : a < 2 ^ 32)
    (hl1 : l.plen = 32) (hl2 : l.addr = a) (hl3 : ft ≤ l.last) (m : Mem) :
    State.wf { arp_root := leaf_write 8 (ins_tree 8 s.arp_root a ft) a l, mem := m } ∧
    (∀ b c, c ≤ ft → path_fresh 8 s.arp_root b c →
      path_fresh 8 (leaf_write 8 (ins_tree 8 s.arp_root a ft) a l) b c) ∧
    (∀ c, c ≤ ft → path_fresh 8 (leaf_write 8 (ins_tree 8 s.arp_root a ft) a l) a c) := by
  obtain ⟨h1, h2, _, _, h5⟩ := ins_write s a ft l hs ha hl1 hl2
  refine ⟨wf_mk _ _ h1 h2, fun b c hc hpf => ?_, fun c hc => h5 c hc (le_trans hc hl3)⟩
  exact lw_fresh 8 _ a l b c (ins_fresh 8 _ a ft b c hpf) (le_trans hc hl3)

/-- A registration at clock `ft` keeps every path that is fresh for a cutoff
up to `ft` fresh, and makes the path of the registered address such a path
when it returns 0. -/
theorem register_fresh (s : State) (a ft : Nat) (e : ether_addr) (r : Int) (s' : State)
    (hs : s.wf) (ha : a < 2 ^ 32) (he : arp_register s ft a e = .ok (r, s')) :
    s'.wf ∧ (∀ b c, c ≤ ft → path_fresh 8 s.arp_root b c → path_fresh 8 s'.arp_root b c) ∧
      (r = 0 → ∀ c, c ≤ ft → path_fresh 8 s'.arp_root a c) := by
  unfold arp_register at he
  cases hins : arp_insert 9 s.arp_root a ft s.mem with
  | error x => rw [hins] at he; exact absurd he (by simp)
  | ok x =>
    obtain ⟨r0, n0, m0⟩ := x
    obtain ⟨q1, q2, q3, q4⟩ := insert_root_fresh s a ft r0 n0 m0 hs ha hins
    rw [hins] at he
    rcases q4 with ⟨q5, q6⟩ | q5
    · rw [q5] at he
      simp only [register_leaf_eq, Except.ok.injEq, Prod.mk.injEq] at he
      obtain ⟨_, hs'⟩ := he
      rw [← hs', q6]
      have hlast : ft ≤ ({ touch (old_leaf 8 s.arp_root a) ft with ether := e, nreq := 0 } : arpn).last := by
        show ft ≤ (touch (old_leaf 8 s.arp_root a) ft).last
        rw [touch_last]
        exact le_max_right _ _
      obtain ⟨w1, w2, w3⟩ := ins_write_fresh s a ft
        { touch (old_leaf 8 s.arp_root a) ft with ether := e, nreq := 0 } hs ha
        (rn_wf s a ft hs ha).1 (rn_wf s a ft hs ha).2 hlast m0
      refine ⟨w1, ?_, fun _ => ?_⟩
      · dsimp only; exact w2
      · dsimp only; exact w3
    · rw [q5] at he
      simp only [Except.ok.injEq, Prod.mk.injEq] at he
      obtain ⟨hr, hs'⟩ := he
      rw [← hs']
      refine ⟨wf_mk _ _ q1 q2, fun b c _ hpf => q3 b c hpf, fun h0 => ?_⟩
      rw [← hr] at h0
      exact absurd h0 (by decide)

/-- The who-has case at clock `ft` keeps every path that is fresh for a cutoff
up to `ft` fresh, and makes the path of the target such a path when
`arp_insert` returns its leaf. -/
theorem analyze_who_has_fresh (s : State) (ft : Nat) (dst_set : Option (Nat → Bool))
    (iface : ether_addr) (reply_ok : Bool) (ap : arp_pkt) (r : Option Int) (s2 : State)
    (out : List arp_pkt) (r1 : Int) (s1 : State) (hs : s.wf)
    (hspa : ap.spa < 2 ^ 32) (htpa : ap.tpa < 2 ^ 32)
    (hin : out_of_bounds dst_set ap.tpa = false)
    (hreg : arp_register s ft ap.spa ap.sha = .ok (r1, s1))
    (he : analyze_who_has s ft dst_set iface reply_ok ap = .ok (r, s2, out)) :
    s2.wf ∧ (∀ b c, c ≤ ft → path_fresh 8 s1.arp_root b c → path_fresh 8 s2.arp_root b c) ∧
      ((insert_ret (arp_insert 9 s1.arp_root ap.tpa ft s1.mem)).isSome = true →
        ∀ c, c ≤ ft → path_fresh 8 s2.arp_root ap.tpa c) ∧
      (r = none ∨ r = some (-1)) := by
  have hs1 := register_wf s s1 ft ap.spa ap.sha r1 hs hspa hreg
  unfold analyze_who_has at he
  rw [hin] at he
  simp only [Bool.false_eq_true, if_false, hreg] at he
  cases hins : arp_insert 9 s1.arp_root ap.tpa ft s1.mem with
  | error x => rw [hins] at he; exact absurd he (by simp)
  | ok x =>
    obtain ⟨r0, n0, m0⟩ := x
    obtain ⟨q1, q2, q3, q4⟩ := insert_root_fresh s1 ap.tpa ft r0 n0 m0 hs1 htpa hins
    rw [hins] at he
    rcases q4 with ⟨q5, q6⟩ | q5
    · rw [q5] at he
      simp only at he
      have hrn := rn_wf s1 ap.tpa ft hs1 htpa
      have hfr := analyze_target_frame (touch (old_leaf 8 s1.arp_root ap.tpa) ft) ft iface ap
      have hlast : ft ≤ (analyze_target (touch (old_leaf 8 s1.arp_root ap.tpa) ft) ft iface ap).1.last :=
        analyze_target_last_ge _ ft ft iface ap (le_refl _)
          (by rw [touch_last]; exact le_max_right _ _)
      obtain ⟨w1, w2, w3⟩ := ins_write_fresh s1 ap.tpa ft
        (analyze_target (touch (old_leaf 8 s1.arp_root ap.tpa) ft) ft iface ap).1 hs1 htpa
        (by rw [hfr.1, hrn.1]) (by rw [hfr.2.1, hrn.2]) hlast m0
      rw [q6] at he
      rcases hat : analyze_target (touch (old_leaf 8 s1.arp_root ap.tpa) ft) ft iface ap with
        ⟨an, rep⟩
      rw [hat] at he w1 w2 w3
      cases rep with
      | none =>
        simp only [Except.ok.injEq, Prod.mk.injEq] at he
        obtain ⟨hr, hs2, _⟩ := he
        rw [← hs2]
        refine ⟨w1, ?_, fun _ => ?_, Or.inl hr.symm⟩
        · dsimp only; exact w2
        · dsimp only; exact w3
      | some rp =>
        simp only [Except.ok.injEq, Prod.mk.injEq] at he
        obtain ⟨hr, hs2, _⟩ := he
        rw [← hs2]
        refine ⟨w1, ?_, fun _ => ?_, ?_⟩
        · dsimp only; exact w2
        · dsimp only; exact w3
        · rw [← hr]
          cases reply_ok
          · right; rfl
          · left; rfl
    · rw [q5] at he
      simp only [Except.ok.injEq, Prod.mk.injEq] at he
      obtain ⟨hr, hs2, _⟩ := he
      rw [← hs2]
      refine ⟨wf_mk _ _ q1 q2, fun b c _ hpf => q3 b c hpf, fun hsome => ?_, Or.inr hr.symm⟩
      rw [q5] at hsome
      exact absurd hsome (by simp [insert_ret])


theorem packet_is_at_ok (s : State) (ft : Nat) (dst_set : Option (Nat → Bool))
    (iface : ether_addr) (reply_ok : Bool) (ap : arp_pkt) (len : Nat) (hp : is_at_pkt ap len)
    (s2 s3 : State) (h1 : analyze_is_at s ft ap = .ok s2) (h2 : run_expiry s2 ft = .ok s3) :
    packet_analyze_arp s ft dst_set iface reply_ok ap len = .ok (0, s3, []) := by
  obtain ⟨q1, q2, q3, q4, q5, q6, _, _⟩ := hp
  have hne : ¬ ap.oper = arp_oper_who_has := by
    rw [q6]
    decide
  unfold packet_analyze_arp
  rw [if_neg (by omega), if_neg (by simp [q2, q3, q4, q5]), if_neg hne, if_pos q6]
  simp only [h1, h2]

/-- A leaf on a path that is fresh for the cutoff of the closing sweep is
still there, unchanged, after the sweep. -/
theorem run_expiry_fresh (s s' : State) (ft b : Nat) (hs : s.wf) (hft : ARP_EXPIRE ≤ ft)
    (he : run_expiry s ft = .ok s') (hpf : path_fresh 8 s.arp_root b (ft - ARP_EXPIRE)) :
    ∃ l, arp_lookup_node s.arp_root b = some l ∧ arp_lookup_node s'.arp_root b = some l ∧
      ft - ARP_EXPIRE ≤ l.last := by
  obtain ⟨l, hl, hc⟩ := path_fresh_descend 7 s.arp_root b _ hpf
  refine ⟨l, by rw [lookup_eq_descend]; exact hl, ?_, hc⟩
  rw [lookup_eq_descend, run_expiry_keeps s s' ft b hs he (by rw [sub64_expire ft hft]; exact hpf)]
  exact hl

/-- C20. With the clock at `ft_time >= 300000` the cutoff of the closing sweep
is `ft_time - 300000`, without wrap-around, and on a well-formed trie a
who-has request in scope, or an is-at reply, is processed to the end with
every leaf it inserted or registered still present when the call returns, its
`last` not below the cutoff: the sender's leaf when its `arp_register` returned
0, the target's leaf when `arp_insert` (who-has) returned it resp. when its
`arp_register` (is-at) returned 0.  For `ft_time < 300000` the cutoff is
`ft_time + 2^64 - 300000`, above every such clock value; a who-has request
received at 1000 ms on the empty trie returns 0 and leaves neither the
sender's nor the target's leaf behind. -/
theorem sweep_keeps_fresh (s : State) (ft : Nat) (dst_set : Option (Nat → Bool))
    (iface : ether_addr) (reply_ok : Bool) (ap : arp_pkt) (len : Nat)
    (hs : s.wf) (hft : ARP_EXPIRE ≤ ft) :
    sub64 ft ARP_EXPIRE = ft - ARP_EXPIRE ∧
    (who_has_pkt ap len → out_of_bounds dst_set ap.tpa = false →
      ∃ r1 s1 r s' out, arp_register s ft ap.spa ap.sha = .ok (r1, s1) ∧
        packet_analyze_arp s ft dst_set iface reply_ok ap len = .ok (r, s', out) ∧
        (r1 = 0 → ∃ l, arp_lookup_node s'.arp_root ap.spa = some l ∧ ft - ARP_EXPIRE ≤ l.last) ∧
        ((insert_ret (arp_insert 9 s1.arp_root ap.tpa ft s1.mem)).isSome = true →
          ∃ l, arp_lookup_node s'.arp_root ap.tpa = some l ∧ ft - ARP_EXPIRE ≤ l.last)) ∧
    (is_at_pkt ap len →
      ∃ r1 s1 r2 s2 s', arp_register s ft ap.spa ap.sha = .ok (r1, s1) ∧
        arp_register s1 ft ap.tpa ap.tha = .ok (r2, s2) ∧
        packet_analyze_arp s ft dst_set iface reply_ok ap len = .ok (0, s', []) ∧
        (r1 = 0 → ∃ l, arp_lookup_node s'.arp_root ap.spa = some l ∧ ft - ARP_EXPIRE ≤ l.last) ∧
        (r2 = 0 → ∃ l, arp_lookup_node s'.arp_root ap.tpa = some l ∧ ft - ARP_EXPIRE ≤ l.last)) ∧
    (∀ t, t < ARP_EXPIRE → sub64 t ARP_EXPIRE = t + 2 ^ 64 - ARP_EXPIRE ∧
      ∀ t', t' < 2 ^ 64 - ARP_EXPIRE → t' < sub64 t ARP_EXPIRE) ∧
    (pkt_ret (ex_step (State.init []) 1000) = some 0 ∧
      arp_lookup (pkt_state (ex_step (State.init []) 1000)) ex_who_has.spa = none ∧
      arp_lookup (pkt_state (ex_step (State.init []) 1000)) ex_who_has.tpa = none) := by
  have hcut : ft - ARP_EXPIRE ≤ ft := Nat.sub_le _ _
  refine ⟨sub64_expire ft hft, fun hp hin => ?_, fun hp => ?_, fun t ht => ?_,
    by decide, by decide, by decide⟩
  · have hspa := hp.2.2.2.2.2.2.1
    have htpa := hp.2.2.2.2.2.2.2
    obtain ⟨r1, s1, hreg, hs1, r, s2, out, haw, hs2, _⟩ :=
      analyze_who_has_spec s ft dst_set iface reply_ok ap hs hspa htpa hin
    obtain ⟨_, _, f3⟩ := register_fresh s ap.spa ft ap.sha r1 s1 hs hspa hreg
    obtain ⟨_, g2, g3, g4⟩ := analyze_who_has_fresh s ft dst_set iface reply_ok ap r s2 out r1 s1
      hs hspa htpa hin hreg haw
    rcases g4 with hr | hr
    · subst hr
      obtain ⟨s3, he, _, _⟩ := run_expiry_spec s2 ft hs2
      refine ⟨r1, s1, 0, s3, out, hreg,
        packet_who_has_none s ft dst_set iface reply_ok ap len hp s2 s3 out haw he,
        fun h0 => ?_, fun hsome => ?_⟩
      · obtain ⟨l, _, hl, hc⟩ := run_expiry_fresh s2 s3 ft ap.spa hs2 hft he
          (g2 _ _ hcut (f3 h0 _ hcut))
        exact ⟨l, hl, hc⟩
      · obtain ⟨l, _, hl, hc⟩ := run_expiry_fresh s2 s3 ft ap.tpa hs2 hft he (g3 hsome _ hcut)
        exact ⟨l, hl, hc⟩
    · subst hr
      refine ⟨r1, s1, -1, s2, out, hreg, ?_, fun h0 => ?_, fun hsome => ?_⟩
      · rw [packet_who_has_eq s ft dst_set iface reply_ok ap len hp, haw]
      · obtain ⟨l, hl, hc⟩ := path_fresh_descend 7 s2.arp_root ap.spa _
          (g2 _ _ hcut (f3 h0 _ hcut))
        exact ⟨l, by rw [lookup_eq_descend]; exact hl, hc⟩
      · obtain ⟨l, hl, hc⟩ := path_fresh_descend 7 s2.arp_root ap.tpa _ (g3 hsome _ hcut)
        exact ⟨l, by rw [lookup_eq_descend]; exact hl, hc⟩
  · have hspa := hp.2.2.2.2.2.2.1
    have htpa := hp.2.2.2.2.2.2.2
    obtain ⟨r1, s1, hreg1, hs1, _⟩ := register_spec s ft ap.spa ap.sha hs hspa
    obtain ⟨r2, s2, hreg2, hs2, _⟩ := register_spec s1 ft ap.tpa ap.tha hs1 htpa
    obtain ⟨_, _, f3⟩ := register_fresh s ap.spa ft ap.sha r1 s1 hs hspa hreg1
    obtain ⟨_, g2, g3⟩ := register_fresh s1 ap.tpa ft ap.tha r2 s2 hs1 htpa hreg2
    obtain ⟨s3, he, _, _⟩ := run_expiry_spec s2 ft hs2
    have hia : analyze_is_at s ft ap = .ok s2 := by
      unfold analyze_is_at
      simp only [hreg1, hreg2]
    refine ⟨r1, s1, r2, s2, s3, hreg1, hreg2,
      packet_is_at_ok s ft dst_set iface reply_ok ap len hp s2 s3 hia he,
      fun h0 => ?_, fun h0 => ?_⟩
    · obtain ⟨l, _, hl, hc⟩ := run_expiry_fresh s2 s3 ft ap.spa hs2 hft he
        (g2 _ _ hcut (f3 h0 _ hcut))
      exact ⟨l, hl, hc⟩
    · obtain ⟨l, _, hl, hc⟩ := run_expiry_fresh s2 s3 ft ap.tpa hs2 hft he (g3 h0 _ hcut)
      exact ⟨l, hl, hc⟩
  · have hlt : ¬ ARP_EXPIRE ≤ t := Nat.not_le.2 ht
    have heq : sub64 t ARP_EXPIRE = t + 2 ^ 64 - ARP_EXPIRE := by
      unfold sub64
      rw [if_neg hlt]
    refine ⟨heq, fun t' ht' => ?_⟩
    rw [heq]
    unfold ARP_EXPIRE at ht' ⊢
    omega

/-- Witness for C20: "who-has 10.0.0.5 tell 10.0.0.1" and "10.0.0.5 is-at
02:00:00:00:00:05", each received at 1000000 ms on the empty trie. -/
theorem sweep_keeps_fresh_witness :
    (∃ r1 s1 r s' out, arp_register (State.init []) 1000000 ex_who_has.spa ex_who_has.sha =
        .ok (r1, s1) ∧
      packet_analyze_arp (State.init []) 1000000 none ex_iface true ex_who_has 28 =
        .ok (r, s', out) ∧
      (r1 = 0 → ∃ l, arp_lookup_node s'.arp_root ex_who_has.spa = some l ∧
        1000000 - ARP_EXPIRE ≤ l.last) ∧
      ((insert_ret (arp_insert 9 s1.arp_root ex_who_has.tpa 1000000 s1.mem)).isSome = true →
        ∃ l, arp_lookup_node s'.arp_root ex_who_has.tpa = some l ∧
          1000000 - ARP_EXPIRE ≤ l.last)) ∧
    (∃ r1 s1 r2 s2 s', arp_register (State.init []) 1000000 ex_is_at.spa ex_is_at.sha =
        .ok (r1, s1) ∧
      arp_register s1 1000000 ex_is_at.tpa ex_is_at.tha = .ok (r2, s2) ∧
      packet_analyze_arp (State.init []) 1000000 none ex_iface true ex_is_at 28 =
        .ok (0, s', []) ∧
      (r1 = 0 → ∃ l, arp_lookup_node s'.arp_root ex_is_at.spa = some l ∧
        1000000 - ARP_EXPIRE ≤ l.last) ∧
      (r2 = 0 → ∃ l, arp_lookup_node s'.arp_root ex_is_at.tpa = some l ∧
        1000000 - ARP_EXPIRE ≤ l.last)) :=
  ⟨(sweep_keeps_fresh (State.init []) 1000000 none ex_iface true ex_who_has 28 (wf_init [])
      (by decide)).2.1 (by decide) rfl,
   (sweep_keeps_fresh (State.init []) 1000000 none ex_iface true ex_is_at 28 (wf_init [])
      (by decide)).2.2.1 (by decide)⟩

/-! ## The address-range set: membership and count -/

theorem ip4s_lookup_halves (k base : Nat) (n : ip4s_node) (a : Nat) :
    ip4s_lookup_at (k + 1) base n a =
      if a < base + 2 ^ k then ip4s_lookup_at k base (ip4s_halves n).1 a
      else ip4s_lookup_at k (base + 2 ^ k) (ip4s_halves n).2 a := by
  cases n with
  | empty => simp [ip4s_lookup_at, ip4s_halves]
  | full => simp [ip4s_lookup_at, ip4s_halves]
  | split lo hi => simp [ip4s_lookup_at, ip4s_halves]

theorem ip4s_halves_join (lo hi : ip4s_node) (k base a : Nat) :
    ip4s_lookup_at (k + 1) base (ip4s_join lo hi) a =
      if a < base + 2 ^ k then ip4s_lookup_at k base lo a
      else ip4s_lookup_at k (base + 2 ^ k) hi a := by
  rw [ip4s_lookup_halves]
  cases lo <;> cases hi <;> simp [ip4s_join, ip4s_halves, ip4s_lookup_at]

theorem ip4s_count_join (lo hi : ip4s_node) (k : Nat) :
    ip4s_count_at (k + 1) (ip4s_join lo hi) = ip4s_count_at k lo + ip4s_count_at k hi := by
  cases lo <;> cases hi <;> simp [ip4s_join, ip4s_count_at, pow_succ]
  omega

theorem ip4s_lookup_zero (base : Nat) (n : ip4s_node) (a : Nat) :
    ip4s_lookup_at 0 base n a = decide (n = .full) := by
  cases n <;> simp [ip4s_lookup_at]

/-- Membership after an insertion into a block. -/
theorem ip4s_insert_at_mem : ∀ (k base : Nat) (n : ip4s_node) (first last a : Nat),
    base ≤ a → a < base + 2 ^ k →
    ip4s_lookup_at k base (ip4s_insert_at k base n first last) a =
      (ip4s_lookup_at k base n a || decide (first ≤ a ∧ a ≤ last)) := by
  intro k
  induction k with
  | zero =>
    intro base n first last a h1 h2
    have ha : a = base := by simp at h2; omega
    subst ha
    rw [ip4s_insert_at]
    by_cases hc : first ≤ a ∧ a ≤ last
    · rw [if_pos hc]
      simp [ip4s_lookup_at, hc]
    · rw [if_neg hc]
      simp [hc]
  | succ k ih =>
    intro base n first last a h1 h2
    have hp : 2 ^ (k + 1) = 2 ^ k + 2 ^ k := by rw [pow_succ]; omega
    rw [ip4s_insert_at]
    by_cases hc1 : last < base ∨ base + 2 ^ (k + 1) ≤ first ∨ last < first
    · rw [if_pos hc1]
      have : ¬ (first ≤ a ∧ a ≤ last) := by omega
      simp [this]
    · rw [if_neg hc1]
      by_cases hc2 : first ≤ base ∧ base + 2 ^ (k + 1) - 1 ≤ last
      · rw [if_pos hc2]
        have : first ≤ a ∧ a ≤ last := by omega
        simp [ip4s_lookup_at, this]
      · rw [if_neg hc2, ip4s_halves_join, ip4s_lookup_halves k base n a]
        by_cases hlt : a < base + 2 ^ k
        · rw [if_pos hlt, if_pos hlt]
          exact ih base _ first last a h1 hlt
        · rw [if_neg hlt, if_neg hlt]
          exact ih (base + 2 ^ k) _ first last a (by omega) (by omega)

/-- Membership after a removal from a block. -/
theorem ip4s_remove_at_mem : ∀ (k base : Nat) (n : ip4s_node) (first last a : Nat),
    base ≤ a → a < base + 2 ^ k →
    ip4s_lookup_at k base (ip4s_remove_at k base n first last) a =
      (ip4s_lookup_at k base n a && !decide (first ≤ a ∧ a ≤ last)) := by
  intro k
  induction k with
  | zero =>
    intro base n first last a h1 h2
    have ha : a = base := by simp at h2; omega
    subst ha
    rw [ip4s_remove_at]
    by_cases hc : first ≤ a ∧ a ≤ last
    · rw [if_pos hc]
      simp [ip4s_lookup_at, hc]
    · rw [if_neg hc]
      simp [hc]
  | succ k ih =>
    intro base n first last a h1 h2
    have hp : 2 ^ (k + 1) = 2 ^ k + 2 ^ k := by rw [pow_succ]; omega
    rw [ip4s_remove_at]
    by_cases hc1 : last < base ∨ base + 2 ^ (k + 1) ≤ first ∨ last < first
    · rw [if_pos hc1]
      have : ¬ (first ≤ a ∧ a ≤ last) := by omega
      simp [this]
    · rw [if_neg hc1]
      by_cases hc2 : first ≤ base ∧ base + 2 ^ (k + 1) - 1 ≤ last
      · rw [if_pos hc2]
        have : first ≤ a ∧ a ≤ last := by omega
        simp [ip4s_lookup_at, this]
      · rw [if_neg hc2, ip4s_halves_join, ip4s_lookup_halves k base n a]
        by_cases hlt : a < base + 2 ^ k
        · rw [if_pos hlt, if_pos hlt]
          exact ih base _ first last a h1 hlt
        · rw [if_neg hlt, if_neg hlt]
          exact ih (base + 2 ^ k) _ first last a (by omega) (by omega)

theorem count_congr_lt (p q : Nat → Prop) [DecidablePred p] [DecidablePred q] :
    ∀ n, (∀ i, i < n → (p i ↔ q i)) → Nat.count p n = Nat.count q n := by
  intro n
  induction n with
  | zero => intro _; rfl
  | succ n ih =>
    intro h
    rw [Nat.count_succ, Nat.count_succ, ih (fun i hi => h i (Nat.lt_succ_of_lt hi))]
    by_cases hp : p n
    · rw [if_pos hp, if_pos ((h n (Nat.lt_succ_self n)).1 hp)]
    · rw [if_neg hp, if_neg (fun hq => hp ((h n (Nat.lt_succ_self n)).2 hq))]

theorem count_all (p : Nat → Prop) [DecidablePred p] :
    ∀ n, (∀ i, i < n → p i) → Nat.count p n = n := by
  intro n
  induction n with
  | zero => intro _; rfl
  | succ n ih =>
    intro h
    rw [Nat.count_succ, ih (fun i hi => h i (Nat.lt_succ_of_lt hi)), if_pos (h n (Nat.lt_succ_self n))]

theorem count_none (p : Nat → Prop) [DecidablePred p] :
    ∀ n, (∀ i, i < n → ¬ p i) → Nat.count p n = 0 := by
  intro n
  induction n with
  | zero => intro _; rfl
  | succ n ih =>
    intro h
    rw [Nat.count_succ, ih (fun i hi => h i (Nat.lt_succ_of_lt hi)), if_neg (h n (Nat.lt_succ_self n))]

/-- The count of a block is the number of its addresses that are members. -/
theorem ip4s_count_at_eq : ∀ (k base : Nat) (n : ip4s_node),
    ip4s_count_at k n = Nat.count (fun i => ip4s_lookup_at k base n (base + i) = true) (2 ^ k) := by
  intro k
  induction k with
  | zero =>
    intro base n
    cases n with
    | empty => simp [ip4s_count_at, ip4s_lookup_at, Nat.count_succ]
    | full => simp [ip4s_count_at, ip4s_lookup_at, Nat.count_succ]
    | split lo hi => simp [ip4s_count_at, ip4s_lookup_at, Nat.count_succ]
  | succ k ih =>
    intro base n
    cases n with
    | empty =>
      rw [count_none _ _ (fun i _ => by simp [ip4s_lookup_at])]
      rfl
    | full =>
      rw [count_all _ _ (fun i _ => by simp [ip4s_lookup_at])]
      rfl
    | split lo hi =>
      have hp : 2 ^ (k + 1) = 2 ^ k + 2 ^ k := by rw [pow_succ]; omega
      rw [hp, Nat.count_add, ip4s_count_at, ih base lo, ih (base + 2 ^ k) hi]
      congr 1
      · apply count_congr_lt
        intro i hi
        have hlt : base + i < base + 2 ^ k := by omega
        simp only [ip4s_lookup_at, if_pos hlt]
      · apply count_congr_lt
        intro i _
        have hlt : ¬ (base + (2 ^ k + i) < base + 2 ^ k) := by omega
        simp only [ip4s_lookup_at, if_neg hlt, Nat.add_assoc]

theorem ip4s_insert_mem (n : ip4s_node) (first last a : Nat) (ha : a < 2 ^ 32) :
    ip4s_lookup (ip4s_insert n first last) a =
      (ip4s_lookup n a || decide (first ≤ a ∧ a ≤ last)) := by
  unfold ip4s_lookup ip4s_insert
  exact ip4s_insert_at_mem 32 0 n first last a (Nat.zero_le _) (by omega)

theorem ip4s_remove_mem (n : ip4s_node) (first last a : Nat) (ha : a < 2 ^ 32) :
    ip4s_lookup (ip4s_remove n first last) a =
      (ip4s_lookup n a && !decide (first ≤ a ∧ a ≤ last)) := by
  unfold ip4s_lookup ip4s_remove
  exact ip4s_remove_at_mem 32 0 n first last a (Nat.zero_le _) (by omega)

theorem ip4s_insert_list_mem (a : Nat) (ha : a < 2 ^ 32) : ∀ (rs : List (Nat × Nat)) (n : ip4s_node),
    ip4s_lookup (rs.foldl (fun n r => ip4s_insert n r.1 r.2) n) a =
      (ip4s_lookup n a || in_ranges rs a) := by
  intro rs
  induction rs with
  | nil => intro n; simp [in_ranges]
  | cons r rs ih =>
    intro n
    rw [List.foldl_cons, ih, ip4s_insert_mem n r.1 r.2 a ha]
    simp [in_ranges, Bool.or_assoc]

theorem ip4s_remove_list_mem (a : Nat) (ha : a < 2 ^ 32) : ∀ (rs : List (Nat × Nat)) (n : ip4s_node),
    ip4s_lookup (rs.foldl (fun n r => ip4s_remove n r.1 r.2) n) a =
      (ip4s_lookup n a && !in_ranges rs a) := by
  intro rs
  induction rs with
  | nil => intro n; simp [in_ranges]
  | cons r rs ih =>
    intro n
    rw [List.foldl_cons, ih, ip4s_remove_mem n r.1 r.2 a ha]
    simp [in_ranges, Bool.and_assoc]

theorem ip4s_build_mem (ins rem : List (Nat × Nat)) (a : Nat) (ha : a < 2 ^ 32) :
    ip4s_lookup (ip4s_build ins rem) a = (in_ranges ins a && !in_ranges rem a) := by
  unfold ip4s_build
  rw [ip4s_remove_list_mem a ha, ip4s_insert_list_mem a ha]
  simp [ip4s_lookup, ip4s_new, ip4s_lookup_at]

/-- The set test cases of `t_ip4_set.c` pass on the model. -/
theorem t_ip4s_pass : t_ip4s_cases.all t_ip4s = true := by decide

/-- C12. For all lists of inclusive ranges `ins` and `rem`, in the set built by
inserting the ranges of `ins` into a fresh set and then removing the ranges of
`rem`, an address below `2^32` is a member exactly when it lies in a range of
`ins` and in no range of `rem`, and `ip4s_count` is the number of such
addresses, at most `2^32`: it is `2^32` for `0.0.0.0/0`, `2^32 - 2^17` for
`0.0.0.0/0` minus `172.16.0.0/15`, and 256 for `172.16.0.0/25` plus
`172.16.0.128/25`. -/
theorem ip4s_exact (ins rem : List (Nat × Nat)) :
    (∀ a, a < 2 ^ 32 →
      ip4s_lookup (ip4s_build ins rem) a = (in_ranges ins a && !in_ranges rem a)) ∧
    (∀ a, in_ranges ins a = true ↔ ∃ r, r ∈ ins ∧ r.1 ≤ a ∧ a ≤ r.2) ∧
    ip4s_count (ip4s_build ins rem) =
      Nat.count (fun a => in_ranges ins a = true ∧ in_ranges rem a = false) (2 ^ 32) ∧
    ip4s_count (ip4s_build ins rem) ≤ 2 ^ 32 ∧
    ip4s_count (ip4s_build [ip4_cidr (ip4 0 0 0 0) 0] []) = 2 ^ 32 ∧
    ip4s_count (ip4s_build [ip4_cidr (ip4 0 0 0 0) 0] [ip4_cidr (ip4 172 16 0 0) 15]) =
      2 ^ 32 - 2 ^ 17 ∧
    ip4s_count (ip4s_build [ip4_cidr (ip4 172 16 0 0) 25, ip4_cidr (ip4 172 16 0 128) 25] []) =
      256 := by
  have hcount : ip4s_count (ip4s_build ins rem) =
      Nat.count (fun a => in_ranges ins a = true ∧ in_ranges rem a = false) (2 ^ 32) := by
    unfold ip4s_count
    rw [ip4s_count_at_eq 32 0]
    apply count_congr_lt
    intro i hi
    have := ip4s_build_mem ins rem i hi
    unfold ip4s_lookup at this
    rw [Nat.zero_add, this]
    simp
  refine ⟨fun a ha => ip4s_build_mem ins rem a ha, fun a => ?_, hcount, ?_,
    by decide, by decide, by decide⟩
  · unfold in_ranges
    simp
  · rw [hcount]
    exact Nat.count_le _

/-- Witness for C12: membership of 172.15.255.255 in `0.0.0.0/0` minus `172.16.0.0/15`. -/
theorem ip4s_exact_witness :
    ip4s_lookup (ip4s_build [ip4_cidr (ip4 0 0 0 0) 0] [ip4_cidr (ip4 172 16 0 0) 15])
        (ip4 172 15 255 255) =
      (in_ranges [ip4_cidr (ip4 0 0 0 0) 0] (ip4 172 15 255 255) &&
        !in_ranges [ip4_cidr (ip4 172 16 0 0) 15] (ip4 172 15 255 255)) :=
  (ip4s_exact [ip4_cidr (ip4 0 0 0 0) 0] [ip4_cidr (ip4 172 16 0 0) 15]).1
    (ip4 172 15 255 255) (by decide)

/-! ## Registration and the flags -/

/-- One who-has request, target in scope, when the target has the leaf `l`
before the packet: the branch is taken on a leaf `lx` with the flags of `l`
(`l` itself when the sender is not the target), touched by `arp_insert`. -/
theorem packet_who_has_flagged (s : State) (ft : Nat) (dst_set : Option (Nat → Bool))
    (iface : ether_addr) (reply_ok : Bool) (ap : arp_pkt) (len : Nat) (l : arpn)
    (hs : s.wf) (hp : who_has_pkt ap len) (hin : out_of_bounds dst_set ap.tpa = false)
    (hl : descend 8 s.arp_root ap.tpa = some l) :
    ∃ lx r s', lx.reserved = l.reserved ∧ lx.claimed = l.claimed ∧
      (ap.spa ≠ ap.tpa → lx = l) ∧
      packet_analyze_arp s ft dst_set iface reply_ok ap len =
        .ok (r, s', (analyze_target (touch lx ft) ft iface ap).2.toList) ∧
      r = (if (analyze_target (touch lx ft) ft iface ap).2 = none ∨ reply_ok = true then 0
        else -1) ∧
      (∀ l', descend 8 s'.arp_root ap.tpa = some l' →
        l' = (analyze_target (touch lx ft) ft iface ap).1) := by
  have hspa := hp.2.2.2.2.2.2.1
  have htpa := hp.2.2.2.2.2.2.2
  obtain ⟨r1, s1, hreg, _⟩ := register_spec s ft ap.spa ap.sha hs hspa
  obtain ⟨lx, hlx, hr1, hc1, hsame⟩ :=
    register_flags s s1 ft ap.spa ap.sha r1 hs hspa hreg ap.tpa htpa l hl
  have hlx' : descend 8 (state_of (arp_register s ft ap.spa ap.sha)).arp_root ap.tpa = some lx := by
    rw [hreg]; exact hlx
  obtain ⟨_, _, r, s', _, _, _, hpk, hr, _, honly, _⟩ :=
    packet_who_has_found s ft dst_set iface reply_ok ap len hs hp hin lx hlx'
  exact ⟨lx, r, s', hr1, hc1, fun hne => hsame (Ne.symm hne), hpk, hr, honly⟩

/-- The reply of the who-has case is fixed by the flags of a leaf that is
reserved or claimed. -/
theorem analyze_target_flags (an an' : arpn) (ft : Nat) (iface : ether_addr) (ap : arp_pkt)
    (hr : an'.reserved = an.reserved) (hc : an'.claimed = an.claimed)
    (h : an.claimed = true ∨ an.reserved = true) :
    (analyze_target an' ft iface ap).2 = (analyze_target an ft iface ap).2 := by
  cases hres : an.reserved with
  | true =>
    rw [(analyze_target_reserved an ft iface ap hres).1,
      (analyze_target_reserved an' ft iface ap (by rw [hr, hres])).1]
  | false =>
    have hcl : an.claimed = true := by
      rcases h with h | h
      · exact h
      · rw [hres] at h
        exact absurd h (by decide)
    rw [(analyze_target_claimed an ft iface ap hres hcl).1,
      (analyze_target_claimed an' ft iface ap (by rw [hr, hres]) (by rw [hc, hcl])).1]


/-- C21. On a well-formed trie `arp_register a e` returns 0 or -1, and every
leaf that was there before is there afterwards with the same `claimed` and
`reserved` flags (a leaf of another address is unchanged altogether).  When `a`
had a leaf the call returns 0 and the leaf gets `ether = e` and `nreq = 0`
next to its old flags; a leaf that the call creates has both flags clear.  So
for a leaf that was claimed or reserved, a following who-has request for `a`
(in scope, at any time, from any sender) is handed the same replies as it
would have been without the registration; and if the leaf was claimed and not
reserved, that is exactly one is-at reply for `a` with the interface's address
as sender hardware address (return value 0, or -1 when `ethernet_reply`
fails), with the leaf still claimed afterwards. -/
theorem register_keeps_flags (s : State) (ft a : Nat) (e : ether_addr) (hs : s.wf)
    (ha : a < 2 ^ 32) :
    ∃ r s1, arp_register s ft a e = .ok (r, s1) ∧ (r = 0 ∨ r = -1) ∧
      (∀ b l, b < 2 ^ 32 → arp_lookup_node s.arp_root b = some l →
        ∃ l1, arp_lookup_node s1.arp_root b = some l1 ∧ l1.claimed = l.claimed ∧
          l1.reserved = l.reserved ∧ (b ≠ a → l1 = l)) ∧
      (arp_lookup_node s.arp_root a = none → r = 0 →
        ∃ l1, arp_lookup_node s1.arp_root a = some l1 ∧ l1.claimed = false ∧
          l1.reserved = false ∧ l1.ether = e) ∧
      (∀ l, arp_lookup_node s.arp_root a = some l →
        r = 0 ∧
        (∃ l1, arp_lookup_node s1.arp_root a = some l1 ∧ l1.claimed = l.claimed ∧
          l1.reserved = l.reserved ∧ l1.ether = e ∧ l1.nreq = 0) ∧
        ∀ (ft2 : Nat) (dst_set : Option (Nat → Bool)) (iface : ether_addr) (reply_ok : Bool)
          (ap : arp_pkt) (len : Nat), who_has_pkt ap len → ap.tpa = a →
          out_of_bounds dst_set ap.tpa = false →
          (l.claimed = true ∨ l.reserved = true →
            pkt_out (packet_analyze_arp s1 ft2 dst_set iface reply_ok ap len) =
              pkt_out (packet_analyze_arp s ft2 dst_set iface reply_ok ap len)) ∧
          (l.claimed = true → l.reserved = false →
            ∃ r2 s2, packet_analyze_arp s1 ft2 dst_set iface reply_ok ap len =
                .ok (r2, s2, [arp_reply iface ap]) ∧
              r2 = (if reply_ok = true then 0 else -1) ∧
              (arp_reply iface ap).oper = arp_oper_is_at ∧
              (arp_reply iface ap).sha = iface ∧ (arp_reply iface ap).spa = a ∧
              ∀ l2, arp_lookup_node s2.arp_root a = some l2 →
                l2.claimed = true ∧ l2.reserved = false ∧ l2.nreq = 0 ∧
                (ap.spa ≠ ap.tpa → l2.ether = e))) := by
  obtain ⟨r, s1, hreg, hs1, hcase⟩ := register_spec s ft a e hs ha
  have hr01 : r = 0 ∨ r = -1 := by
    rcases hcase with ⟨h, _⟩ | ⟨h, _⟩
    · exact Or.inl h
    · exact Or.inr h
  refine ⟨r, s1, hreg, hr01, fun b l hb hl => ?_, fun hnone hr0 => ?_, fun l hl => ?_⟩
  · rw [lookup_eq_descend] at hl
    obtain ⟨l1, h1, h2, h3, h4⟩ := register_flags s s1 ft a e r hs ha hreg b hb l hl
    exact ⟨l1, by rw [lookup_eq_descend]; exact h1, h3, h2, h4⟩
  · subst hr0
    rw [lookup_eq_descend] at hnone
    have hd := register_descend_self s s1 ft a e hs ha hreg
    rw [old_leaf_none 8 _ _ hnone] at hd
    refine ⟨_, by rw [lookup_eq_descend]; exact hd, ?_, ?_, rfl⟩
    · show (touch (new_node a 32) ft).claimed = false
      rw [touch_claimed]
      rfl
    · show (touch (new_node a 32) ft).reserved = false
      rw [touch_reserved]
      rfl
  · rw [lookup_eq_descend] at hl
    have hr0 : r = 0 := by
      rcases hcase with ⟨h, _⟩ | ⟨_, _, hnone⟩
      · exact h
      · rw [hl] at hnone
        exact absurd hnone (by simp)
    subst hr0
    have hd := register_descend_self s s1 ft a e hs ha hreg
    rw [old_leaf_some 8 _ _ l hl] at hd
    have hc1 : ({ touch l ft with ether := e, nreq := 0 } : arpn).claimed = l.claimed :=
      touch_claimed l ft
    have hr1 : ({ touch l ft with ether := e, nreq := 0 } : arpn).reserved = l.reserved :=
      touch_reserved l ft
    refine ⟨rfl, ⟨_, by rw [lookup_eq_descend]; exact hd, hc1, hr1, rfl, rfl⟩, ?_⟩
    intro ft2 dst_set iface reply_ok ap len hp htpa hin
    subst htpa
    obtain ⟨lx, rx, sx, x1, x2, _, xpk, _, _⟩ :=
      packet_who_has_flagged s ft2 dst_set iface reply_ok ap len l hs hp hin hl
    obtain ⟨ly, ry, sy, y1, y2, y3, ypk, yr, yonly⟩ :=
      packet_who_has_flagged s1 ft2 dst_set iface reply_ok ap len _ hs1 hp hin hd
    rw [hr1] at y1
    rw [hc1] at y2
    have hfx : (touch lx ft2).reserved = l.reserved := by rw [touch_reserved, x1]
    have hcx : (touch lx ft2).claimed = l.claimed := by rw [touch_claimed, x2]
    have hfy : (touch ly ft2).reserved = l.reserved := by rw [touch_reserved, y1]
    have hcy : (touch ly ft2).claimed = l.claimed := by rw [touch_claimed, y2]
    refine ⟨fun hflag => ?_, fun hcl hres => ?_⟩
    · rw [ypk, xpk]
      show (analyze_target (touch ly ft2) ft2 iface ap).2.toList =
        (analyze_target (touch lx ft2) ft2 iface ap).2.toList
      rw [analyze_target_flags (touch lx ft2) (touch ly ft2) ft2 iface ap (by rw [hfy, hfx])
        (by rw [hcy, hcx]) (by rw [hcx, hfx]; exact hflag)]
    · obtain ⟨a1, a2, _, a4, a5, a6⟩ := analyze_target_claimed (touch ly ft2) ft2 iface ap
        (by rw [hfy, hres]) (by rw [hcy, hcl])
      rw [a1] at ypk yr
      refine ⟨ry, sy, ypk, ?_, rfl, rfl, rfl, fun l2 hl2 => ?_⟩
      · rw [yr]
        simp
      · rw [lookup_eq_descend] at hl2
        rw [yonly l2 hl2]
        refine ⟨a4, a5, a2, fun hne => ?_⟩
        rw [a6, touch_ether, y3 hne]

/-- Witness for C21: 10.0.0.5, claimed on the interface 02:00:00:00:00:09, is
registered by a host with 02:00:00:00:00:05 at 1004000 ms; the leaf stays
claimed, and the who-has received at 1005000 ms is answered. -/
theorem register_keeps_flags_witness :
    ∃ s1 l1, arp_register ex_claimed 1004000 0x0a000005 ⟨2, 0, 0, 0, 0, 5⟩ = .ok (0, s1) ∧
      arp_lookup_node s1.arp_root 0x0a000005 = some l1 ∧ l1.claimed = true ∧
      l1.reserved = false ∧ l1.ether = ⟨2, 0, 0, 0, 0, 5⟩ ∧
      ∃ r2 s2, packet_analyze_arp s1 1005000 none ex_iface true ex_who_has 28 =
        .ok (r2, s2, [arp_reply ex_iface ex_who_has]) := by
  obtain ⟨r, s1, h1, _, _, _, h5⟩ := register_keeps_flags ex_claimed 1004000 0x0a000005
    ⟨2, 0, 0, 0, 0, 5⟩ ex_claimed_wf (by decide)
  obtain ⟨hr, ⟨l1, q1, q2, q3, q4, _⟩, hnext⟩ := h5
    { new_node 0x0a000005 32 with
      first := 1000000, last := 1003000, ether := ex_iface, claimed := true } rfl
  subst hr
  obtain ⟨r2, s2, hpk, _⟩ := (hnext 1005000 none ex_iface true ex_who_has 28 (by decide) rfl rfl).2
    rfl rfl
  exact ⟨s1, l1, h1, q1, q2, q3, q4, r2, s2, hpk⟩

/-- The flags are independent: 10.0.0.5 claimed, then reserved, then
registered by a host keeps both flags, and the who-has that follows is not
answered, as it would not have been before the registration. -/
theorem register_keeps_both_flags :
    (arp_lookup_node (state_of (arp_register
        (state_of (arp_reserve ex_claimed 1003500 0x0a000005)) 1004000 0x0a000005
        ⟨2, 0, 0, 0, 0, 5⟩)).arp_root 0x0a000005).map
      (fun l => (l.claimed, l.reserved)) = some (true, true) ∧
    pkt_out (packet_analyze_arp (state_of (arp_register
        (state_of (arp_reserve ex_claimed 1003500 0x0a000005)) 1004000 0x0a000005
        ⟨2, 0, 0, 0, 0, 5⟩)) 1005000 none ex_iface true ex_who_has 28) = [] ∧
    pkt_out (packet_analyze_arp (state_of (arp_reserve ex_claimed 1003500 0x0a000005))
      1005000 none ex_iface true ex_who_has 28) = [] := by
  refine ⟨by decide, by decide, by decide⟩

/-! ## Timestamps over successive insertions -/

theorem insert_calls_chain (a : Nat) (ha : a < 2 ^ 32) : ∀ (ts : List Nat) (s : State) (l0 : arpn),
    s.wf → descend 8 s.arp_root a = some l0 →
    ∃ ls : List arpn, insert_calls a ts s.arp_root s.mem = ls.map some ∧
      List.Forall₂ (fun t l => l.first ≤ t ∧ t ≤ l.last) ts ls ∧
      List.Chain (fun x y => y.first ≤ x.first ∧ x.last ≤ y.last) l0 ls := by
  intro ts
  induction ts with
  | nil =>
    intro s l0 _ _
    exact ⟨[], rfl, List.Forall₂.nil, List.Chain.nil⟩
  | cons t ts ih =>
    intro s l0 hs hl0
    obtain ⟨r, n', m', he, hwf, hadd, hcase⟩ := insert_root_spec s a t hs ha
    rcases hcase with ⟨hr, hn⟩ | ⟨_, _, hnone⟩
    swap
    · rw [hl0] at hnone
      exact absurd hnone (by simp)
    rw [old_leaf_some 8 _ _ l0 hl0] at hr
    have hd : descend 8 n' a = some (touch l0 t) := by
      rw [hn, ins_descend_self, old_leaf_some 8 _ _ l0 hl0]
    obtain ⟨ls, h1, h2, h3⟩ := ih { arp_root := n', mem := m' } (touch l0 t) (wf_mk _ _ hwf hadd) hd
    refine ⟨touch l0 t :: ls, ?_, List.Forall₂.cons ?_ h2, List.Chain.cons ?_ h3⟩
    · rw [insert_calls, he, hr]
      simp only [List.map_cons]
      rw [← h1]
    · rw [touch_first, touch_last]
      exact ⟨min_le_right _ _, le_max_right _ _⟩
    · rw [touch_first, touch_last]
      exact ⟨min_le_left _ _, le_max_left _ _⟩


/-- C7, as stated, fails for the calls the program makes: 10.0.0.5 registers at
1000000 ms (first call of `arp_insert` for it), is asked for at 1005000 ms
(second call, which returns its leaf with `first = 1000000`; the request then
restarts the count and sets `first = 1005000`), and the third call, at
1006000 ms, returns the leaf with `first = 1005000`: between two calls made at
non-decreasing clock values `first` has increased. -/
theorem insert_timestamps_counterexample :
    (arp_lookup_node ex_once.arp_root 0x0a000005).map (fun l => (l.first, l.last, l.nreq)) =
      some (1000000, 1000000, 0) ∧
    (insert_ret (arp_insert 9
        (state_of (arp_register ex_once 1005000 ex_who_has.spa ex_who_has.sha)).arp_root
        0x0a000005 1005000
        (state_of (arp_register ex_once 1005000 ex_who_has.spa ex_who_has.sha)).mem)).map
      (fun l => (l.first, l.last)) = some (1000000, 1005000) ∧
    (arp_lookup_node ex_restarted.arp_root 0x0a000005).map (fun l => (l.first, l.last, l.nreq)) =
      some (1005000, 1005000, 1) ∧
    (insert_ret (arp_insert 9 ex_restarted.arp_root 0x0a000005 1006000 ex_restarted.mem)).map
      (fun l => (l.first, l.last)) = some (1005000, 1006000) := by
  refine ⟨by decide, by decide, by decide, by decide⟩

/-- C7, amended. On a well-formed trie every call of `arp_insert` for `a`, at
any clock value, returns; it returns `NULL` exactly when an allocation it
needs fails, so it returns the leaf whenever `a` has one; the leaf returned is
the leaf of `a` in the tree afterwards and has `first <= ft_time <= last`, with
`first` not above and `last` not below what the leaf held before the call.
Hence over every sequence of calls for `a` with no other write in between,
every call returns the leaf, `first` never increases and `last` never decreases
from one call to the next, and `first <= ft_time <= last` after each call.  The
writes the program makes between the calls may raise `first`; `last` is at most
the clock in every state reached with a clock that does not run backwards, so
that a call at a later clock value returns the leaf with `last = ft_time`. -/
theorem insert_timestamps (s : State) (a : Nat) (hs : s.wf) (ha : a < 2 ^ 32) :
    (∀ ft, ∃ r n' m', arp_insert 9 s.arp_root a ft s.mem = .ok (r, n', m') ∧
      State.wf { arp_root := n', mem := m' } ∧
      (r = none ↔ false ∈ s.mem.heap.take (missing 8 s.arp_root a)) ∧
      (∀ l1, r = some l1 →
        arp_lookup_node n' a = some l1 ∧ l1.first ≤ ft ∧ ft ≤ l1.last) ∧
      (∀ l0, arp_lookup_node s.arp_root a = some l0 →
        ∃ l1, r = some l1 ∧ l1.first ≤ l0.first ∧ l0.last ≤ l1.last)) ∧
    (∀ l0, arp_lookup_node s.arp_root a = some l0 → ∀ ts : List Nat,
      ∃ ls : List arpn, insert_calls a ts s.arp_root s.mem = ls.map some ∧
        List.Forall₂ (fun t l => l.first ≤ t ∧ t ≤ l.last) ts ls ∧
        List.Chain (fun x y => y.first ≤ x.first ∧ x.last ≤ y.last) l0 ls) ∧
    (∀ t t' l0, Reach s.arp_root t → t ≤ t' → arp_lookup_node s.arp_root a = some l0 →
      l0.last ≤ t ∧
      ∃ l1 n' m', arp_insert 9 s.arp_root a t' s.mem = .ok (some l1, n', m') ∧ l1.last = t') := by
  refine ⟨fun ft => ?_, fun l0 hl0 ts => ?_, fun t t' l0 hreach htt hl0 => ?_⟩
  · obtain ⟨r, n', m', he, hwf, hadd, hcase⟩ := insert_root_spec s a ft hs ha
    have hfail := (insert_fail 8 s.arp_root a ft s.mem r n' m' hs.1 ha (wf_covers s a hs ha) he).1
    refine ⟨r, n', m', he, wf_mk _ _ hwf hadd, hfail, fun l1 hr1 => ?_, fun l0 hl0 => ?_⟩
    · rcases hcase with ⟨hr, hn⟩ | ⟨hr, _, _⟩
      · rw [hr1, Option.some.injEq] at hr
        refine ⟨?_, ?_, ?_⟩
        · rw [lookup_eq_descend, hn, hr]
          exact ins_descend_self 8 _ a ft
        · rw [hr, touch_first]
          exact min_le_right _ _
        · rw [hr, touch_last]
          exact le_max_right _ _
      · rw [hr] at hr1
        exact absurd hr1 (by simp)
    · rw [lookup_eq_descend] at hl0
      rcases hcase with ⟨hr, _⟩ | ⟨_, _, hnone⟩
      · rw [old_leaf_some 8 _ _ l0 hl0] at hr
        refine ⟨touch l0 ft, hr, ?_, ?_⟩
        · rw [touch_first]
          exact min_le_left _ _
        · rw [touch_last]
          exact le_max_left _ _
      · rw [hl0] at hnone
        exact absurd hnone (by simp)
  · rw [lookup_eq_descend] at hl0
    exact insert_calls_chain a ha ts s l0 hs hl0
  · rw [lookup_eq_descend] at hl0
    have hinv := (Reach_inv s.arp_root t hreach).2.2
    have hlast : l0.last ≤ t := Inv_descend_last 8 s.arp_root a t l0 hinv hl0
    obtain ⟨r, n', m', he, _, _, hcase⟩ := insert_root_spec s a t' hs ha
    rcases hcase with ⟨hr, _⟩ | ⟨_, _, hnone⟩
    · rw [old_leaf_some 8 _ _ l0 hl0] at hr
      refine ⟨hlast, touch l0 t', n', m', by rw [he, hr], ?_⟩
      rw [touch_last]
      exact max_eq_right (le_trans hlast htt)
    · rw [hl0] at hnone
      exact absurd hnone (by simp)

/-- Witness for the amended C7: three more calls for 10.0.0.5, registered at
1000000 ms, at 1001000, 1002000 and 1003000 ms. -/
theorem insert_timestamps_witness :
    ∃ ls : List arpn,
      insert_calls 0x0a000005 [1001000, 1002000, 1003000] ex_once.arp_root ex_once.mem =
        ls.map some ∧
      List.Forall₂ (fun t l => l.first ≤ t ∧ t ≤ l.last) [1001000, 1002000, 1003000] ls ∧
      List.Chain (fun x y => y.first ≤ x.first ∧ x.last ≤ y.last)
        { new_node 0x0a000005 32 with
          first := 1000000, last := 1000000, ether := ⟨2, 0, 0, 0, 0, 5⟩ } ls :=
  (insert_timestamps ex_once 0x0a000005
    (register_wf (State.init []) ex_once 1000000 0x0a000005 ⟨2, 0, 0, 0, 0, 5⟩ 0 (wf_init [])
      (by decide) rfl) (by decide)).2.1
    { new_node 0x0a000005 32 with
      first := 1000000, last := 1000000, ether := ⟨2, 0, 0, 0, 0, 5⟩ } rfl
    [1001000, 1002000, 1003000]

end Flytrap
